import Mathlib

/-!
# Character-encoding conversion of `common/encoding.cpp` and `common/str-enc.cpp`

A shallow embedding of `Common::Encoding` (the conversion dispatcher, the endianness
swap, the built-in table converter and the Cyrillic transliteration) and of the UTF-8
codec of `Common::String` / `Common::U32String`, followed by theorems about them.

Conventions of the embedding.

* A byte is a `Fin 256`, a `uint32` is a `Fin 4294967296`; every narrowing store is an
  explicit `% 256` or `% 4294967296`.
* A `const char *` argument is the list of bytes that may be read through the pointer;
  a read past the end of that list is the fault `outOfBounds`.
* A function returning `char *` returns `Except Fault (Option (List Byte))`: `ok (some b)`
  is the whole allocated buffer `b` (payload and padding), `ok none` is `nullptr`
  ("no result"), `error f` is an abort.
* Sizes and loop counters are natural numbers: buffers are taken to be small enough for
  `int`, `unsigned` and `size_t` to agree on their length.
* The recursion between `convertWithTransliteration`, `conversion` and
  `convertConversionTable` is cut by a fuel argument; it counts nested calls of
  `convertWithTransliteration`.
-/

namespace Common

/-- One byte of a buffer (`char` / `unsigned char`). -/
abbrev Byte := Fin 256

/-- A 32-bit unsigned value (`uint32`), the type of a code point. -/
abbrev U32 := Fin 4294967296

/-- Narrowing store of a number into a byte. -/
def Byte.ofNat (n : Nat) : Byte := ⟨n % 256, Nat.mod_lt n (by decide)⟩

/-- Narrowing store of a number into a `uint32`. -/
def U32.ofNat (n : Nat) : U32 := ⟨n % 4294967296, Nat.mod_lt n (by decide)⟩

/-- The ways a call can abort instead of returning. -/
inductive Fault where
  | assertion
  | outOfBounds
  | nullDeref
  | fatalError
  | outOfFuel
  deriving DecidableEq, Repr

/-- What a function returning `char *` produces. -/
abbrev Result := Except Fault (Option (List Byte))

/-- A block of `n` zero bytes, as `calloc` leaves it. -/
def zeros (n : Nat) : List Byte := List.replicate n 0

/-! ## `Common::String` helpers on encoding names -/

/-- Modelled from the spec: the characters of a name with ASCII letters lowered, the
normal form behind the case-insensitive comparisons of `Common::String` (common/str.cpp
is not part of the sources). -/
def lowerChars (s : String) : List Char := s.data.map Char.toLower

/-- Modelled from the spec: `String::equalsIgnoreCase`, equality of names ignoring ASCII
case (common/str.cpp is not part of the sources). -/
def equalsIgnoreCase (s x : String) : Bool := lowerChars s == lowerChars x

/-- Modelled from the spec: `String::hasPrefixIgnoreCase`, prefix test ignoring ASCII
case (common/str.cpp is not part of the sources). -/
def hasPrefixIgnoreCase (s x : String) : Bool := (lowerChars x).isPrefixOf (lowerChars s)

/-- Modelled from the spec: `String::hasSuffixIgnoreCase`, suffix test ignoring ASCII
case (common/str.cpp is not part of the sources). -/
def hasSuffixIgnoreCase (s x : String) : Bool := (lowerChars x).isSuffixOf (lowerChars s)

/-! ## The host -/

/-- The enumeration `CodePage` of common/codepages.h. -/
inductive CodePage where
  | kCodePageInvalid
  | kUtf8
  | kCodePage437
  | kCodePage850
  | kCodePage866
  | kWindows932
  | kWindows949
  | kWindows950
  | kWindows1250
  | kWindows1251
  | kWindows1252
  | kWindows1253
  | kWindows1254
  | kWindows1255
  | kWindows1256
  | kWindows1257
  deriving DecidableEq, Repr

/-- A 256-entry conversion table, indexed by byte value. -/
abbrev Table := Byte → U32

/-- Everything the conversion code takes from its build and its environment: the byte
order (`SCUMM_BIG_ENDIAN`), the allocator, the two external converters and the
code-page tables, whose defining file is not part of the sources. -/
structure Host where
  /-- Whether `SCUMM_BIG_ENDIAN` is defined. -/
  bigEndian : Bool
  /-- Whether `calloc` / `malloc` of the given number of bytes succeeds. -/
  allocates : Nat → Bool
  /-- The iconv-based converter `Encoding::convertIconv`; it returns `none` on every
  request when `USE_ICONV` is not defined. -/
  convertIconv : String → String → List Byte → Nat → Option (List Byte)
  /-- The platform converter `g_system->convertEncoding`. -/
  convertEncoding : String → String → List Byte → Nat → Option (List Byte)
  /-- The function `getCodePageConversionTable` declared in common/codepages.h; `none`
  is the null pointer. -/
  getCodePageConversionTable : CodePage → Option Table

/-- Both external converters return no result on every request. -/
def Host.backendsUnavailable (h : Host) : Prop :=
  (∀ toName fromName s n, h.convertIconv toName fromName s n = none) ∧
  (∀ toName fromName s n, h.convertEncoding toName fromName s n = none)

/-- Every allocation succeeds. -/
def Host.allocationSucceeds (h : Host) : Prop := ∀ n, h.allocates n = true

/-! ## Memory access -/

/-- The element `((const uint16 *)string)[i]`, read in the byte order of the host. -/
def load16 (bigEndian : Bool) (string : List Byte) (i : Nat) : Except Fault Nat :=
  match string[2 * i]?, string[2 * i + 1]? with
  | some b0, some b1 =>
    .ok (if bigEndian then b0.val * 256 + b1.val else b0.val + b1.val * 256)
  | _, _ => .error .outOfBounds

/-- The bytes that the store of a `uint16` writes, in the byte order of the host. -/
def store16 (bigEndian : Bool) (v : Nat) : List Byte :=
  if bigEndian then [Byte.ofNat (v / 256), Byte.ofNat v]
  else [Byte.ofNat v, Byte.ofNat (v / 256)]

/-- The element `((const uint32 *)string)[i]`, read in the byte order of the host. -/
def load32 (bigEndian : Bool) (string : List Byte) (i : Nat) : Except Fault U32 :=
  match string[4 * i]?, string[4 * i + 1]?, string[4 * i + 2]?, string[4 * i + 3]? with
  | some b0, some b1, some b2, some b3 =>
    .ok (U32.ofNat (if bigEndian
      then b0.val * 16777216 + b1.val * 65536 + b2.val * 256 + b3.val
      else b0.val + b1.val * 256 + b2.val * 65536 + b3.val * 16777216))
  | _, _, _, _ => .error .outOfBounds

/-- The bytes that the store of a `uint32` writes, in the byte order of the host. -/
def store32 (bigEndian : Bool) (v : Nat) : List Byte :=
  if bigEndian
  then [Byte.ofNat (v / 16777216), Byte.ofNat (v / 65536), Byte.ofNat (v / 256), Byte.ofNat v]
  else [Byte.ofNat v, Byte.ofNat (v / 256), Byte.ofNat (v / 65536), Byte.ofNat (v / 16777216)]

/-- The bytes `memcpy(dst, string, length)` copies. -/
def memcpy (string : List Byte) (length : Nat) : Except Fault (List Byte) :=
  if length ≤ string.length then .ok (string.take length) else .error .outOfBounds

/-- The C library `strlen`: the index of the first zero byte. -/
def strlen : List Byte → Except Fault Nat
  | [] => .error .outOfBounds
  | b :: rest => if b.val = 0 then .ok 0 else (strlen rest).map (· + 1)

/-- Modelled from the spec: the macro `SWAP_BYTES_16` of common/endian.h (not part of
the sources), which exchanges the two bytes of a 16-bit value. -/
def SWAP_BYTES_16 (a : Nat) : Nat := (a / 256) % 256 + (a % 256) * 256

/-- Modelled from the spec: the macro `SWAP_BYTES_32` of common/endian.h (not part of
the sources), which reverses the four bytes of a 32-bit value. -/
def SWAP_BYTES_32 (a : Nat) : Nat :=
  (a / 16777216) % 256 + ((a / 65536) % 256) * 256 + ((a / 256) % 256) * 65536
    + (a % 256) * 16777216

/-! ## `Common::addUtfEndianness` and `Encoding::switchEndian` -/

/-- `Common::addUtfEndianness`. -/
def addUtfEndianness (h : Host) (str : String) : String :=
  if equalsIgnoreCase str "utf-16" || equalsIgnoreCase str "utf-32" then
    if h.bigEndian then str ++ "BE" else str ++ "LE"
  else str

/-- The 16-bit loop of `switchEndian`: `n` elements starting at element `i`. -/
def switchEndian16 (h : Host) (string : List Byte) : Nat → Nat → Except Fault (List Byte)
  | _, 0 => .ok []
  | i, n + 1 => do
    let v ← load16 h.bigEndian string i
    let rest ← switchEndian16 h string (i + 1) n
    pure (store16 h.bigEndian (SWAP_BYTES_16 v) ++ rest)

/-- The 32-bit loop of `switchEndian`: `n` elements starting at element `i`. -/
def switchEndian32 (h : Host) (string : List Byte) : Nat → Nat → Except Fault (List Byte)
  | _, 0 => .ok []
  | i, n + 1 => do
    let v ← load32 h.bigEndian string i
    let rest ← switchEndian32 h string (i + 1) n
    pure (store32 h.bigEndian (SWAP_BYTES_32 v.val) ++ rest)

/-- `Encoding::switchEndian`. -/
def switchEndian (h : Host) (string : List Byte) (length bitCount : Nat) : Result :=
  if bitCount % 8 ≠ 0 then .error .assertion
  else if length % (bitCount / 8) ≠ 0 then .error .assertion
  else if !h.allocates (length + 4) then .ok none
  else if bitCount = 16 then do
    let characterCount := length / 2
    let swapped ← switchEndian16 h string 0 characterCount
    pure (some (swapped ++ zeros (length + 4 - 2 * characterCount)))
  else if bitCount = 32 then do
    let characterCount := length / 4
    let swapped ← switchEndian32 h string 0 characterCount
    pure (some (swapped ++ zeros (length + 4 - 4 * characterCount)))
  else .ok none

/-! ## Cyrillic transliteration -/

/-- The table `g_cyrillicTransliterationTable`. -/
def g_cyrillicTransliterationTable : List Char := [
  ' ', 'E', 'D', 'G', 'E', 'Z', 'I', 'I', 'J', 'L', 'N', 'C', 'K', '-', 'U', 'D',
  'A', 'B', 'V', 'G', 'D', 'E', 'Z', 'Z', 'I', 'J', 'K', 'L', 'M', 'N', 'O', 'P',
  'R', 'S', 'T', 'U', 'F', 'H', 'C', 'C', 'S', 'S', '\"', 'Y', '\'', 'E', 'U', 'A',
  'a', 'b', 'v', 'g', 'd', 'e', 'z', 'z', 'i', 'j', 'k', 'l', 'm', 'n', 'o', 'p',
  'r', 's', 't', 'u', 'f', 'h', 'c', 'c', 's', 's', '\"', 'y', '\'', 'e', 'u', 'a',
  'N', 'e', 'd', 'g', 'e', 'z', 'i', 'i', 'j', 'l', 'n', 'c', 'k', '?', 'u', 'd']

/-- The read `g_cyrillicTransliterationTable[i]`, as the value of the `char`. -/
def cyrillicAt (i : Nat) : Except Fault Nat :=
  match g_cyrillicTransliterationTable[i]? with
  | some c => .ok c.toNat
  | none => .error .outOfBounds

/-- The read `string[i]` of a byte. -/
def byteAt (string : List Byte) (i : Nat) : Except Fault Byte :=
  match string[i]? with
  | some b => .ok b
  | none => .error .outOfBounds

/-- The value `transliterateCyrillic` stores into `result[i]` for the byte `b` it read. -/
def transliterateCyrillicByte (b : Byte) : Except Fault Byte :=
  if b.val ≥ 160 then (cyrillicAt (b.val - 160)).map Byte.ofNat else pure b

/-- The loop of `transliterateCyrillic`: `n` bytes starting at index `i`. -/
def transliterateCyrillicLoop (string : List Byte) : Nat → Nat → Except Fault (List Byte)
  | _, 0 => .ok []
  | i, n + 1 => do
    let b ← byteAt string i
    let out ← transliterateCyrillicByte b
    let rest ← transliterateCyrillicLoop string (i + 1) n
    pure (out :: rest)

/-- `Encoding::transliterateCyrillic`: the result holds the `strlen(string) + 1` bytes the
loop writes. -/
def transliterateCyrillic (h : Host) (string : List Byte) : Result := do
  let len ← strlen string
  if !h.allocates (len + 1) then pure none
  else
    let out ← transliterateCyrillicLoop string 0 (len + 1)
    pure (some out)

/-- The value `transliterateUTF32` stores into `result[i]` for the element `c` it read. -/
def transliterateUTF32Element (c : U32) : Except Fault Nat :=
  if c.val ≥ 0x410 ∧ c.val ≤ 0x450 then cyrillicAt (c.val - 160 - 864) else pure c.val

/-- The loop of `transliterateUTF32`: `n` elements starting at element `i`. -/
def transliterateUTF32Loop (h : Host) (string : List Byte) : Nat → Nat → Except Fault (List Byte)
  | _, 0 => .ok []
  | i, n + 1 => do
    let c ← load32 h.bigEndian string i
    let out ← transliterateUTF32Element c
    let rest ← transliterateUTF32Loop h string (i + 1) n
    pure (store32 h.bigEndian out ++ rest)

/-- `Encoding::transliterateUTF32`: the result holds the `length / 4 + 1` elements the loop
writes; the bytes of the `malloc`ed block behind them are never written and are not part
of the result. -/
def transliterateUTF32 (h : Host) (string : List Byte) (length : Nat) : Result :=
  if !h.allocates (length + 4) then .ok none
  else do
    let out ← transliterateUTF32Loop h string 0 (length / 4 + 1)
    pure (some out)

/-! ## The built-in table converter -/

/-- The registry `g_encodingConversionTables`, without its terminating null entry. -/
def g_encodingConversionTables (h : Host) : List (String × Option Table) := [
  ("cp850", h.getCodePageConversionTable CodePage.kCodePage850),
  ("cp437", h.getCodePageConversionTable CodePage.kCodePage437)]

/-- The table search of `convertConversionTable`: every entry whose name matches assigns
its table, so the last match wins. -/
def lookupTable (h : Host) (name : String) : Option Table :=
  (g_encodingConversionTables h).foldl
    (fun table entry => if equalsIgnoreCase name entry.1 then entry.2 else table) none

/-- The decode loop `utf32Result[i] = table[(unsigned char)string[i]]`: `n` bytes starting
at index `i`. -/
def decodeLoop (h : Host) (table : Table) (string : List Byte) : Nat → Nat → Except Fault (List Byte)
  | _, 0 => .ok []
  | i, n + 1 => do
    let b ← byteAt string i
    let rest ← decodeLoop h table string (i + 1) n
    pure (store32 h.bigEndian (table b).val ++ rest)

/-- The inner loop `for (j = 0; j < 257; j++)` of the encode path: `steps` iterations are
left, `cur` is the present content of `finalResult[i]`. -/
def scanTable (table : Table) (c : U32) : Nat → Nat → Byte → Byte
  | 0, _, cur => cur
  | steps + 1, j, cur =>
    if j = 256 then scanTable table c steps (j + 1) (Byte.ofNat '?'.toNat)
    else if c = table (Byte.ofNat j) then Byte.ofNat j
    else scanTable table c steps (j + 1) cur

/-- The outer loop of the encode path: `n` elements starting at element `i`. -/
def encodeLoop (h : Host) (table : Table) (utf32Result : Option (List Byte)) :
    Nat → Nat → Except Fault (List Byte)
  | _, 0 => .ok []
  | i, n + 1 => do
    let c ← match utf32Result with
      | some buf => load32 h.bigEndian buf i
      | none => throw Fault.nullDeref
    let rest ← encodeLoop h table utf32Result (i + 1) n
    pure (scanTable table c 257 0 0 :: rest)

/-- `Encoding::convertConversionTable`; `convert` is the dispatcher it calls back. -/
def convertConversionTable (h : Host) (convert : String → String → List Byte → Nat → Result)
    (toName fromName : String) (string : List Byte) (length : Nat) : Result :=
  match lookupTable h fromName with
  | some table =>
    if !h.allocates (4 * (length + 1)) then .ok none
    else do
      let decoded ← decodeLoop h table string 0 length
      let utf32Result := decoded ++ zeros 4
      convert toName "utf-32" utf32Result (length * 4)
  | none =>
    match lookupTable h toName with
    | some table => do
      let utf32Result ← convert "utf-32" fromName string length
      let length := if hasPrefixIgnoreCase fromName "utf-16" then length / 2 else length
      let length := if hasPrefixIgnoreCase fromName "utf-32" then length / 4 else length
      if !h.allocates (length + 1) then pure none
      else
        let encoded ← encodeLoop h table utf32Result 0 length
        pure (some (encoded ++ zeros 1))
    | none => .ok none

/-! ## The dispatcher -/

/-- `Encoding::conversion`: the iconv converter, then the platform converter, then the
built-in tables, each with the names `addUtfEndianness` gives. -/
def conversion (h : Host) (convert : String → String → List Byte → Nat → Result)
    (toName fromName : String) (string : List Byte) (length : Nat) : Result :=
  match h.convertIconv (addUtfEndianness h toName) (addUtfEndianness h fromName) string length with
  | some result => .ok (some result)
  | none =>
    match h.convertEncoding (addUtfEndianness h toName) (addUtfEndianness h fromName)
        string length with
    | some result => .ok (some result)
    | none =>
      convertConversionTable h convert (addUtfEndianness h toName) (addUtfEndianness h fromName)
        string length

/-- The scan `for (i = 0; ((const uint32 *)tmpString)[i]; i++)`: the index of the first
zero element at or after element `i`, with `n` elements left to look at. -/
def utf32Terminator (h : Host) (tmpString : List Byte) : Nat → Nat → Except Fault Nat
  | _, 0 => .error .outOfBounds
  | i, n + 1 => do
    let c ← load32 h.bigEndian tmpString i
    if c.val = 0 then pure i else utf32Terminator h tmpString (i + 1) n

/-- The copying branch of `convertWithTransliteration`. -/
def copyString (h : Host) (string : List Byte) (length : Nat) : Result :=
  if !h.allocates (length + 4) then .ok none
  else do
    let copied ← memcpy string length
    pure (some (copied ++ zeros 4))

/-- The body of `Encoding::convertWithTransliteration`; `convert` stands for its nested
calls. -/
def convertWithTransliterationBody (h : Host)
    (convert : String → String → List Byte → Nat → Result)
    (toName fromName : String) (string : List Byte) (length : Nat) : Result :=
  if equalsIgnoreCase fromName toName then copyString h string length
  else if (hasPrefixIgnoreCase toName "utf-16" && hasPrefixIgnoreCase fromName "utf-16") ||
      (hasPrefixIgnoreCase toName "utf-32" && hasPrefixIgnoreCase fromName "utf-32") then
    let fromBigEndian :=
      if h.bigEndian then !hasSuffixIgnoreCase fromName "le" else hasSuffixIgnoreCase fromName "be"
    let toBigEndian :=
      if h.bigEndian then !hasSuffixIgnoreCase toName "le" else hasSuffixIgnoreCase toName "be"
    if fromBigEndian = toBigEndian then copyString h string length
    else if hasPrefixIgnoreCase toName "utf-16" then switchEndian h string length 16
    else switchEndian h string length 32
  else do
    -- (newString, newFrom) after the ISO-8859-5 pre-pass
    let (newString, newFrom) ←
      if equalsIgnoreCase fromName "iso-8859-5" && !hasPrefixIgnoreCase toName "utf" then do
        match ← transliterateCyrillic h string with
        | none => return none
        | some s => pure (some s, "ASCII")
      else pure (none, fromName)
    -- (newString, newFrom, newLength) after the UTF pre-pass
    let (newString, newFrom, newLength) ←
      if hasPrefixIgnoreCase fromName "utf" && !hasPrefixIgnoreCase toName "utf" &&
          !equalsIgnoreCase toName "iso-8859-5" then do
        if hasPrefixIgnoreCase fromName "utf-32" then
          match ← transliterateUTF32 h string length with
          | none => return none
          | some s => pure (some s, newFrom, length)
        else
          match ← conversion h convert "UTF-32" fromName string length with
          | none => return none
          | some tmpString =>
            let i ← utf32Terminator h tmpString 0 (tmpString.length / 4 + 1)
            match ← transliterateUTF32 h tmpString (i * 4) with
            | none => return none
            | some s => pure (some s, "UTF-32", i * 4)
      else pure (newString, newFrom, length)
    match newString with
    | some s => conversion h convert toName newFrom s newLength
    | none => conversion h convert toName newFrom string newLength

/-- `Encoding::convertWithTransliteration`, with `fuel` nested calls allowed. -/
def convertWithTransliteration (h : Host) :
    Nat → String → String → List Byte → Nat → Result
  | 0 => fun _ _ _ _ => .error .outOfFuel
  | fuel + 1 => convertWithTransliterationBody h (convertWithTransliteration h fuel)

/-- `Encoding::convert(to, from, string, size)`. -/
def convert (h : Host) (fuel : Nat) (toName fromName : String) (string : List Byte)
    (size : Nat) : Result :=
  convertWithTransliteration h fuel toName fromName string size

/-! ## Reference functions and an example host -/

/-- Every 2-byte unit byte-reversed. -/
def reverseUnits16 : List Byte → List Byte
  | a :: b :: rest => b :: a :: reverseUnits16 rest
  | rest => rest

/-- Every 4-byte unit byte-reversed. -/
def reverseUnits32 : List Byte → List Byte
  | a :: b :: c :: d :: rest => d :: c :: b :: a :: reverseUnits32 rest
  | rest => rest

/-- The byte order a UTF-16 / UTF-32 name resolves to: big endian with the suffix "BE",
little endian with the suffix "LE", the byte order of the host without a suffix. -/
def resolvesBigEndian (h : Host) (name : String) : Bool :=
  if hasSuffixIgnoreCase name "be" then true
  else if hasSuffixIgnoreCase name "le" then false
  else h.bigEndian

/-- A host without external converters whose allocations succeed and whose two tabulated
pages map every byte to the code point of the same value. -/
def exampleHost : Host where
  bigEndian := false
  allocates := fun _ => true
  convertIconv := fun _ _ _ _ => none
  convertEncoding := fun _ _ _ _ => none
  getCodePageConversionTable := fun page =>
    if page = CodePage.kCodePage437 ∨ page = CodePage.kCodePage850
    then some (fun b => U32.ofNat b.val) else none

/-- The bytes of a sequence of code points stored as `uint32` elements in the given byte
order. -/
def utf32Bytes (bigEndian : Bool) : List U32 → List Byte
  | [] => []
  | c :: cs => store32 bigEndian c.val ++ utf32Bytes bigEndian cs

/-- The name of a page of the registry `g_encodingConversionTables`, up to case. -/
def IsTabulatedName (P : String) : Prop :=
  lowerChars P = ['c', 'p', '8', '5', '0'] ∨ lowerChars P = ['c', 'p', '4', '3', '7']

/-- What `transliterateUTF32` stores for the code point `c`: the table character for a
code point of 0x410..0x450, the code point itself otherwise. -/
def transliteratedCodePoint (c : U32) : U32 :=
  if c.val ≥ 0x410 ∧ c.val ≤ 0x450
  then U32.ofNat (g_cyrillicTransliterationTable.getD (c.val - 0x400) ' ').toNat
  else c

/-- The byte the table scan of the encode path emits for the code point `c`. -/
def encodedByte (table : Table) (c : U32) : Byte := scanTable table c 257 0 0

/-- A host like `exampleHost` whose tabulated pages hold the code point 0x41 at the two
indices 0x41 and 0x80 and the Cyrillic code point 0x410 at index 0x81. -/
def overlappingHost : Host where
  bigEndian := false
  allocates := fun _ => true
  convertIconv := fun _ _ _ _ => none
  convertEncoding := fun _ _ _ _ => none
  getCodePageConversionTable := fun page =>
    if page = CodePage.kCodePage437 ∨ page = CodePage.kCodePage850
    then some (fun b => if b.val = 0x80 then 0x41 else if b.val = 0x81 then 0x410
      else U32.ofNat b.val)
    else none

/-! ## The UTF-8 codec of common/str-enc.cpp

A `Common::String` is the list of its `_size` bytes; its storage (common/str.h, not part of
the sources) ends with a zero byte at `_str[_size]`, and a read behind that byte is out of
bounds (`storageAt` and `decodeUTF8Within`, further down, return what the storage holds
there instead). A `Common::U32String` is the list of its code points. `uint` arithmetic is
modulo 4294967296. -/

/-- The read `_str[i]` of a `Common::String` holding the bytes `str`. -/
def strAt (str : List Byte) (i : Nat) : Except Fault Byte :=
  if i = str.length then .ok 0 else byteAt str i

/-- The `switch (num)` of `String::decodeUTF8`: the code point assembled from the `num`
bytes at index `i`. -/
def decodeUTF8Char (str : List Byte) (i : Nat) : Nat → Except Fault Nat
  | 4 => do
    let b0 ← strAt str i
    let b1 ← strAt str (i + 1)
    let b2 ← strAt str (i + 2)
    let b3 ← strAt str (i + 3)
    pure ((((0 ||| ((b0.val &&& 0x07) <<< 18)) ||| ((b1.val &&& 0x3F) <<< 12))
      ||| ((b2.val &&& 0x3F) <<< 6)) ||| (b3.val &&& 0x3F))
  | 3 => do
    let b0 ← strAt str i
    let b1 ← strAt str (i + 1)
    let b2 ← strAt str (i + 2)
    pure (((0 ||| ((b0.val &&& 0x0F) <<< 12)) ||| ((b1.val &&& 0x3F) <<< 6))
      ||| (b2.val &&& 0x3F))
  | 2 => do
    let b0 ← strAt str i
    let b1 ← strAt str (i + 1)
    pure ((0 ||| ((b0.val &&& 0x1F) <<< 6)) ||| (b1.val &&& 0x3F))
  | _ => do
    let b0 ← strAt str i
    pure (b0.val &&& 0x7F)

/-- The sequence length `num` that `String::decodeUTF8` reads off a lead byte. -/
def sequenceLength (b : Byte) : Nat :=
  if b.val &&& 0xF8 = 0xF0 then 4
  else if b.val &&& 0xF0 = 0xE0 then 3
  else if b.val &&& 0xE0 = 0xC0 then 2
  else 1

/-- The loop of `String::decodeUTF8` from index `i`, with `fuel` iterations allowed. -/
def decodeUTF8Loop (str : List Byte) : Nat → Nat → List U32 → Except Fault (List U32)
  | 0, _, _ => .error .outOfFuel
  | fuel + 1, i, dst =>
    if i < str.length then do
      let lead ← strAt str i
      let num := sequenceLength lead
      if (i + 4294967296 - str.length) % 4294967296 ≥ num then do
        let chr ← decodeUTF8Char str i num
        decodeUTF8Loop str fuel (i + num) (dst ++ [U32.ofNat chr])
      else pure dst
    else pure dst

/-- `String::decodeUTF8`: the code points appended to `dst`. Every iteration consumes at
least one byte, so `_size + 1` iterations are enough. -/
def decodeUTF8 (str : List Byte) (dst : List U32) : Except Fault (List U32) :=
  decodeUTF8Loop str (str.length + 1) 0 dst

/-- The table `firstByteMark` of `U32String::encodeUTF8`. -/
def firstByteMark : List Nat := [0x00, 0x00, 0xC0, 0xE0, 0xF0]

/-- The bytes `dst += pBytes` appends: those in front of the first zero byte. -/
def cString (pBytes : List Byte) : List Byte := pBytes.takeWhile (fun b => b.val ≠ 0)

/-- One iteration of the loop of `U32String::encodeUTF8` on the code point `c`: the new
content of `writingBytes` and the bytes appended to `dst`. -/
def encodeUTF8Step (writingBytes : List Byte) (c : U32) : List Byte × List Byte :=
  let byteMask := 0xBF
  let byteMark := 0x80
  let ch := c.val
  let (bytesToWrite, ch) : Nat × Nat :=
    if ch < 0x80 then (1, ch)
    else if ch < 0x800 then (2, ch)
    else if ch < 0x10000 then (3, ch)
    else if ch ≤ 0x0010FFFF then (4, ch)
    else (3, 0x0000FFFD)
  let p := 4 - bytesToWrite
  let (w, ch) : List Byte × Nat :=
    if bytesToWrite = 4
    then (writingBytes.set (p + 3) (Byte.ofNat ((ch ||| byteMark) &&& byteMask)), ch >>> 6)
    else (writingBytes, ch)
  let (w, ch) : List Byte × Nat :=
    if bytesToWrite ≥ 3
    then (w.set (p + 2) (Byte.ofNat ((ch ||| byteMark) &&& byteMask)), ch >>> 6)
    else (w, ch)
  let (w, ch) : List Byte × Nat :=
    if bytesToWrite ≥ 2
    then (w.set (p + 1) (Byte.ofNat ((ch ||| byteMark) &&& byteMask)), ch >>> 6)
    else (w, ch)
  let w := w.set p (Byte.ofNat (ch ||| firstByteMark.getD bytesToWrite 0))
  (w, cString (w.drop p))

/-- The loop of `U32String::encodeUTF8` over the code points that are left. -/
def encodeUTF8Loop : List Byte → List U32 → List Byte → List Byte
  | _, [], dst => dst
  | writingBytes, c :: rest, dst =>
    encodeUTF8Loop (encodeUTF8Step writingBytes c).1 rest
      (dst ++ (encodeUTF8Step writingBytes c).2)

/-- `U32String::encodeUTF8`: the bytes appended to `dst`. -/
def encodeUTF8 (str : List U32) (dst : List Byte) : List Byte :=
  encodeUTF8Loop [0, 0, 0, 0, 0] str dst

/-- The UTF-8 form of a code point up to 0x10FFFF: 1, 2, 3 or 4 bytes by range, the lead
byte carrying the high bits and each continuation byte one 6-bit group. -/
def utf8Bytes (c : U32) : List Byte :=
  if c.val < 0x80 then [Byte.ofNat c.val]
  else if c.val < 0x800 then [Byte.ofNat (0xC0 + c.val / 64), Byte.ofNat (0x80 + c.val % 64)]
  else if c.val < 0x10000 then
    [Byte.ofNat (0xE0 + c.val / 4096), Byte.ofNat (0x80 + c.val / 64 % 64),
      Byte.ofNat (0x80 + c.val % 64)]
  else
    [Byte.ofNat (0xF0 + c.val / 262144), Byte.ofNat (0x80 + c.val / 4096 % 64),
      Byte.ofNat (0x80 + c.val / 64 % 64), Byte.ofNat (0x80 + c.val % 64)]

/-- The UTF-8 form of a sequence of code points. -/
def utf8Seq : List U32 → List Byte
  | [] => []
  | c :: rest => utf8Bytes c ++ utf8Seq rest

/-! ## `Encoding::stringLength` -/

/-- The scan `for (; *i != 0; i++)` of `stringLength` over `uint16` elements, from element
`i` with `n` elements left to look at; the result is the byte offset of the element that
stopped it. -/
def stringLength16 (h : Host) (string : List Byte) : Nat → Nat → Except Fault Nat
  | _, 0 => .error .outOfBounds
  | i, n + 1 => do
    let v ← load16 h.bigEndian string i
    if v = 0 then pure (2 * i) else stringLength16 h string (i + 1) n

/-- The scan of `stringLength` over `uint32` elements. -/
def stringLength32 (h : Host) (string : List Byte) : Nat → Nat → Except Fault Nat
  | _, 0 => .error .outOfBounds
  | i, n + 1 => do
    let v ← load32 h.bigEndian string i
    if v.val = 0 then pure (4 * i) else stringLength32 h string (i + 1) n

/-- The scan of `stringLength` over bytes. -/
def stringLength8 (string : List Byte) : Nat → Nat → Except Fault Nat
  | _, 0 => .error .outOfBounds
  | i, n + 1 => do
    let v ← byteAt string i
    if v.val = 0 then pure i else stringLength8 string (i + 1) n

/-- `Encoding::stringLength`. A scan leaves the buffer before it has looked at more
elements than the buffer holds, so one more than that number of steps is allowed. -/
def stringLength (h : Host) (string : List Byte) (encoding : String) : Except Fault Nat :=
  if hasPrefixIgnoreCase encoding "UTF-16" then
    stringLength16 h string 0 (string.length / 2 + 1)
  else if hasPrefixIgnoreCase encoding "UTF-32" then
    stringLength32 h string 0 (string.length / 4 + 1)
  else stringLength8 string 0 (string.length + 1)

/-- The element width of an encoding name: 2 with the prefix "UTF-16", 4 with the prefix
"UTF-32", 1 otherwise. -/
def elementWidth (encoding : String) : Nat :=
  if hasPrefixIgnoreCase encoding "UTF-16" then 2
  else if hasPrefixIgnoreCase encoding "UTF-32" then 4
  else 1


/-- A host like `exampleHost` whose iconv converter answers every request with a copy of
the first `length` bytes and 4 zero bytes. -/
def copyingIconvHost : Host where
  bigEndian := false
  allocates := fun _ => true
  convertIconv := fun _ _ string length => some (string.take length ++ zeros 4)
  convertEncoding := fun _ _ _ _ => none
  getCodePageConversionTable := fun page =>
    if page = CodePage.kCodePage437 ∨ page = CodePage.kCodePage850
    then some (fun b => U32.ofNat b.val) else none

/-- The bytes `encodeUTF8` appends for one code point: none for the code point 0, the
UTF-8 form of a code point up to 0x10FFFF, the UTF-8 form of U+FFFD above that. -/
def appendedUTF8 (c : U32) : List Byte :=
  if c.val = 0 then []
  else if c.val ≤ 0x10FFFF then utf8Bytes c
  else [0xEF, 0xBF, 0xBD]

/-- The bytes `encodeUTF8` appends for a sequence of code points. -/
def appendedUTF8Seq : List U32 → List Byte
  | [] => []
  | c :: rest => appendedUTF8 c ++ appendedUTF8Seq rest

/-- The standard UTF-8 encoding of a code point up to 0x10FFFF, in bit operations: every
continuation byte is 0x80 OR'd with a 6-bit group of `c`, the lead byte is the remaining
high bits OR'd with 0x00, 0xC0, 0xE0 or 0xF0. -/
def standardUTF8 (c : Nat) : List Byte :=
  if c < 0x80 then [Byte.ofNat (c ||| 0x00)]
  else if c < 0x800 then
    [Byte.ofNat ((c >>> 6) ||| 0xC0), Byte.ofNat (0x80 ||| (c &&& 0x3F))]
  else if c < 0x10000 then
    [Byte.ofNat ((c >>> 12) ||| 0xE0), Byte.ofNat (0x80 ||| ((c >>> 6) &&& 0x3F)),
      Byte.ofNat (0x80 ||| (c &&& 0x3F))]
  else
    [Byte.ofNat ((c >>> 18) ||| 0xF0), Byte.ofNat (0x80 ||| ((c >>> 12) &&& 0x3F)),
      Byte.ofNat (0x80 ||| ((c >>> 6) &&& 0x3F)), Byte.ofNat (0x80 ||| (c &&& 0x3F))]

/-- The number of elements the encode path of `convertConversionTable` writes for a
source of `length` bytes: `length` halved for a name with prefix "utf-16" and then
quartered for a name with prefix "utf-32". -/
def encodeCount (fromName : String) (length : Nat) : Nat :=
  let length := if hasPrefixIgnoreCase fromName "utf-16" then length / 2 else length
  if hasPrefixIgnoreCase fromName "utf-32" then length / 4 else length

/-- The call does not end in the fatal error of `error()`. -/
def NoFatal {α : Type} (r : Except Fault α) : Prop := r ≠ .error .fatalError

/-! ## `String::decode` and `U32String::encode` -/

/-- The table `g_codePageMap`. -/
def g_codePageMap : List String := [
  "UTF-8", "CP437", "CP850", "CP866", "MS932", "MSCP949", "CP950",
  "WINDOWS-1250", "WINDOWS-1251", "WINDOWS-1252", "WINDOWS-1253", "WINDOWS-1254",
  "WINDOWS-1255", "WINDOWS-1256", "WINDOWS-1257"]

/-- The value of an enumerator of `CodePage`. -/
def CodePage.toInt : CodePage → Int
  | .kCodePageInvalid => -1
  | .kUtf8 => 0
  | .kCodePage437 => 1
  | .kCodePage850 => 2
  | .kCodePage866 => 3
  | .kWindows932 => 4
  | .kWindows949 => 5
  | .kWindows950 => 6
  | .kWindows1250 => 7
  | .kWindows1251 => 8
  | .kWindows1252 => 9
  | .kWindows1253 => 10
  | .kWindows1254 => 11
  | .kWindows1255 => 12
  | .kWindows1256 => 13
  | .kWindows1257 => 14

/-- The enumerator of `CodePage` with the given value, if there is one. -/
def CodePage.ofInt (page : Int) : Option CodePage :=
  [CodePage.kCodePageInvalid, CodePage.kUtf8, CodePage.kCodePage437, CodePage.kCodePage850,
    CodePage.kCodePage866, CodePage.kWindows932, CodePage.kWindows949, CodePage.kWindows950,
    CodePage.kWindows1250, CodePage.kWindows1251, CodePage.kWindows1252,
    CodePage.kWindows1253, CodePage.kWindows1254, CodePage.kWindows1255,
    CodePage.kWindows1256, CodePage.kWindows1257].find? (fun p => p.toInt == page)

/-- Modelled from the spec: the macro `ARRAYSIZE` of common/util.h (not part of the
sources), the number of entries of an array. -/
def ARRAYSIZE {α : Type} (array : List α) : Nat := array.length

/-- The comparison `page >= ARRAYSIZE(g_codePageMap)`. The type of the count the absent
macro yields is the parameter `signedCount`: a signed count (engines/sci/event.cpp
compares the macro with an `int` counter) is compared with the value of `page` as it is,
and against an unsigned count the usual arithmetic conversions turn a negative `page`
into a value above every count. -/
def beyondCodePageMap (signedCount : Bool) (page : Int) : Bool :=
  if signedCount then decide (page ≥ ARRAYSIZE g_codePageMap)
  else decide (page < 0 ∨ page ≥ ARRAYSIZE g_codePageMap)

/-- The guard of `String::decode` and `U32String::encode`; `page` is the value the
argument of type `CodePage` holds. -/
def invalidCodepage (signedCount : Bool) (page : Int) : Bool :=
  page == CodePage.kCodePageInvalid.toInt || beyondCodePageMap signedCount page

/-- The read `g_codePageMap[page]`. -/
def codePageName (page : Int) : Except Fault String :=
  if page < 0 then .error .outOfBounds
  else match g_codePageMap[page.toNat]? with
    | some name => .ok name
    | none => .error .outOfBounds

/-- Modelled from the spec: the overload `Encoding::convert(to, from, const String &)` of
common/encoding.h (not part of the sources), which hands the bytes of the string, with
their terminating zero byte, and its size to the dispatcher. -/
def convertString (h : Host) (fuel : Nat) (toName fromName : String) (str : List Byte) :
    Result :=
  convert h fuel toName fromName (str ++ [0]) str.length

/-- Modelled from the spec: the overload `Encoding::convert(to, const U32String &)` of
common/encoding.h (not part of the sources), which hands the elements of the string, with
their terminating zero element, and four times its size to the dispatcher, with the
source name "UTF-32". -/
def convertU32String (h : Host) (fuel : Nat) (toName : String) (str : List U32) : Result :=
  convert h fuel toName "UTF-32" (utf32Bytes h.bigEndian (str ++ [0])) (str.length * 4)

/-- The elements `i` to `i + n - 1` of a `uint32` array. -/
def loadElements (h : Host) (buf : List Byte) : Nat → Nat → Except Fault (List U32)
  | _, 0 => .ok []
  | i, n + 1 => do
    let c ← load32 h.bigEndian buf i
    let rest ← loadElements h buf (i + 1) n
    pure (c :: rest)

/-- The constructor `U32String(const uint32 *)`: the elements in front of the first zero
element. -/
def u32StringOf (h : Host) (buf : List Byte) : Except Fault (List U32) := do
  let n ← utf32Terminator h buf 0 (buf.length / 4 + 1)
  loadElements h buf 0 n

/-- The constructor `String(const char *)`: the bytes in front of the first zero byte. -/
def stringOf (buf : List Byte) : Except Fault (List Byte) := do
  let n ← strlen buf
  pure (buf.take n)

/-- The table `getCodePageConversionTable(page)` for the value `page`. -/
def conversionTableOf (h : Host) (page : Int) : Option Table :=
  (CodePage.ofInt page).bind h.getCodePageConversionTable

/-- `String::decodeOneByte`. -/
def decodeOneByte (h : Host) (str : List Byte) (page : Int) (dst : List U32) : List U32 :=
  match conversionTableOf h page with
  | none => dst
  | some conversionTable => dst ++ str.map conversionTable

/-- The inner loop `for (j = 0; j < 256; ++j)` of `encodeOneByte`: the byte appended for
the code point `c`, if any, with `steps` iterations left from index `j`. -/
def encodeOneByteScan (conversionTable : Table) (c : U32) : Nat → Nat → Option Byte
  | 0, _ => none
  | steps + 1, j =>
    if conversionTable (Byte.ofNat j) = c then some (Byte.ofNat j)
    else encodeOneByteScan conversionTable c steps (j + 1)

/-- `U32String::encodeOneByte`. -/
def encodeOneByte (h : Host) (str : List U32) (page : Int) (dst : List Byte) : List Byte :=
  match conversionTableOf h page with
  | none => dst
  | some conversionTable =>
    str.foldl (fun dst c =>
      match encodeOneByteScan conversionTable c 256 0 with
      | some b => dst ++ [b]
      | none => dst) dst

/-- `String::decode`; `page` is the value of the argument. -/
def decode (h : Host) (signedCount : Bool) (fuel : Nat) (str : List Byte) (page : Int) :
    Except Fault (List U32) :=
  if invalidCodepage signedCount page then .error .fatalError
  else do
    let name ← codePageName page
    let result ← convertString h fuel "UTF-32" name str
    match result with
    | some buf => u32StringOf h buf
    | none =>
      if page = CodePage.kUtf8.toInt then decodeUTF8 str []
      else pure (decodeOneByte h str page [])

/-- `U32String::encode`; `page` is the value of the argument. -/
def encode (h : Host) (signedCount : Bool) (fuel : Nat) (str : List U32) (page : Int) :
    Except Fault (List Byte) :=
  if invalidCodepage signedCount page then .error .fatalError
  else do
    let name ← codePageName page
    let result ← convertU32String h fuel name str
    match result with
    | some buf => stringOf buf
    | none =>
      if page = CodePage.kUtf8.toInt then pure (encodeUTF8 str [])
      else pure (encodeOneByte h str page [])


/-- The call returns a value that satisfies `P`, or aborts on a read outside its buffer. -/
def ReturnsOrOutOfBounds {α : Type} (r : Except Fault α) (P : α → Prop) : Prop :=
  match r with
  | .ok v => P v
  | .error e => e = Fault.outOfBounds

/-- What `transliterateCyrillic` stores for the byte `b`: the table character for a byte
of 160..255, the byte itself otherwise. -/
def transliteratedByte (b : Byte) : Byte :=
  if b.val ≥ 160
  then Byte.ofNat (g_cyrillicTransliterationTable.getD (b.val - 160) ' ').toNat
  else b

/-! ## `KeyState::mapKeyStateToINT16hKey` of common/keyboard.cpp -/

/-- Modelled from the spec: the struct `KeyState::INT16hKeyMap` of common/keyboard.h (not
part of the sources), an entry of the arrays `g_int16h00h` and `g_int16h10h`, with its
fields in the order of the initialisers of common/keyboard.cpp. -/
structure INT16hKeyMap where
  /-- The key code of the entry; 0 ends the array. -/
  keycode : Nat
  /-- The key without modifier. -/
  normal : Nat
  /-- The key with Shift. -/
  shift : Nat
  /-- The key with Ctrl. -/
  ctrl : Nat
  /-- The key with Alt. -/
  alt : Nat

/-- Modelled from the spec: the constants of common/keyboard.h and the character
predicates of common/util.h (not part of the sources) that `mapKeyStateToINT16hKey` uses;
they are parameters of the model. -/
structure KeyboardConstants where
  /-- The modifier flag `KBD_CTRL`. -/
  KBD_CTRL : Nat
  /-- The modifier flag `KBD_ALT`. -/
  KBD_ALT : Nat
  /-- The modifier flag `KBD_SHIFT`. -/
  KBD_SHIFT : Nat
  /-- The sticky flag `KBD_NUM`. -/
  KBD_NUM : Nat
  /-- The sticky flag `KBD_CAPS`. -/
  KBD_CAPS : Nat
  /-- The key code `KEYCODE_INVALID`. -/
  KEYCODE_INVALID : Nat
  /-- The key code `KEYCODE_KP0`. -/
  KEYCODE_KP0 : Nat
  /-- The key code `KEYCODE_KP_PERIOD`. -/
  KEYCODE_KP_PERIOD : Nat
  /-- The predicate `isAlpha` on a key code. -/
  isAlpha : Nat → Bool
  /-- The predicate `isPrint` on a key code. -/
  isPrint : Nat → Bool

/-- The fields of a `KeyState` (common/keyboard.h, not part of the sources) that the
function reads: the key code, the `uint16` character and the `byte` of modifier flags. -/
structure KeyState where
  /-- The field `keycode`. -/
  keycode : Nat
  /-- The field `ascii`. -/
  ascii : Nat
  /-- The field `flags`. -/
  flags : Nat

/-- The flags `f` after `if (...) f ^= KBD_SHIFT`. -/
def effectiveFlags (k : KeyboardConstants) (state : KeyState) : Nat :=
  let isKeypad :=
    decide (state.keycode ≥ k.KEYCODE_KP0 ∧ state.keycode ≤ k.KEYCODE_KP_PERIOD)
  if (decide (state.flags &&& k.KBD_NUM ≠ 0) && isKeypad) ||
      (decide (state.flags &&& k.KBD_CAPS ≠ 0) && k.isAlpha state.keycode)
  then (state.flags ^^^ k.KBD_SHIFT) % 256
  else state.flags

/-- The loop `while (mapPtr->keycode)`: the `uint16` key of the first entry with the key
code of the state, chosen by the flags `f`; 0 when the array ends before such an entry. -/
def selectKey (k : KeyboardConstants) (f keycode : Nat) : List INT16hKeyMap → Except Fault Nat
  | [] => .error .outOfBounds
  | entry :: rest =>
    if entry.keycode = 0 then .ok 0
    else if entry.keycode = keycode then
      if f &&& k.KBD_ALT ≠ 0 then .ok (entry.alt % 65536)
      else if f &&& k.KBD_CTRL ≠ 0 then .ok (entry.ctrl % 65536)
      else if f &&& k.KBD_SHIFT ≠ 0 then .ok (entry.shift % 65536)
      else .ok (entry.normal % 65536)
    else selectKey k f keycode rest

/-- The condition of the last `if` of `mapKeyStateToINT16hKey`. -/
def remapsCharacter (k : KeyboardConstants) (state : KeyState) (page : CodePage) : Bool :=
  decide (state.ascii ≠ 0) &&
  decide (state.flags &&& k.KBD_CTRL = 0) &&
  !(decide (state.keycode = state.ascii) && decide (state.flags &&& k.KBD_ALT ≠ 0)) &&
  (k.isPrint state.keycode || decide (state.keycode = k.KEYCODE_INVALID)) &&
  (decide (state.ascii ≤ 0xFF) ||
    !(decide (page = CodePage.kCodePage437) || decide (page = CodePage.kCodePage850) ||
      decide (page = CodePage.kWindows1252)))

/-- The body of that `if`: `key &= 0xFF00`, then the scan `for (i = 0; i < 256; i++)` of
the conversion table for `ascii` (the loop of `encodeOneByte`), which ORs the first
matching index into the key. -/
def replaceLowByte (conversionTable : Option Table) (ascii key : Nat) : Nat :=
  let key := key &&& 0xFF00
  match conversionTable with
  | none => key
  | some table =>
    match encodeOneByteScan table (U32.ofNat ascii) 256 0 with
    | some i => key ||| i.val
    | none => key

/-- `KeyState::mapKeyStateToINT16hKey`. -/
def mapKeyStateToINT16hKey (k : KeyboardConstants) (h : Host) (state : KeyState)
    (mapPtr : List INT16hKeyMap) (page : CodePage) : Except Fault Nat := do
  let conversionTable := h.getCodePageConversionTable page
  let key ← selectKey k (effectiveFlags k state) state.keycode mapPtr
  if remapsCharacter k state page then pure (replaceLowByte conversionTable state.ascii key)
  else pure key

/-- An instance of the keyboard constants: the modifier flags as the bits 1, 2, 4, 8 and
16, the key code 0 for `KEYCODE_INVALID`, 256 to 266 for the keypad, and the ASCII letters
and printable characters for `isAlpha` and `isPrint`. -/
def exampleKeyboard : KeyboardConstants where
  KBD_CTRL := 1
  KBD_ALT := 2
  KBD_SHIFT := 4
  KBD_NUM := 8
  KBD_CAPS := 16
  KEYCODE_INVALID := 0
  KEYCODE_KP0 := 256
  KEYCODE_KP_PERIOD := 266
  isAlpha := fun c => decide ((65 ≤ c ∧ c ≤ 90) ∨ (97 ≤ c ∧ c ≤ 122))
  isPrint := fun c => decide (32 ≤ c ∧ c ≤ 126)

/-- The entry of `g_int16h00h` for the key `e`, whose key code is the character, and the
entry that ends the array. -/
def exampleKeyMap : List INT16hKeyMap := [
  { keycode := 101, normal := 0x1265, shift := 0x1245, ctrl := 0x1205, alt := 0x1200 },
  { keycode := 0, normal := 0, shift := 0, ctrl := 0, alt := 0 }]

/-! ## The code-page tables -/

/-- The read `_str[i]` of a `Common::String` holding the bytes `str`: the byte of the
string, the terminating zero byte at `i = _size`, and at `i = _size + 1 + k` the byte
`storage k` that lies behind the terminator. -/
def storageAt (storage : Nat → Byte) (str : List Byte) (i : Nat) : Byte :=
  match str[i]? with
  | some b => b
  | none => if i = str.length then 0 else storage (i - str.length - 1)

/-- The `switch (num)` of `String::decodeUTF8`, reading with `storageAt`. -/
def decodeUTF8CharWithin (storage : Nat → Byte) (str : List Byte) (i : Nat) : Nat → Nat
  | 4 =>
    (((0 ||| (((storageAt storage str i).val &&& 0x07) <<< 18))
      ||| (((storageAt storage str (i + 1)).val &&& 0x3F) <<< 12))
      ||| (((storageAt storage str (i + 2)).val &&& 0x3F) <<< 6))
      ||| ((storageAt storage str (i + 3)).val &&& 0x3F)
  | 3 =>
    ((0 ||| (((storageAt storage str i).val &&& 0x0F) <<< 12))
      ||| (((storageAt storage str (i + 1)).val &&& 0x3F) <<< 6))
      ||| ((storageAt storage str (i + 2)).val &&& 0x3F)
  | 2 =>
    (0 ||| (((storageAt storage str i).val &&& 0x1F) <<< 6))
      ||| ((storageAt storage str (i + 1)).val &&& 0x3F)
  | _ => (storageAt storage str i).val &&& 0x7F

/-- The loop of `String::decodeUTF8` from index `i`, reading with `storageAt`, with `fuel`
iterations allowed. -/
def decodeUTF8LoopWithin (storage : Nat → Byte) (str : List Byte) :
    Nat → Nat → List U32 → Except Fault (List U32)
  | 0, _, _ => .error .outOfFuel
  | fuel + 1, i, dst =>
    if i < str.length then
      let num := sequenceLength (storageAt storage str i)
      if (i + 4294967296 - str.length) % 4294967296 ≥ num then
        decodeUTF8LoopWithin storage str fuel (i + num)
          (dst ++ [U32.ofNat (decodeUTF8CharWithin storage str i num)])
      else .ok dst
    else .ok dst

/-- `String::decodeUTF8`, reading with `storageAt`: the code points appended to `dst`,
with `_size + 1` iterations allowed. -/
def decodeUTF8Within (storage : Nat → Byte) (str : List Byte) (dst : List U32) :
    Except Fault (List U32) :=
  decodeUTF8LoopWithin storage str (str.length + 1) 0 dst

/-! ## Lemmas and theorems -/



theorem equalsIgnoreCase_comm (a b : String) : equalsIgnoreCase a b = equalsIgnoreCase b a := by
  unfold equalsIgnoreCase
  rw [Bool.eq_iff_iff]
  simp only [beq_iff_eq]
  exact eq_comm

theorem copyString_eq (h : Host) (ha : h.allocationSucceeds) (data : List Byte) :
    copyString h data data.length = .ok (some (data ++ zeros 4)) := by
  simp [copyString, ha (data.length + 4), memcpy, bind, Except.bind, pure, Except.pure]

theorem byte_ofNat_eq (n : Nat) (b : Byte) (hb : n % 256 = b.val) : Byte.ofNat n = b :=
  Fin.ext hb

theorem SWAP_BYTES_16_le (a b : Nat) (ha : a < 256) (hb : b < 256) :
    SWAP_BYTES_16 (a + b * 256) = b + a * 256 := by
  unfold SWAP_BYTES_16
  have h1 : (a + b * 256) / 256 = b := by omega
  have h2 : (a + b * 256) % 256 = a := by omega
  rw [h1, h2, Nat.mod_eq_of_lt hb]

theorem store16_swap_load (be : Bool) (a b : Byte) :
    store16 be (SWAP_BYTES_16 (if be then a.val * 256 + b.val else a.val + b.val * 256)) = [b, a] := by
  have ha := a.isLt
  have hb := b.isLt
  cases be
  · simp only [store16, Bool.false_eq_true, if_false]
    rw [SWAP_BYTES_16_le _ _ ha hb]
    rw [byte_ofNat_eq _ b (by omega), byte_ofNat_eq _ a (by omega)]
  · simp only [store16, if_true]
    rw [Nat.add_comm, SWAP_BYTES_16_le _ _ hb ha]
    rw [byte_ofNat_eq _ b (by omega), byte_ofNat_eq _ a (by omega)]

theorem u32_ofNat_val (n : Nat) : (U32.ofNat n).val = n % 4294967296 := rfl

theorem SWAP_BYTES_32_le (a b c d : Nat) (ha : a < 256) (hb : b < 256) (hc : c < 256)
    (hd : d < 256) :
    SWAP_BYTES_32 (a + b * 256 + c * 65536 + d * 16777216)
      = d + c * 256 + b * 65536 + a * 16777216 := by
  unfold SWAP_BYTES_32
  have h1 : (a + b * 256 + c * 65536 + d * 16777216) / 16777216 = d := by omega
  have h2 : (a + b * 256 + c * 65536 + d * 16777216) / 65536 = c + d * 256 := by omega
  have h3 : (a + b * 256 + c * 65536 + d * 16777216) / 256 = b + c * 256 + d * 65536 := by omega
  have h4 : (a + b * 256 + c * 65536 + d * 16777216) % 256 = a := by omega
  rw [h1, h2, h3, h4]
  have h5 : (c + d * 256) % 256 = c := by omega
  have h6 : (b + c * 256 + d * 65536) % 256 = b := by omega
  rw [h5, h6, Nat.mod_eq_of_lt hd]

theorem store32_swap_load (be : Bool) (a b c d : Byte) :
    store32 be (SWAP_BYTES_32 (U32.ofNat (if be
      then a.val * 16777216 + b.val * 65536 + c.val * 256 + d.val
      else a.val + b.val * 256 + c.val * 65536 + d.val * 16777216)).val) = [d, c, b, a] := by
  have ha := a.isLt
  have hb := b.isLt
  have hc := c.isLt
  have hd := d.isLt
  cases be
  · simp only [store32, Bool.false_eq_true, if_false, u32_ofNat_val]
    rw [Nat.mod_eq_of_lt (by omega), SWAP_BYTES_32_le _ _ _ _ ha hb hc hd]
    rw [byte_ofNat_eq _ d (by omega), byte_ofNat_eq _ c (by omega),
      byte_ofNat_eq _ b (by omega), byte_ofNat_eq _ a (by omega)]
  · simp only [store32, if_true, u32_ofNat_val]
    rw [Nat.mod_eq_of_lt (by omega)]
    have hrw : a.val * 16777216 + b.val * 65536 + c.val * 256 + d.val
        = d.val + c.val * 256 + b.val * 65536 + a.val * 16777216 := by omega
    rw [hrw, SWAP_BYTES_32_le _ _ _ _ hd hc hb ha]
    rw [byte_ofNat_eq _ d (by omega), byte_ofNat_eq _ c (by omega),
      byte_ofNat_eq _ b (by omega), byte_ofNat_eq _ a (by omega)]

/-- Claim C1: when the two encoding names are equal ignoring ASCII case, the conversion
of a buffer of `n` bytes returns exactly those `n` bytes followed by 4 zero bytes, on
every host whose allocation succeeds, whatever its external converters would answer. -/
theorem identity_conversion_copies (h : Host) (fuel : Nat) (toName fromName : String)
    (data : List Byte) (ha : h.allocationSucceeds)
    (heq : equalsIgnoreCase toName fromName = true) :
    convertWithTransliteration h (fuel + 1) toName fromName data data.length
      = .ok (some (data ++ zeros 4)) := by
  rw [equalsIgnoreCase_comm] at heq
  simp only [convertWithTransliteration, convertWithTransliterationBody, heq, if_true]
  exact copyString_eq h ha data

theorem identity_conversion_copies_witness :
    exampleHost.allocationSucceeds ∧ equalsIgnoreCase "utf-8" "UTF-8" = true ∧
    convertWithTransliteration exampleHost 1 "utf-8" "UTF-8" [0x41, 0xC3, 0xA9] 3
      = .ok (some ([0x41, 0xC3, 0xA9] ++ zeros 4)) :=
  ⟨fun _ => rfl, by decide,
    identity_conversion_copies exampleHost 0 "utf-8" "UTF-8" [0x41, 0xC3, 0xA9] (fun _ => rfl)
      (by decide)⟩

theorem getElem?_mid (pre : List Byte) (x : Byte) (post : List Byte) (i : Nat)
    (hi : i = pre.length) : (pre ++ x :: post)[i]? = some x := by
  subst hi
  rw [List.getElem?_append_right (Nat.le_refl _)]
  simp

theorem load16_mid (be : Bool) (pre : List Byte) (a b : Byte) (post : List Byte) (i : Nat)
    (hi : pre.length = 2 * i) :
    load16 be (pre ++ a :: b :: post) i
      = .ok (if be then a.val * 256 + b.val else a.val + b.val * 256) := by
  unfold load16
  rw [getElem?_mid pre a (b :: post) (2 * i) hi.symm]
  have h2 : (pre ++ a :: b :: post) = (pre ++ [a]) ++ b :: post := by simp
  rw [h2, getElem?_mid (pre ++ [a]) b post (2 * i + 1) (by simp [hi])]

theorem load32_mid (be : Bool) (pre : List Byte) (a b c d : Byte) (post : List Byte) (i : Nat)
    (hi : pre.length = 4 * i) :
    load32 be (pre ++ a :: b :: c :: d :: post) i
      = .ok (U32.ofNat (if be
          then a.val * 16777216 + b.val * 65536 + c.val * 256 + d.val
          else a.val + b.val * 256 + c.val * 65536 + d.val * 16777216)) := by
  unfold load32
  rw [getElem?_mid pre a (b :: c :: d :: post) (4 * i) hi.symm]
  have h2 : (pre ++ a :: b :: c :: d :: post) = (pre ++ [a]) ++ b :: c :: d :: post := by simp
  have h3 : (pre ++ a :: b :: c :: d :: post) = (pre ++ [a, b]) ++ c :: d :: post := by simp
  have h4 : (pre ++ a :: b :: c :: d :: post) = (pre ++ [a, b, c]) ++ d :: post := by simp
  rw [h2, getElem?_mid (pre ++ [a]) b _ (4 * i + 1) (by simp [hi])]
  rw [← h2, h3, getElem?_mid (pre ++ [a, b]) c _ (4 * i + 2) (by simp [hi])]
  rw [← h3, h4, getElem?_mid (pre ++ [a, b, c]) d _ (4 * i + 3) (by simp [hi])]

theorem switchEndian16_eq (h : Host) (n : Nat) :
    ∀ (pre rest tail : List Byte) (i : Nat), pre.length = 2 * i → rest.length = 2 * n →
      switchEndian16 h (pre ++ rest ++ tail) i n = .ok (reverseUnits16 rest) := by
  induction n with
  | zero =>
    intro pre rest tail i _ hrest
    have : rest = [] := List.length_eq_zero.mp (by omega)
    subst this
    rfl
  | succ n ih =>
    intro pre rest tail i hpre hrest
    match rest, hrest with
    | a :: b :: rest', hrest =>
      have hlen : rest'.length = 2 * n := by simp at hrest; omega
      have hsplit : pre ++ (a :: b :: rest') ++ tail = pre ++ a :: b :: (rest' ++ tail) := by simp
      have hnext : pre ++ (a :: b :: rest') ++ tail = (pre ++ [a, b]) ++ rest' ++ tail := by simp
      have hrec := ih (pre ++ [a, b]) rest' tail (i + 1) (by simp [hpre]; omega) hlen
      simp only [switchEndian16, bind, Except.bind, pure, Except.pure]
      rw [hsplit, load16_mid h.bigEndian pre a b _ i hpre, ← hsplit, hnext, hrec]
      simp only [store16_swap_load, reverseUnits16]
      rfl

theorem switchEndian32_eq (h : Host) (n : Nat) :
    ∀ (pre rest tail : List Byte) (i : Nat), pre.length = 4 * i → rest.length = 4 * n →
      switchEndian32 h (pre ++ rest ++ tail) i n = .ok (reverseUnits32 rest) := by
  induction n with
  | zero =>
    intro pre rest tail i _ hrest
    have : rest = [] := List.length_eq_zero.mp (by omega)
    subst this
    rfl
  | succ n ih =>
    intro pre rest tail i hpre hrest
    match rest, hrest with
    | a :: b :: c :: d :: rest', hrest =>
      have hlen : rest'.length = 4 * n := by simp at hrest; omega
      have hsplit : pre ++ (a :: b :: c :: d :: rest') ++ tail
          = pre ++ a :: b :: c :: d :: (rest' ++ tail) := by simp
      have hnext : pre ++ (a :: b :: c :: d :: rest') ++ tail
          = (pre ++ [a, b, c, d]) ++ rest' ++ tail := by simp
      have hrec := ih (pre ++ [a, b, c, d]) rest' tail (i + 1) (by simp [hpre]; omega) hlen
      simp only [switchEndian32, bind, Except.bind, pure, Except.pure]
      rw [hsplit, load32_mid h.bigEndian pre a b c d _ i hpre, ← hsplit, hnext, hrec]
      simp only [store32_swap_load, reverseUnits32]
      rfl

theorem switchEndian_16 (h : Host) (ha : h.allocationSucceeds) (data tail : List Byte)
    (hlen : data.length % 2 = 0) :
    switchEndian h (data ++ tail) data.length 16
      = .ok (some (reverseUnits16 data ++ zeros 4)) := by
  have h1 := switchEndian16_eq h (data.length / 2) [] data tail 0 rfl (by omega)
  simp only [List.nil_append] at h1
  have hz : data.length + 4 - 2 * (data.length / 2) = 4 := by omega
  simp [switchEndian, ha (data.length + 4), hlen, h1, hz, bind, Except.bind, pure, Except.pure]

theorem switchEndian_32 (h : Host) (ha : h.allocationSucceeds) (data tail : List Byte)
    (hlen : data.length % 4 = 0) :
    switchEndian h (data ++ tail) data.length 32
      = .ok (some (reverseUnits32 data ++ zeros 4)) := by
  have h1 := switchEndian32_eq h (data.length / 4) [] data tail 0 rfl (by omega)
  simp only [List.nil_append] at h1
  have hz : data.length + 4 - 4 * (data.length / 4) = 4 := by omega
  simp [switchEndian, ha (data.length + 4), hlen, h1, hz, bind, Except.bind, pure, Except.pure]

theorem suffix_be_not_le (s : String) (hbe : hasSuffixIgnoreCase s "be" = true) :
    hasSuffixIgnoreCase s "le" = false := by
  unfold hasSuffixIgnoreCase at *
  rw [Bool.eq_false_iff]
  intro hle
  rw [List.isSuffixOf_iff_suffix] at hbe hle
  obtain ⟨t, ht⟩ := hbe
  obtain ⟨t', ht'⟩ := hle
  have h2 := (List.append_inj' (ht.trans ht'.symm) (by decide)).2
  exact absurd h2 (by decide)

theorem prefix16_not_prefix32 (s : String) (h16 : hasPrefixIgnoreCase s "utf-16" = true) :
    hasPrefixIgnoreCase s "utf-32" = false := by
  unfold hasPrefixIgnoreCase at *
  rw [Bool.eq_false_iff]
  intro h32
  rw [List.isPrefixOf_iff_prefix] at h16 h32
  obtain ⟨t, ht⟩ := h16
  obtain ⟨t', ht'⟩ := h32
  have h2 := (List.append_inj (ht.trans ht'.symm) (by decide)).1
  exact absurd h2 (by decide)

theorem endianness_test_eq (h : Host) (s : String) :
    (if h.bigEndian then !hasSuffixIgnoreCase s "le" else hasSuffixIgnoreCase s "be")
      = resolvesBigEndian h s := by
  unfold resolvesBigEndian
  cases hb : h.bigEndian <;> cases hbe : hasSuffixIgnoreCase s "be" <;>
    cases hle : hasSuffixIgnoreCase s "le" <;> simp
  all_goals
    have hcontra := suffix_be_not_le s hbe
    simp [hle] at hcontra

theorem reverseUnits16_length : ∀ data : List Byte, (reverseUnits16 data).length = data.length
  | a :: b :: rest => by simp [reverseUnits16, reverseUnits16_length rest]
  | [_] => rfl
  | [] => rfl

theorem reverseUnits32_length : ∀ data : List Byte, (reverseUnits32 data).length = data.length
  | a :: b :: c :: d :: rest => by simp [reverseUnits32, reverseUnits32_length rest]
  | [_, _, _] => rfl
  | [_, _] => rfl
  | [_] => rfl
  | [] => rfl

theorem reverseUnits16_involutive : ∀ data : List Byte, reverseUnits16 (reverseUnits16 data) = data
  | a :: b :: rest => by simp [reverseUnits16, reverseUnits16_involutive rest]
  | [_] => rfl
  | [] => rfl

theorem reverseUnits32_involutive : ∀ data : List Byte, reverseUnits32 (reverseUnits32 data) = data
  | a :: b :: c :: d :: rest => by simp [reverseUnits32, reverseUnits32_involutive rest]
  | [_, _, _] => rfl
  | [_, _] => rfl
  | [_] => rfl
  | [] => rfl

theorem reverseUnits16_getElem? : ∀ (k : Nat) (data : List Byte), 2 * k + 1 < data.length →
    (reverseUnits16 data)[2 * k]? = data[2 * k + 1]? ∧
    (reverseUnits16 data)[2 * k + 1]? = data[2 * k]?
  | 0, a :: b :: rest, _ => by simp [reverseUnits16]
  | k + 1, a :: b :: rest, hk => by
    have ih := reverseUnits16_getElem? k rest (by simp at hk; omega)
    have e1 : 2 * (k + 1) = (2 * k + 1) + 1 := by omega
    have e2 : 2 * (k + 1) + 1 = ((2 * k + 1) + 1) + 1 := by omega
    simp only [reverseUnits16, e1, List.getElem?_cons_succ]
    exact ih
  | _, [_], hk => by simp at hk
  | _, [], hk => by simp at hk

theorem family_switch (h : Host) (convert : String → String → List Byte → Nat → Result)
    (toName fromName : String) (string : List Byte) (length : Nat)
    (hne : equalsIgnoreCase toName fromName = false)
    (hfam : (hasPrefixIgnoreCase toName "utf-16" && hasPrefixIgnoreCase fromName "utf-16" ||
      hasPrefixIgnoreCase toName "utf-32" && hasPrefixIgnoreCase fromName "utf-32") = true) :
    convertWithTransliterationBody h convert toName fromName string length
      = if resolvesBigEndian h fromName = resolvesBigEndian h toName then copyString h string length
        else if hasPrefixIgnoreCase toName "utf-16" then switchEndian h string length 16
        else switchEndian h string length 32 := by
  rw [equalsIgnoreCase_comm] at hne
  unfold convertWithTransliterationBody
  simp only [hne, hfam, Bool.false_eq_true, if_false, if_true, endianness_test_eq]

/-- Claim C4: for a buffer of even length, converting from "UTF-16LE" to "UTF-16BE" gives
one buffer `out ++ 0000`, the same on every host (little or big endian), in which `out`
has the length of the input and every 2-byte unit is byte-reversed. -/
theorem utf16_swap_reverses_units (data : List Byte) (hlen : data.length % 2 = 0) :
    ∃ out : List Byte, out.length = data.length ∧
      (∀ k, k < data.length / 2 →
        out[2 * k]? = data[2 * k + 1]? ∧ out[2 * k + 1]? = data[2 * k]?) ∧
      ∀ (h : Host) (fuel : Nat), h.allocationSucceeds →
        convert h (fuel + 1) "UTF-16BE" "UTF-16LE" data data.length
          = .ok (some (out ++ zeros 4)) := by
  refine ⟨reverseUnits16 data, reverseUnits16_length data, ?_, ?_⟩
  · intro k hk
    exact reverseUnits16_getElem? k data (by omega)
  · intro h fuel ha
    have hsw := switchEndian_16 h ha data [] hlen
    rw [List.append_nil] at hsw
    unfold convert
    simp only [convertWithTransliteration]
    rw [family_switch h _ "UTF-16BE" "UTF-16LE" data data.length (by decide) (by decide)]
    have h1 : resolvesBigEndian h "UTF-16LE" = false := by
      cases hb : h.bigEndian <;> simp [resolvesBigEndian, hb] <;> decide
    have h2 : resolvesBigEndian h "UTF-16BE" = true := by
      cases hb : h.bigEndian <;> simp [resolvesBigEndian, hb] <;> decide
    have h3 : hasPrefixIgnoreCase "UTF-16BE" "utf-16" = true := by decide
    simp only [h1, h2, h3, Bool.false_eq_true, if_false, if_true]
    exact hsw

theorem utf16_swap_reverses_units_witness :
    ∃ out : List Byte, out.length = 4 ∧
      convert exampleHost 1 "UTF-16BE" "UTF-16LE" [1, 2, 3, 4] 4 = .ok (some (out ++ zeros 4)) := by
  obtain ⟨out, hlen, _, hconv⟩ := utf16_swap_reverses_units [1, 2, 3, 4] (by decide)
  exact ⟨out, hlen, hconv exampleHost 0 (fun _ => rfl)⟩

theorem resolves_literals (h : Host) :
    resolvesBigEndian h "UTF-16LE" = false ∧ resolvesBigEndian h "UTF-16BE" = true ∧
    resolvesBigEndian h "UTF-32LE" = false ∧ resolvesBigEndian h "UTF-32BE" = true := by
  have a1 : hasSuffixIgnoreCase "UTF-16LE" "be" = false := by decide
  have a2 : hasSuffixIgnoreCase "UTF-16LE" "le" = true := by decide
  have a3 : hasSuffixIgnoreCase "UTF-16BE" "be" = true := by decide
  have a4 : hasSuffixIgnoreCase "UTF-32LE" "be" = false := by decide
  have a5 : hasSuffixIgnoreCase "UTF-32LE" "le" = true := by decide
  have a6 : hasSuffixIgnoreCase "UTF-32BE" "be" = true := by decide
  simp [resolvesBigEndian, a1, a2, a3, a4, a5, a6]

theorem convert_utf16_swap (h : Host) (fuel : Nat) (ha : h.allocationSucceeds)
    (data tail : List Byte) (hlen : data.length % 2 = 0) :
    convert h (fuel + 1) "UTF-16BE" "UTF-16LE" (data ++ tail) data.length
      = .ok (some (reverseUnits16 data ++ zeros 4)) := by
  unfold convert
  simp only [convertWithTransliteration]
  rw [family_switch h _ "UTF-16BE" "UTF-16LE" _ data.length (by decide) (by decide)]
  obtain ⟨h1, h2, -, -⟩ := resolves_literals h
  have h3 : hasPrefixIgnoreCase "UTF-16BE" "utf-16" = true := by decide
  simp only [h1, h2, h3, Bool.false_eq_true, if_false, if_true]
  exact switchEndian_16 h ha data tail hlen

theorem convert_utf32_swap (h : Host) (fuel : Nat) (ha : h.allocationSucceeds)
    (data tail : List Byte) (hlen : data.length % 4 = 0) :
    convert h (fuel + 1) "UTF-32BE" "UTF-32LE" (data ++ tail) data.length
      = .ok (some (reverseUnits32 data ++ zeros 4)) := by
  unfold convert
  simp only [convertWithTransliteration]
  rw [family_switch h _ "UTF-32BE" "UTF-32LE" _ data.length (by decide) (by decide)]
  obtain ⟨-, -, h1, h2⟩ := resolves_literals h
  have h3 : hasPrefixIgnoreCase "UTF-32BE" "utf-16" = false := by decide
  simp only [h1, h2, h3, Bool.false_eq_true, if_false, if_true]
  exact switchEndian_32 h ha data tail hlen

/-- Claim C5: the endianness swap is an involution. For a buffer of even length the
conversion from "UTF-16LE" to "UTF-16BE" returns a buffer which, converted again with the
same length, gives back the original bytes (and the 4 zero bytes of padding); the same
holds for "UTF-32LE" to "UTF-32BE" on a buffer whose length is a multiple of 4. -/
theorem endianness_swap_involution (h : Host) (fuel : Nat) (data : List Byte)
    (ha : h.allocationSucceeds) :
    (data.length % 2 = 0 → ∃ out : List Byte,
      convert h (fuel + 1) "UTF-16BE" "UTF-16LE" data data.length = .ok (some out) ∧
      convert h (fuel + 1) "UTF-16BE" "UTF-16LE" out data.length
        = .ok (some (data ++ zeros 4))) ∧
    (data.length % 4 = 0 → ∃ out : List Byte,
      convert h (fuel + 1) "UTF-32BE" "UTF-32LE" data data.length = .ok (some out) ∧
      convert h (fuel + 1) "UTF-32BE" "UTF-32LE" out data.length
        = .ok (some (data ++ zeros 4))) := by
  constructor
  · intro hlen
    refine ⟨reverseUnits16 data ++ zeros 4, ?_, ?_⟩
    · have := convert_utf16_swap h fuel ha data [] hlen
      rwa [List.append_nil] at this
    · have := convert_utf16_swap h fuel ha (reverseUnits16 data) (zeros 4)
        (by rw [reverseUnits16_length]; exact hlen)
      rwa [reverseUnits16_length, reverseUnits16_involutive] at this
  · intro hlen
    refine ⟨reverseUnits32 data ++ zeros 4, ?_, ?_⟩
    · have := convert_utf32_swap h fuel ha data [] hlen
      rwa [List.append_nil] at this
    · have := convert_utf32_swap h fuel ha (reverseUnits32 data) (zeros 4)
        (by rw [reverseUnits32_length]; exact hlen)
      rwa [reverseUnits32_length, reverseUnits32_involutive] at this

theorem endianness_swap_involution_witness :
    exampleHost.allocationSucceeds ∧
    ∃ out : List Byte,
      convert exampleHost 1 "UTF-32BE" "UTF-32LE" [1, 2, 3, 4] 4 = .ok (some out) ∧
      convert exampleHost 1 "UTF-32BE" "UTF-32LE" out 4 = .ok (some ([1, 2, 3, 4] ++ zeros 4)) :=
  ⟨fun _ => rfl,
    (endianness_swap_involution exampleHost 0 [1, 2, 3, 4] (fun _ => rfl)).2 (by decide)⟩

/-- Claim C6: for two names of the same UTF-16 or UTF-32 family that are not equal
ignoring case and a buffer whose length is a multiple of the unit width, the result is
the input followed by 4 zero bytes when both names resolve to the same byte order, and
the input with every 2-byte (UTF-16) or 4-byte (UTF-32) unit byte-reversed followed by 4
zero bytes otherwise; the result does not depend on the external converters of the
host. -/
theorem same_family_conversion (h : Host) (fuel : Nat) (toName fromName : String)
    (data : List Byte) (ha : h.allocationSucceeds)
    (hne : equalsIgnoreCase toName fromName = false) :
    (hasPrefixIgnoreCase toName "utf-16" = true → hasPrefixIgnoreCase fromName "utf-16" = true →
      data.length % 2 = 0 →
      convert h (fuel + 1) toName fromName data data.length
        = .ok (some ((if resolvesBigEndian h toName = resolvesBigEndian h fromName
            then data else reverseUnits16 data) ++ zeros 4))) ∧
    (hasPrefixIgnoreCase toName "utf-32" = true → hasPrefixIgnoreCase fromName "utf-32" = true →
      data.length % 4 = 0 →
      convert h (fuel + 1) toName fromName data data.length
        = .ok (some ((if resolvesBigEndian h toName = resolvesBigEndian h fromName
            then data else reverseUnits32 data) ++ zeros 4))) := by
  constructor
  · intro hto hfrom hlen
    unfold convert
    simp only [convertWithTransliteration]
    rw [family_switch h _ toName fromName _ data.length hne (by simp [hto, hfrom])]
    by_cases hres : resolvesBigEndian h fromName = resolvesBigEndian h toName
    · simp only [hres, if_true]
      exact copyString_eq h ha data
    · have hres' : ¬ resolvesBigEndian h toName = resolvesBigEndian h fromName :=
        fun e => hres e.symm
      simp only [hres, hres', hto, if_false, if_true]
      have := switchEndian_16 h ha data [] hlen
      rwa [List.append_nil] at this
  · intro hto hfrom hlen
    have hto16 : hasPrefixIgnoreCase toName "utf-16" = false := by
      cases h16 : hasPrefixIgnoreCase toName "utf-16"
      · rfl
      · have := prefix16_not_prefix32 toName h16
        rw [hto] at this
        exact absurd this (by decide)
    unfold convert
    simp only [convertWithTransliteration]
    rw [family_switch h _ toName fromName _ data.length hne (by simp [hto, hfrom])]
    by_cases hres : resolvesBigEndian h fromName = resolvesBigEndian h toName
    · simp only [hres, if_true]
      exact copyString_eq h ha data
    · have hres' : ¬ resolvesBigEndian h toName = resolvesBigEndian h fromName :=
        fun e => hres e.symm
      simp only [hres, hres', hto16, Bool.false_eq_true, if_false]
      have := switchEndian_32 h ha data [] hlen
      rwa [List.append_nil] at this

theorem same_family_conversion_witness :
    exampleHost.allocationSucceeds ∧ equalsIgnoreCase "utf-16be" "UTF-16" = false ∧
    convert exampleHost 1 "utf-16be" "UTF-16" [1, 2, 3, 4] 4
      = .ok (some ((if resolvesBigEndian exampleHost "utf-16be" = resolvesBigEndian exampleHost "UTF-16"
          then [1, 2, 3, 4] else reverseUnits16 [1, 2, 3, 4]) ++ zeros 4)) :=
  ⟨fun _ => rfl, by decide,
    (same_family_conversion exampleHost 0 "utf-16be" "UTF-16" [1, 2, 3, 4] (fun _ => rfl)
      (by decide)).1 (by decide) (by decide) (by decide)⟩

theorem lookupTable_some_name (h : Host) (P : String) (t : Table)
    (ht : lookupTable h P = some t) : IsTabulatedName P := by
  unfold lookupTable g_encodingConversionTables at ht
  simp only [List.foldl] at ht
  unfold IsTabulatedName
  by_cases h437 : equalsIgnoreCase P "cp437" = true
  · right
    unfold equalsIgnoreCase at h437
    rw [beq_iff_eq] at h437
    rw [h437]
    decide
  · by_cases h850 : equalsIgnoreCase P "cp850" = true
    · left
      unfold equalsIgnoreCase at h850
      rw [beq_iff_eq] at h850
      rw [h850]
      decide
    · simp [h437, h850] at ht

theorem tabulated_not_utf (h : Host) (P : String) (hP : IsTabulatedName P) :
    (∀ x : String, hasPrefixIgnoreCase x "utf" = true → equalsIgnoreCase P x = false) ∧
    hasPrefixIgnoreCase P "utf" = false ∧
    hasPrefixIgnoreCase P "utf-16" = false ∧
    hasPrefixIgnoreCase P "utf-32" = false ∧
    equalsIgnoreCase P "iso-8859-5" = false ∧
    addUtfEndianness h P = P := by
  have e1 : hasPrefixIgnoreCase P "utf" = false := by
    unfold hasPrefixIgnoreCase
    rcases hP with hP | hP <;> rw [hP] <;> decide
  have e2 : hasPrefixIgnoreCase P "utf-16" = false := by
    unfold hasPrefixIgnoreCase
    rcases hP with hP | hP <;> rw [hP] <;> decide
  have e3 : hasPrefixIgnoreCase P "utf-32" = false := by
    unfold hasPrefixIgnoreCase
    rcases hP with hP | hP <;> rw [hP] <;> decide
  have e4 : equalsIgnoreCase P "iso-8859-5" = false := by
    unfold equalsIgnoreCase
    rcases hP with hP | hP <;> rw [hP] <;> decide
  have e5 : equalsIgnoreCase P "utf-16" = false := by
    unfold equalsIgnoreCase
    rcases hP with hP | hP <;> rw [hP] <;> decide
  have e6 : equalsIgnoreCase P "utf-32" = false := by
    unfold equalsIgnoreCase
    rcases hP with hP | hP <;> rw [hP] <;> decide
  refine ⟨?_, e1, e2, e3, e4, ?_⟩
  · intro x hx
    rw [Bool.eq_false_iff]
    intro hxe
    unfold equalsIgnoreCase at hxe
    rw [beq_iff_eq] at hxe
    unfold hasPrefixIgnoreCase at e1 hx
    rw [hxe, hx] at e1
    exact absurd e1 (by decide)
  · simp [addUtfEndianness, e5, e6]

theorem copyString_prefix (h : Host) (ha : h.allocationSucceeds) (data tail : List Byte) :
    copyString h (data ++ tail) data.length = .ok (some (data ++ zeros 4)) := by
  simp [copyString, ha (data.length + 4), memcpy, bind, Except.bind, pure, Except.pure]

theorem body_plain (h : Host) (convert : String → String → List Byte → Nat → Result)
    (toName fromName : String) (string : List Byte) (length : Nat)
    (hne : equalsIgnoreCase fromName toName = false)
    (hfam : (hasPrefixIgnoreCase toName "utf-16" && hasPrefixIgnoreCase fromName "utf-16" ||
      hasPrefixIgnoreCase toName "utf-32" && hasPrefixIgnoreCase fromName "utf-32") = false)
    (hiso : equalsIgnoreCase fromName "iso-8859-5" = false)
    (hutf : hasPrefixIgnoreCase fromName "utf" = false) :
    convertWithTransliterationBody h convert toName fromName string length
      = conversion h convert toName fromName string length := by
  unfold convertWithTransliterationBody
  simp only [hne, hfam, hiso, hutf, Bool.false_eq_true, if_false, Bool.false_and]
  rfl

theorem conversion_unavailable (h : Host) (hb : h.backendsUnavailable)
    (convert : String → String → List Byte → Nat → Result)
    (toName fromName : String) (string : List Byte) (length : Nat) :
    conversion h convert toName fromName string length
      = convertConversionTable h convert (addUtfEndianness h toName)
          (addUtfEndianness h fromName) string length := by
  unfold conversion
  rw [hb.1, hb.2]

theorem decodeLoop_eq (h : Host) (t : Table) :
    ∀ (data pre tail : List Byte) (i : Nat), pre.length = i →
      decodeLoop h t (pre ++ data ++ tail) i data.length
        = .ok (utf32Bytes h.bigEndian (data.map t)) := by
  intro data
  induction data with
  | nil => intro pre tail i _; rfl
  | cons b rest ih =>
    intro pre tail i hpre
    have hsplit : pre ++ b :: rest ++ tail = pre ++ b :: (rest ++ tail) := by simp
    have hnext : pre ++ b :: rest ++ tail = (pre ++ [b]) ++ rest ++ tail := by simp
    have hrec := ih (pre ++ [b]) tail (i + 1) (by simp [hpre])
    simp only [decodeLoop, byteAt, List.length_cons, bind, Except.bind, pure, Except.pure]
    rw [hsplit, getElem?_mid pre b _ i hpre.symm, ← hsplit, hnext, hrec]
    rfl

theorem utf32Bytes_length (be : Bool) : ∀ cps : List U32, (utf32Bytes be cps).length = 4 * cps.length
  | [] => rfl
  | c :: cs => by
    have ih := utf32Bytes_length be cs
    cases be <;> simp [utf32Bytes, store32, ih] <;> omega

theorem utf32Bytes_append (be : Bool) : ∀ a b : List U32,
    utf32Bytes be (a ++ b) = utf32Bytes be a ++ utf32Bytes be b
  | [], b => rfl
  | c :: cs, b => by simp [utf32Bytes, utf32Bytes_append be cs b]

theorem addUtfEndianness_utf32 (h : Host) :
    addUtfEndianness h "UTF-32" = if h.bigEndian then "UTF-32BE" else "UTF-32LE" := by
  have e : equalsIgnoreCase "UTF-32" "utf-32" = true := by decide
  simp only [addUtfEndianness, e, Bool.or_true, if_true]
  cases h.bigEndian <;> decide

theorem resolves_utf32 (h : Host) :
    resolvesBigEndian h "utf-32" = h.bigEndian ∧
    resolvesBigEndian h (addUtfEndianness h "UTF-32") = h.bigEndian := by
  have a1 : hasSuffixIgnoreCase "utf-32" "be" = false := by decide
  have a2 : hasSuffixIgnoreCase "utf-32" "le" = false := by decide
  obtain ⟨-, -, h1, h2⟩ := resolves_literals h
  rw [addUtfEndianness_utf32]
  constructor
  · simp [resolvesBigEndian, a1, a2]
  · cases hb : h.bigEndian <;> simp [h1, h2]

theorem native_utf32_facts (h : Host) :
    equalsIgnoreCase (addUtfEndianness h "UTF-32") "utf-32" = false ∧
    hasPrefixIgnoreCase (addUtfEndianness h "UTF-32") "utf-32" = true ∧
    hasPrefixIgnoreCase (addUtfEndianness h "UTF-32") "utf-16" = false ∧
    lookupTable h (addUtfEndianness h "UTF-32") = none := by
  rw [addUtfEndianness_utf32]
  cases h.bigEndian
  · refine ⟨by decide, by decide, by decide, ?_⟩
    have e1 : equalsIgnoreCase "UTF-32LE" "cp850" = false := by decide
    have e2 : equalsIgnoreCase "UTF-32LE" "cp437" = false := by decide
    simp [lookupTable, g_encodingConversionTables, e1, e2]
  · refine ⟨by decide, by decide, by decide, ?_⟩
    have e1 : equalsIgnoreCase "UTF-32BE" "cp850" = false := by decide
    have e2 : equalsIgnoreCase "UTF-32BE" "cp437" = false := by decide
    simp [lookupTable, g_encodingConversionTables, e1, e2]

theorem to_native_utf32_copies (h : Host) (fuel : Nat) (ha : h.allocationSucceeds)
    (data tail : List Byte) :
    convertWithTransliteration h (fuel + 1) (addUtfEndianness h "UTF-32") "utf-32"
      (data ++ tail) data.length = .ok (some (data ++ zeros 4)) := by
  obtain ⟨f1, f2, -, -⟩ := native_utf32_facts h
  obtain ⟨r1, r2⟩ := resolves_utf32 h
  simp only [convertWithTransliteration]
  rw [family_switch h _ _ "utf-32" _ data.length f1
    (by rw [f2]; have : hasPrefixIgnoreCase "utf-32" "utf-32" = true := by decide
        simp [this])]
  simp only [r1, r2, if_true]
  exact copyString_prefix h ha data tail

theorem from_native_utf32_copies (h : Host) (fuel : Nat) (ha : h.allocationSucceeds)
    (data tail : List Byte) :
    convertWithTransliteration h (fuel + 1) "utf-32" (addUtfEndianness h "UTF-32")
      (data ++ tail) data.length = .ok (some (data ++ zeros 4)) := by
  obtain ⟨f1, f2, -, -⟩ := native_utf32_facts h
  obtain ⟨r1, r2⟩ := resolves_utf32 h
  simp only [convertWithTransliteration]
  rw [family_switch h _ "utf-32" _ _ data.length (by rw [equalsIgnoreCase_comm]; exact f1)
    (by rw [f2]; have : hasPrefixIgnoreCase "utf-32" "utf-32" = true := by decide
        simp [this])]
  simp only [r1, r2, if_true]
  exact copyString_prefix h ha data tail

theorem table_decode_path (h : Host) (fuel : Nat) (P : String) (t : Table)
    (data tail : List Byte) (ha : h.allocationSucceeds) (hb : h.backendsUnavailable)
    (ht : lookupTable h P = some t) :
    convert h (fuel + 2) "UTF-32" P (data ++ tail) data.length
      = .ok (some (utf32Bytes h.bigEndian (data.map t) ++ zeros 4)) := by
  have hP := lookupTable_some_name h P t ht
  obtain ⟨f1, f2, f3, f4, f5, f6⟩ := tabulated_not_utf h P hP
  have g1 := f1 "UTF-32" (by decide)
  unfold convert
  rw [show convertWithTransliteration h (fuel + 2)
    = convertWithTransliterationBody h (convertWithTransliteration h (fuel + 1)) from rfl]
  rw [body_plain h _ "UTF-32" P _ _ g1 (by simp [f3, f4]) f5 f2]
  rw [conversion_unavailable h hb, f6]
  unfold convertConversionTable
  have hdec := decodeLoop_eq h t data [] tail 0 rfl
  rw [List.nil_append] at hdec
  simp only [ht, ha (4 * (data.length + 1)), Bool.not_true, Bool.false_eq_true, if_false,
    hdec, bind, Except.bind]
  have hcopy := to_native_utf32_copies h fuel ha (utf32Bytes h.bigEndian (data.map t)) (zeros 4)
  rw [utf32Bytes_length, List.length_map, Nat.mul_comm] at hcopy
  exact hcopy

theorem load32_store32 (be : Bool) (pre post : List Byte) (c : U32) (i : Nat)
    (hi : pre.length = 4 * i) :
    load32 be (pre ++ store32 be c.val ++ post) i = .ok c := by
  have hc := c.isLt
  cases be
  · simp only [store32, Bool.false_eq_true, if_false, List.append_assoc, List.cons_append,
      List.nil_append]
    rw [load32_mid false pre _ _ _ _ post i hi]
    simp only [Bool.false_eq_true, if_false, Byte.ofNat]
    congr 1
    apply Fin.ext
    simp only [u32_ofNat_val]
    omega
  · simp only [store32, if_true, List.append_assoc, List.cons_append, List.nil_append]
    rw [load32_mid true pre _ _ _ _ post i hi]
    simp only [if_true, Byte.ofNat]
    congr 1
    apply Fin.ext
    simp only [u32_ofNat_val]
    omega

theorem load32_utf32Bytes (be : Bool) (cps : List U32) (tail : List Byte) (i : Nat)
    (hi : i < cps.length) :
    load32 be (utf32Bytes be cps ++ tail) i = .ok (cps[i]) := by
  have hsplit : cps = cps.take i ++ cps[i] :: cps.drop (i + 1) := by
    rw [← List.drop_eq_getElem_cons hi, List.take_append_drop]
  have hlen : (utf32Bytes be (cps.take i)).length = 4 * i := by
    rw [utf32Bytes_length, List.length_take]
    omega
  have hbytes : utf32Bytes be cps ++ tail
      = utf32Bytes be (cps.take i) ++ store32 be (cps[i]).val
        ++ (utf32Bytes be (cps.drop (i + 1)) ++ tail) := by
    conv_lhs => rw [hsplit]
    rw [utf32Bytes_append]
    simp [utf32Bytes]
  rw [hbytes]
  exact load32_store32 be _ _ _ i hlen

/-- Claim C9: without external converters, converting `n` bytes from a tabulated page to
"UTF-32" returns `4 * n` bytes followed by 4 zero bytes, and the `i`-th 32-bit element of
the result, read in the byte order of the host, is the table entry of the `i`-th input
byte. -/
theorem table_decode_to_utf32 (h : Host) (fuel : Nat) (P : String) (t : Table)
    (data : List Byte) (ha : h.allocationSucceeds) (hb : h.backendsUnavailable)
    (ht : lookupTable h P = some t) :
    ∃ out : List Byte,
      convert h (fuel + 2) "UTF-32" P data data.length = .ok (some (out ++ zeros 4)) ∧
      out.length = 4 * data.length ∧
      ∀ (i : Nat) (hi : i < data.length), load32 h.bigEndian out i = .ok (t data[i]) := by
  refine ⟨utf32Bytes h.bigEndian (data.map t), ?_, ?_, ?_⟩
  · have := table_decode_path h fuel P t data [] ha hb ht
    rwa [List.append_nil] at this
  · rw [utf32Bytes_length, List.length_map]
  · intro i hi
    have := load32_utf32Bytes h.bigEndian (data.map t) [] i (by simpa using hi)
    rw [List.append_nil] at this
    rw [this]
    simp

theorem exampleHost_facts :
    exampleHost.allocationSucceeds ∧ exampleHost.backendsUnavailable ∧
    lookupTable exampleHost "CP437" = some (fun b => U32.ofNat b.val) ∧
    lookupTable exampleHost "CP850" = some (fun b => U32.ofNat b.val) :=
  ⟨fun _ => rfl, ⟨fun _ _ _ _ => rfl, fun _ _ _ _ => rfl⟩, rfl, rfl⟩

theorem table_decode_to_utf32_witness :
    exampleHost.allocationSucceeds ∧ exampleHost.backendsUnavailable ∧
    lookupTable exampleHost "CP437" = some (fun b => U32.ofNat b.val) ∧
    ∃ out : List Byte,
      convert exampleHost 2 "UTF-32" "CP437" [0x41] 1 = .ok (some (out ++ zeros 4)) ∧
      out.length = 4 ∧
      ∀ (i : Nat) (hi : i < 1),
        load32 false out i = .ok (U32.ofNat (([0x41] : List Byte)[i]).val) :=
  ⟨exampleHost_facts.1, exampleHost_facts.2.1, exampleHost_facts.2.2.1,
    table_decode_to_utf32 exampleHost 0 "CP437" (fun b => U32.ofNat b.val) [0x41]
      exampleHost_facts.1 exampleHost_facts.2.1 exampleHost_facts.2.2.1⟩

theorem scanTable_absent (t : Table) (c : U32) :
    ∀ (steps j : Nat) (cur : Byte), j + steps = 257 → 0 < steps →
      (∀ k, j ≤ k → k < 256 → t (Byte.ofNat k) ≠ c) →
      scanTable t c steps j cur = Byte.ofNat 63 := by
  intro steps
  induction steps with
  | zero => intro j cur _ h0; omega
  | succ n ih =>
    intro j cur hsum _ hmiss
    unfold scanTable
    by_cases hj : j = 256
    · have hn : n = 0 := by omega
      subst hn
      simp only [hj, if_true]
      rfl
    · have hne : ¬ c = t (Byte.ofNat j) := fun e => hmiss j (Nat.le_refl j) (by omega) e.symm
      simp only [hj, hne, if_false]
      exact ih (j + 1) cur (by omega) (by omega) (fun k hk hk2 => hmiss k (by omega) hk2)

theorem scanTable_present (t : Table) (c : U32) :
    ∀ (steps j : Nat) (cur : Byte), j + steps = 257 →
      (∃ k, j ≤ k ∧ k < 256 ∧ t (Byte.ofNat k) = c) →
      ∃ k, j ≤ k ∧ k < 256 ∧ scanTable t c steps j cur = Byte.ofNat k ∧
        t (Byte.ofNat k) = c ∧ ∀ k', j ≤ k' → k' < k → t (Byte.ofNat k') ≠ c := by
  intro steps
  induction steps with
  | zero =>
    intro j cur hsum hex
    obtain ⟨k, hk1, hk2, -⟩ := hex
    omega
  | succ n ih =>
    intro j cur hsum hex
    obtain ⟨k, hk1, hk2, hk3⟩ := hex
    unfold scanTable
    have hj : ¬ j = 256 := by omega
    by_cases hhit : c = t (Byte.ofNat j)
    · refine ⟨j, Nat.le_refl j, by omega, ?_, hhit.symm, ?_⟩
      · simp only [hj, hhit, if_false, if_true]
      · intro k' h1 h2
        omega
    · have hkj : k ≠ j := fun e => hhit (by rw [← e]; exact hk3.symm)
      obtain ⟨k0, h1, h2, h3, h4, h5⟩ := ih (j + 1) cur (by omega) ⟨k, by omega, hk2, hk3⟩
      refine ⟨k0, by omega, h2, ?_, h4, ?_⟩
      · simp only [hj, hhit, if_false]
        exact h3
      · intro k' hk'1 hk'2
        by_cases e : k' = j
        · rw [e]
          exact fun e2 => hhit e2.symm
        · exact h5 k' (by omega) hk'2

theorem byte_ofNat_val_self (b : Byte) : Byte.ofNat b.val = b :=
  Fin.ext (Nat.mod_eq_of_lt b.isLt)

theorem encodedByte_absent (t : Table) (c : U32) (hmiss : ∀ j : Byte, t j ≠ c) :
    encodedByte t c = 0x3F :=
  scanTable_absent t c 257 0 0 rfl (by decide) (fun k _ _ => hmiss (Byte.ofNat k))

theorem encodedByte_present (t : Table) (c : U32) (hex : ∃ j : Byte, t j = c) :
    t (encodedByte t c) = c ∧ ∀ k : Byte, k < encodedByte t c → t k ≠ c := by
  obtain ⟨j, hj⟩ := hex
  obtain ⟨k, -, hk2, hk3, hk4, hk5⟩ := scanTable_present t c 257 0 0 rfl
    ⟨j.val, Nat.zero_le _, j.isLt, by rw [byte_ofNat_val_self]; exact hj⟩
  have hval : (encodedByte t c).val = k := by
    unfold encodedByte
    rw [hk3]
    exact Nat.mod_eq_of_lt hk2
  constructor
  · unfold encodedByte
    rw [hk3]
    exact hk4
  · intro k' hlt
    have := hk5 k'.val (Nat.zero_le _) (by rw [← hval]; exact hlt)
    rwa [byte_ofNat_val_self] at this

theorem encodedByte_first (t : Table) (b : Byte) (hfirst : ∀ k : Byte, k < b → t k ≠ t b) :
    encodedByte t (t b) = b := by
  obtain ⟨h1, h2⟩ := encodedByte_present t (t b) ⟨b, rfl⟩
  rcases Nat.lt_trichotomy (encodedByte t (t b)).val b.val with hlt | heq | hgt
  · exact absurd h1 (hfirst _ hlt)
  · exact Fin.ext heq
  · exact absurd rfl (h2 b hgt)

theorem getElem?_mid_any {α : Type} (pre : List α) (x : α) (post : List α) (i : Nat)
    (hi : i = pre.length) : (pre ++ x :: post)[i]? = some x := by
  subst hi
  rw [List.getElem?_append_right (Nat.le_refl _)]
  simp

theorem encodeLoop_eq (h : Host) (t : Table) :
    ∀ (cps : List U32) (pre : List U32) (tail : List Byte) (i : Nat), pre.length = i →
      encodeLoop h t (some (utf32Bytes h.bigEndian (pre ++ cps) ++ tail)) i cps.length
        = .ok (cps.map (encodedByte t)) := by
  intro cps
  induction cps with
  | nil => intro pre tail i _; rfl
  | cons c rest ih =>
    intro pre tail i hpre
    have hlt : i < (pre ++ c :: rest).length := by simp [hpre]
    have hload := load32_utf32Bytes h.bigEndian (pre ++ c :: rest) tail i hlt
    have hget : (pre ++ c :: rest)[i] = c := by
      apply Option.some.inj
      rw [← List.getElem?_eq_getElem hlt]
      exact getElem?_mid_any pre c rest i hpre.symm
    rw [hget] at hload
    have hrec := ih (pre ++ [c]) tail (i + 1) (by simp [hpre])
    rw [List.append_assoc, List.singleton_append] at hrec
    simp only [encodeLoop, List.length_cons, bind, Except.bind, pure, Except.pure, hload, hrec]
    rfl

theorem cyrillicAt_eq (k : Nat) (hk : k < 96) :
    cyrillicAt k = .ok (g_cyrillicTransliterationTable.getD k ' ').toNat ∧
    (g_cyrillicTransliterationTable.getD k ' ').toNat < 128 := by
  have hlen : g_cyrillicTransliterationTable.length = 96 := by decide
  have hall : ∀ c ∈ g_cyrillicTransliterationTable, c.toNat < 128 := by decide
  have hlt : k < g_cyrillicTransliterationTable.length := by omega
  have hget : g_cyrillicTransliterationTable[k]? = some (g_cyrillicTransliterationTable[k]) :=
    List.getElem?_eq_getElem hlt
  have hD : g_cyrillicTransliterationTable.getD k ' ' = g_cyrillicTransliterationTable[k] := by
    rw [List.getD_eq_getElem?_getD, hget]
    rfl
  constructor
  · unfold cyrillicAt
    rw [hget, hD]
  · rw [hD]
    exact hall _ (List.getElem_mem _)

theorem transliterate_step (c : U32) :
    transliterateUTF32Element c = Except.ok (transliteratedCodePoint c).val := by
  unfold transliteratedCodePoint transliterateUTF32Element
  by_cases hc : c.val ≥ 0x410 ∧ c.val ≤ 0x450
  · have hidx : c.val - 160 - 864 = c.val - 0x400 := by omega
    obtain ⟨h1, h2⟩ := cyrillicAt_eq (c.val - 0x400) (by omega)
    simp only [hc, and_self, if_true, hidx, h1, u32_ofNat_val]
    rw [Nat.mod_eq_of_lt (by omega)]
  · simp only [hc, if_false]
    rfl

theorem transliteratedCodePoint_outside (c : U32) (hc : ¬ (0x410 ≤ c.val ∧ c.val ≤ 0x450)) :
    transliteratedCodePoint c = c := by
  unfold transliteratedCodePoint
  simp only [ge_iff_le, hc, if_false]

theorem transliterateUTF32Loop_eq (h : Host) :
    ∀ (cps : List U32) (pre : List U32) (tail : List Byte) (i : Nat), pre.length = i →
      transliterateUTF32Loop h (utf32Bytes h.bigEndian (pre ++ cps) ++ tail) i cps.length
        = .ok (utf32Bytes h.bigEndian (cps.map transliteratedCodePoint)) := by
  intro cps
  induction cps with
  | nil => intro pre tail i _; rfl
  | cons c rest ih =>
    intro pre tail i hpre
    have hlt : i < (pre ++ c :: rest).length := by simp [hpre]
    have hload := load32_utf32Bytes h.bigEndian (pre ++ c :: rest) tail i hlt
    have hget : (pre ++ c :: rest)[i] = c := by
      apply Option.some.inj
      rw [← List.getElem?_eq_getElem hlt]
      exact getElem?_mid_any pre c rest i hpre.symm
    rw [hget] at hload
    have hrec := ih (pre ++ [c]) tail (i + 1) (by simp [hpre])
    rw [List.append_assoc, List.singleton_append] at hrec
    rw [List.length_cons]
    unfold transliterateUTF32Loop
    rw [hload]
    show (do
      let out ← transliterateUTF32Element c
      let rest ← transliterateUTF32Loop h (utf32Bytes h.bigEndian (pre ++ c :: rest) ++ tail)
        (i + 1) rest.length
      pure (store32 h.bigEndian out ++ rest)) = _
    rw [transliterate_step]
    show (do
      let rest ← transliterateUTF32Loop h (utf32Bytes h.bigEndian (pre ++ c :: rest) ++ tail)
        (i + 1) rest.length
      pure (store32 h.bigEndian (transliteratedCodePoint c).val ++ rest)) = _
    rw [hrec]
    rfl

theorem transliterateUTF32_eq (h : Host) (ha : h.allocationSucceeds) (cps : List U32)
    (x : U32) (tail : List Byte) :
    transliterateUTF32 h (utf32Bytes h.bigEndian (cps ++ [x]) ++ tail) (4 * cps.length)
      = .ok (some (utf32Bytes h.bigEndian (cps.map transliteratedCodePoint)
          ++ utf32Bytes h.bigEndian [transliteratedCodePoint x])) := by
  have hloop := transliterateUTF32Loop_eq h (cps ++ [x]) [] tail 0 rfl
  rw [List.nil_append, List.length_append, List.length_singleton] at hloop
  have hcount : 4 * cps.length / 4 + 1 = cps.length + 1 := by omega
  unfold transliterateUTF32
  rw [hcount, hloop, ha (4 * cps.length + 4)]
  simp only [Bool.not_true, Bool.false_eq_true, if_false,
    bind, Except.bind, pure, Except.pure, List.map_append, utf32Bytes_append, List.map_cons,
    List.map_nil]

theorem body_utf32_source (h : Host) (convert : String → String → List Byte → Nat → Result)
    (toName fromName : String) (string : List Byte) (length : Nat)
    (hne : equalsIgnoreCase fromName toName = false)
    (hto : hasPrefixIgnoreCase toName "utf" = false)
    (hto16 : hasPrefixIgnoreCase toName "utf-16" = false)
    (hto32 : hasPrefixIgnoreCase toName "utf-32" = false)
    (htoiso : equalsIgnoreCase toName "iso-8859-5" = false)
    (hiso : equalsIgnoreCase fromName "iso-8859-5" = false)
    (hutf : hasPrefixIgnoreCase fromName "utf" = true)
    (h32 : hasPrefixIgnoreCase fromName "utf-32" = true) :
    convertWithTransliterationBody h convert toName fromName string length
      = (transliterateUTF32 h string length).bind (fun r =>
          match r with
          | none => .ok none
          | some s => conversion h convert toName fromName s length) := by
  unfold convertWithTransliterationBody
  simp only [hne, hto, hto16, hto32, htoiso, hiso, hutf, h32, Bool.false_eq_true, if_false,
    if_true, Bool.false_and, Bool.or_false, Bool.not_false, Bool.and_true, Bool.true_and]
  cases htr : transliterateUTF32 h string length with
  | error e => rfl
  | ok r =>
    cases r with
    | none => rfl
    | some s => rfl

theorem cct_encode (h : Host) (convert : String → String → List Byte → Nat → Result)
    (toName fromName : String) (string : List Byte) (length : Nat) (t : Table)
    (ha : h.allocationSucceeds)
    (hfrom : lookupTable h fromName = none) (hto : lookupTable h toName = some t)
    (h16 : hasPrefixIgnoreCase fromName "utf-16" = false)
    (h32 : hasPrefixIgnoreCase fromName "utf-32" = true) :
    convertConversionTable h convert toName fromName string length
      = (convert "utf-32" fromName string length).bind (fun u =>
          (encodeLoop h t u 0 (length / 4)).map (fun e => some (e ++ zeros 1))) := by
  unfold convertConversionTable
  simp only [hfrom, hto, h16, h32, Bool.false_eq_true, if_false, if_true, ha (length / 4 + 1),
    Bool.not_true, bind, pure, Except.pure]
  cases hu : convert "utf-32" fromName string length with
  | error e => rfl
  | ok u =>
    simp only [Except.bind]
    cases encodeLoop h t u 0 (length / 4) with
    | error e => rfl
    | ok e => rfl

theorem table_encode_path (h : Host) (fuel : Nat) (P : String) (t : Table)
    (cps : List U32) (x : U32) (tail : List Byte)
    (ha : h.allocationSucceeds) (hb : h.backendsUnavailable) (ht : lookupTable h P = some t) :
    convert h (fuel + 2) P "UTF-32" (utf32Bytes h.bigEndian (cps ++ [x]) ++ tail)
        (4 * cps.length)
      = .ok (some ((cps.map transliteratedCodePoint).map (encodedByte t) ++ zeros 1)) := by
  have hP := lookupTable_some_name h P t ht
  obtain ⟨f1, f2, f3, f4, f5, f6⟩ := tabulated_not_utf h P hP
  obtain ⟨n1, n2, n3, n4⟩ := native_utf32_facts h
  have g1 : equalsIgnoreCase "UTF-32" P = false := by
    rw [equalsIgnoreCase_comm]
    exact f1 "UTF-32" (by decide)
  unfold convert
  rw [show convertWithTransliteration h (fuel + 2)
    = convertWithTransliterationBody h (convertWithTransliteration h (fuel + 1)) from rfl]
  rw [body_utf32_source h _ P "UTF-32" _ _ g1 f2 f3 f4 f5 (by decide) (by decide) (by decide)]
  rw [transliterateUTF32_eq h ha cps x tail]
  show conversion h _ P "UTF-32" _ _ = _
  rw [conversion_unavailable h hb, f6]
  rw [cct_encode h _ P _ _ _ t ha n4 ht n3 n2]
  have hcopy := from_native_utf32_copies h fuel ha
    (utf32Bytes h.bigEndian (cps.map transliteratedCodePoint))
    (utf32Bytes h.bigEndian [transliteratedCodePoint x])
  rw [utf32Bytes_length, List.length_map] at hcopy
  rw [hcopy]
  have hloop := encodeLoop_eq h t (cps.map transliteratedCodePoint) [] (zeros 4) 0 rfl
  rw [List.nil_append, List.length_map] at hloop
  have hdiv : 4 * cps.length / 4 = cps.length := by omega
  show (encodeLoop h t _ 0 (4 * cps.length / 4)).map _ = _
  rw [hdiv, hloop]
  rfl

/-- Claim C10, as amended: without external converters, for a tabulated page and a code
point `c` outside 0x410..0x450 that occurs in its table, converting the host-native UTF-32
buffer holding `c` with declared length 4, followed by one more 32-bit element (the
terminator of the string), returns exactly one byte `j` and a zero byte, where `j` is the
first index at which the table holds `c`. -/
theorem table_encode_code_point (h : Host) (fuel : Nat) (P : String) (t : Table)
    (c x : U32) (ha : h.allocationSucceeds) (hb : h.backendsUnavailable)
    (ht : lookupTable h P = some t) (hc : ¬ (0x410 ≤ c.val ∧ c.val ≤ 0x450))
    (hex : ∃ j : Byte, t j = c) :
    ∃ j : Byte, convert h (fuel + 2) P "UTF-32" (utf32Bytes h.bigEndian [c, x]) 4
        = .ok (some [j, 0]) ∧
      t j = c ∧ ∀ k : Byte, k < j → t k ≠ c := by
  refine ⟨encodedByte t c, ?_, encodedByte_present t c hex⟩
  have hpath := table_encode_path h fuel P t [c] x [] ha hb ht
  rw [List.append_nil] at hpath
  rw [show ([c, x] : List U32) = [c] ++ [x] from rfl]
  rw [show (4 : Nat) = 4 * [c].length from rfl, hpath]
  simp only [List.map_cons, List.map_nil, transliteratedCodePoint_outside c hc]
  rfl

theorem table_encode_code_point_witness :
    exampleHost.allocationSucceeds ∧ exampleHost.backendsUnavailable ∧
    lookupTable exampleHost "CP850" = some (fun b => U32.ofNat b.val) ∧
    ¬ (0x410 ≤ (0xC6 : U32).val ∧ (0xC6 : U32).val ≤ 0x450) ∧
    (∃ j : Byte, (fun b : Byte => U32.ofNat b.val) j = (0xC6 : U32)) ∧
    ∃ j : Byte, convert exampleHost 2 "CP850" "UTF-32" (utf32Bytes false [0xC6, 0]) 4
        = .ok (some [j, 0]) ∧
      (fun b : Byte => U32.ofNat b.val) j = (0xC6 : U32) ∧
      ∀ k : Byte, k < j → (fun b : Byte => U32.ofNat b.val) k ≠ (0xC6 : U32) :=
  ⟨exampleHost_facts.1, exampleHost_facts.2.1, exampleHost_facts.2.2.2, by decide,
    ⟨0xC6, by decide⟩,
    table_encode_code_point exampleHost 0 "CP850" (fun b => U32.ofNat b.val) 0xC6 0
      exampleHost_facts.1 exampleHost_facts.2.1 exampleHost_facts.2.2.2 (by decide)
      ⟨0xC6, by decide⟩⟩

set_option maxRecDepth 100000 in
/-- Claim C10 fails as stated: on the buffer of exactly the 4 bytes of the code point
0x00C6, with declared length 4, `transliterateUTF32` reads the element `length / 4` = 1
behind the buffer, so the conversion to "CP850" does not return a byte; with one more
element behind the code point it returns the index 0xC6 of the table of this host. -/
theorem unterminated_code_point_counterexample :
    (utf32Bytes false [0xC6]).length = 4 ∧
    convert exampleHost 2 "CP850" "UTF-32" (utf32Bytes false [0xC6]) 4
      = .error .outOfBounds ∧
    transliterateUTF32 exampleHost (utf32Bytes false [0xC6]) 4 = .error .outOfBounds ∧
    convert exampleHost 2 "CP850" "UTF-32" (utf32Bytes false [0xC6, 0]) 4
      = .ok (some [0xC6, 0]) :=
  ⟨rfl, rfl, rfl, rfl⟩

theorem zeros_four_eq (be : Bool) : zeros 4 = utf32Bytes be [0] := by
  cases be <;> rfl

theorem exampleTable_injective (k b : Byte) (he : U32.ofNat k.val = U32.ofNat b.val) :
    k = b := by
  have hv := congrArg Fin.val he
  have hk := k.isLt
  have hb := b.isLt
  simp only [u32_ofNat_val] at hv
  exact Fin.ext (by omega)

theorem reverseUnits32_utf32Bytes (be : Bool) : ∀ cps : List U32,
    reverseUnits32 (utf32Bytes be cps) = utf32Bytes (!be) cps
  | [] => by cases be <;> rfl
  | c :: cs => by
    have ih := reverseUnits32_utf32Bytes be cs
    cases be
    · simp only [utf32Bytes, store32, Bool.false_eq_true, if_false, List.cons_append,
        List.nil_append, reverseUnits32, Bool.not_false, if_true]
      exact congrArg _ (congrArg _ (congrArg _ (congrArg _ ih)))
    · simp only [utf32Bytes, store32, Bool.false_eq_true, if_false, List.cons_append,
        List.nil_append, reverseUnits32, Bool.not_true, if_true]
      exact congrArg _ (congrArg _ (congrArg _ (congrArg _ ih)))

theorem utf32_name_facts (h : Host) (fromName : String)
    (h32 : hasPrefixIgnoreCase fromName "utf-32" = true) :
    lookupTable h fromName = none ∧ hasPrefixIgnoreCase fromName "utf-16" = false := by
  have h16 : hasPrefixIgnoreCase fromName "utf-16" = false := by
    cases h16 : hasPrefixIgnoreCase fromName "utf-16"
    · rfl
    · have := prefix16_not_prefix32 fromName h16
      rw [h32] at this
      exact absurd this (by decide)
  refine ⟨?_, h16⟩
  have hpre := h32
  unfold hasPrefixIgnoreCase at hpre
  rw [List.isPrefixOf_iff_prefix] at hpre
  obtain ⟨r, hr⟩ := hpre
  have e1 : equalsIgnoreCase fromName "cp850" = false := by
    unfold equalsIgnoreCase
    rw [← hr]
    rfl
  have e2 : equalsIgnoreCase fromName "cp437" = false := by
    unfold equalsIgnoreCase
    rw [← hr]
    rfl
  simp [lookupTable, g_encodingConversionTables, e1, e2]

theorem to_utf32_pivot (h : Host) (fuel : Nat) (ha : h.allocationSucceeds)
    (fromName : String) (h32 : hasPrefixIgnoreCase fromName "utf-32" = true)
    (cps : List U32) (tail : List Byte) :
    convertWithTransliteration h (fuel + 1) "utf-32" fromName
        (utf32Bytes (resolvesBigEndian h fromName) cps ++ tail) (4 * cps.length)
      = .ok (some (utf32Bytes h.bigEndian cps ++ zeros 4)) := by
  obtain ⟨r1, -⟩ := resolves_utf32 h
  have hlen : ∀ be, 4 * cps.length = (utf32Bytes be cps).length :=
    fun be => (utf32Bytes_length be cps).symm
  simp only [convertWithTransliteration]
  cases heq : equalsIgnoreCase fromName "utf-32"
  · have hne : equalsIgnoreCase "utf-32" fromName = false := by
      rw [equalsIgnoreCase_comm]
      exact heq
    have hp : hasPrefixIgnoreCase "utf-32" "utf-32" = true := by decide
    have hp16 : hasPrefixIgnoreCase "utf-32" "utf-16" = false := by decide
    rw [family_switch h _ "utf-32" fromName _ _ hne (by simp [hp, h32])]
    by_cases hres : resolvesBigEndian h fromName = resolvesBigEndian h "utf-32"
    · simp only [hres, if_true]
      rw [r1, hlen h.bigEndian]
      exact copyString_prefix h ha _ tail
    · simp only [hres, hp16, Bool.false_eq_true, if_false]
      rw [hlen (resolvesBigEndian h fromName),
        switchEndian_32 h ha _ tail (by rw [utf32Bytes_length]; omega),
        reverseUnits32_utf32Bytes]
      have hflip : (!resolvesBigEndian h fromName) = h.bigEndian := by
        rw [r1] at hres
        cases hx : resolvesBigEndian h fromName <;> cases hy : h.bigEndian <;> simp_all
      rw [hflip]
  · have hres : resolvesBigEndian h fromName = h.bigEndian := by
      have hl : lowerChars fromName = lowerChars "utf-32" := by
        unfold equalsIgnoreCase at heq
        exact beq_iff_eq.mp heq
      unfold resolvesBigEndian hasSuffixIgnoreCase
      rw [hl]
      rfl
    unfold convertWithTransliterationBody
    simp only [heq, if_true]
    rw [hres, hlen h.bigEndian]
    exact copyString_prefix h ha _ tail

/-- Claim C7: for a tabulated page `P`, a UTF-32 source name and a buffer of `n` code
points in the byte order of that name, the encode path of `convertConversionTable`
returns `n` bytes (and one zero byte), and the byte at every position whose code point
equals none of the 256 entries of the table of `P` is `'?'` (0x3F); the external
converters are not consulted on this path. -/
theorem table_encode_unmapped_is_question_mark (h : Host) (fuel : Nat) (P fromName : String)
    (t : Table) (cps : List U32) (i : Nat) (ha : h.allocationSucceeds)
    (ht : lookupTable h P = some t) (h32 : hasPrefixIgnoreCase fromName "utf-32" = true)
    (hi : i < cps.length) (hmiss : ∀ j : Byte, t j ≠ cps[i]) :
    ∃ out : List Byte,
      convertConversionTable h (convert h (fuel + 1)) P fromName
          (utf32Bytes (resolvesBigEndian h fromName) cps) (4 * cps.length)
        = .ok (some (out ++ zeros 1)) ∧
      out.length = cps.length ∧ out[i]? = some 0x3F := by
  obtain ⟨n1, n2⟩ := utf32_name_facts h fromName h32
  refine ⟨cps.map (encodedByte t), ?_, List.length_map _ _, ?_⟩
  · rw [cct_encode h _ P fromName _ _ t ha n1 ht n2 h32]
    have hpivot := to_utf32_pivot h fuel ha fromName h32 cps []
    rw [List.append_nil] at hpivot
    unfold convert
    rw [hpivot]
    have hloop := encodeLoop_eq h t cps [] (zeros 4) 0 rfl
    rw [List.nil_append] at hloop
    have hdiv : 4 * cps.length / 4 = cps.length := by omega
    show (encodeLoop h t _ 0 (4 * cps.length / 4)).map _ = _
    rw [hdiv, hloop]
    rfl
  · rw [List.getElem?_map, List.getElem?_eq_getElem hi]
    simp only [Option.map_some', encodedByte_absent t _ hmiss]

theorem table_encode_unmapped_is_question_mark_witness :
    exampleHost.allocationSucceeds ∧
    lookupTable exampleHost "cp850" = some (fun b => U32.ofNat b.val) ∧
    hasPrefixIgnoreCase "UTF-32LE" "utf-32" = true ∧
    ∃ out : List Byte,
      convertConversionTable exampleHost (convert exampleHost 1) "cp850" "UTF-32LE"
          (utf32Bytes (resolvesBigEndian exampleHost "UTF-32LE") [0x41, 0x20AC])
          (4 * ([0x41, 0x20AC] : List U32).length)
        = .ok (some (out ++ zeros 1)) ∧
      out.length = ([0x41, 0x20AC] : List U32).length ∧ out[1]? = some 0x3F :=
  ⟨exampleHost_facts.1, rfl, by decide,
    table_encode_unmapped_is_question_mark exampleHost 0 "cp850" "UTF-32LE"
      (fun b => U32.ofNat b.val) [0x41, 0x20AC] 1 exampleHost_facts.1 rfl (by decide)
      (by decide) (fun j he => by
        have hv := congrArg Fin.val he
        have hj := j.isLt
        simp only [u32_ofNat_val] at hv
        have h2 : (([0x41, 0x20AC] : List U32)[1]).val = 0x20AC := rfl
        omega)⟩

theorem transliterateCyrillic_single (h : Host) (ha : h.allocationSucceeds) (b : Byte)
    (hb160 : 160 ≤ b.val) :
    transliterateCyrillic h [b, 0]
      = .ok (some [Byte.ofNat (g_cyrillicTransliterationTable.getD (b.val - 160) ' ').toNat, 0]) := by
  have hlt := b.isLt
  obtain ⟨h1, -⟩ := cyrillicAt_eq (b.val - 160) (by omega)
  have hne : ¬ b.val = 0 := by omega
  have hlen : strlen [b, 0] = .ok 1 := by
    simp only [strlen, hne, if_false]
    rfl
  unfold transliterateCyrillic
  rw [hlen]
  show (if (!h.allocates (1 + 1)) = true then pure none else _) = _
  rw [ha (1 + 1)]
  simp only [Bool.not_true, Bool.false_eq_true, if_false]
  show (do
    let out ← transliterateCyrillicLoop [b, 0] 0 2
    pure (some out)) = _
  have hbyte : transliterateCyrillicByte b
      = .ok (Byte.ofNat (g_cyrillicTransliterationTable.getD (b.val - 160) ' ').toNat) := by
    unfold transliterateCyrillicByte
    simp only [ge_iff_le, hb160, if_true, h1]
    rfl
  have hloop : transliterateCyrillicLoop [b, 0] 0 2
      = .ok [Byte.ofNat (g_cyrillicTransliterationTable.getD (b.val - 160) ' ').toNat, 0] := by
    have hb0 : byteAt [b, 0] 0 = .ok b := rfl
    have hb1 : byteAt [b, 0] 1 = .ok 0 := rfl
    have hz : transliterateCyrillicByte 0 = .ok 0 := rfl
    simp only [transliterateCyrillicLoop, hb0, hb1, hbyte, hz, bind, Except.bind, pure,
      Except.pure]
  rw [hloop]
  rfl

theorem ascii_has_no_table (h : Host) (convert : String → String → List Byte → Nat → Result)
    (hb : h.backendsUnavailable) (string : List Byte) (length : Nat) :
    conversion h convert "ASCII" "ASCII" string length = .ok none := by
  rw [conversion_unavailable h hb]
  have e : addUtfEndianness h "ASCII" = "ASCII" := by
    have e1 : equalsIgnoreCase "ASCII" "utf-16" = false := by decide
    have e2 : equalsIgnoreCase "ASCII" "utf-32" = false := by decide
    simp [addUtfEndianness, e1, e2]
  have hl : lookupTable h "ASCII" = none := by
    have e1 : equalsIgnoreCase "ASCII" "cp850" = false := by decide
    have e2 : equalsIgnoreCase "ASCII" "cp437" = false := by decide
    simp [lookupTable, g_encodingConversionTables, e1, e2]
  rw [e]
  unfold convertConversionTable
  simp only [hl]

/-- Claim C8, as amended: for every byte `b` of 160..255, converting the NUL-terminated
one-byte buffer `b` from "ISO-8859-5" to "ASCII" transliterates it to
`g_cyrillicTransliterationTable[b - 160]` and hands that buffer to `conversion` with the
source name "ASCII"; the result is what the converters give for this ASCII to ASCII
request, and it is "no result" when both external converters are unavailable, since
the built-in converter has no table for "ASCII". -/
theorem cyrillic_to_ascii_needs_backend (h : Host) (fuel : Nat) (b : Byte)
    (ha : h.allocationSucceeds) (hb160 : 160 ≤ b.val) :
    convert h (fuel + 1) "ASCII" "ISO-8859-5" [b, 0] 1
        = conversion h (convertWithTransliteration h fuel) "ASCII" "ASCII"
            [Byte.ofNat (g_cyrillicTransliterationTable.getD (b.val - 160) ' ').toNat, 0] 1 ∧
    (h.backendsUnavailable → convert h (fuel + 1) "ASCII" "ISO-8859-5" [b, 0] 1 = .ok none) := by
  have e1 : equalsIgnoreCase "ISO-8859-5" "ASCII" = false := by decide
  have e2 : hasPrefixIgnoreCase "ASCII" "utf-16" = false := by decide
  have e3 : hasPrefixIgnoreCase "ASCII" "utf-32" = false := by decide
  have e4 : equalsIgnoreCase "ISO-8859-5" "iso-8859-5" = true := by decide
  have e5 : hasPrefixIgnoreCase "ASCII" "utf" = false := by decide
  have e6 : hasPrefixIgnoreCase "ISO-8859-5" "utf" = false := by decide
  have hmain : convert h (fuel + 1) "ASCII" "ISO-8859-5" [b, 0] 1
      = conversion h (convertWithTransliteration h fuel) "ASCII" "ASCII"
          [Byte.ofNat (g_cyrillicTransliterationTable.getD (b.val - 160) ' ').toNat, 0] 1 := by
    unfold convert
    simp only [convertWithTransliteration, convertWithTransliterationBody, e1, e2, e3, e4, e5, e6,
      Bool.false_eq_true, if_false, if_true, Bool.false_and, Bool.or_false, Bool.not_false,
      Bool.and_true, transliterateCyrillic_single h ha b hb160]
    rfl
  refine ⟨hmain, fun hb => ?_⟩
  rw [hmain]
  exact ascii_has_no_table h _ hb _ _

theorem cyrillic_to_ascii_needs_backend_witness :
    exampleHost.allocationSucceeds ∧ 160 ≤ (0xB0 : Byte).val ∧ exampleHost.backendsUnavailable ∧
    convert exampleHost 1 "ASCII" "ISO-8859-5" [0xB0, 0] 1 = .ok none :=
  ⟨exampleHost_facts.1, by decide, exampleHost_facts.2.1,
    (cyrillic_to_ascii_needs_backend exampleHost 0 0xB0 exampleHost_facts.1 (by decide)).2
      exampleHost_facts.2.1⟩

/-- Claim C8 fails as stated: without external converters the conversion of the
NUL-terminated buffer holding the byte 0xB0 from "ISO-8859-5" to "ASCII" returns no
result, not the transliteration `'A'`. -/
theorem cyrillic_to_ascii_counterexample :
    convert exampleHost 1 "ASCII" "ISO-8859-5" [0xB0, 0] 1 = .ok none ∧
    convert exampleHost 5 "ASCII" "ISO-8859-5" [0xB0, 0] 1 = .ok none ∧
    g_cyrillicTransliterationTable[0xB0 - 160]? = some 'A' :=
  ⟨rfl, rfl, rfl⟩

set_option maxRecDepth 100000 in
theorem continuation_bits_small : ∀ y, y < 256 → (y &&& 0xBF) ||| 0x80 = 0x80 + y % 64 := by
  decide

theorem continuation_byte (x : Nat) : (x ||| 0x80) &&& 0xBF = 0x80 + x % 64 := by
  have h1 : x &&& 0xBF = (x % 256) &&& 0xBF := by
    have e : (0xBF : Nat) = 0xFF &&& 0xBF := by decide
    have e2 : x &&& 0xFF = x % 256 := Nat.and_pow_two_sub_one_eq_mod x 8
    conv_lhs => rw [e, ← Nat.and_assoc, e2]
  have h2 : (0x80 : Nat) &&& 0xBF = 0x80 := by decide
  rw [Nat.and_distrib_right, h1, h2, continuation_bits_small _ (Nat.mod_lt _ (by decide))]
  omega

set_option maxRecDepth 100000 in
theorem lead_byte_marks : ∀ y, y < 32 →
    (y ||| 0xC0 = 0xC0 + y) ∧ (y < 16 → y ||| 0xE0 = 0xE0 + y) ∧
    (y < 8 → y ||| 0xF0 = 0xF0 + y) := by
  decide

set_option maxRecDepth 100000 in
theorem lead_byte_reads : ∀ y, y < 32 →
    ((0xC0 + y) &&& 0xF8 ≠ 0xF0 ∧ (0xC0 + y) &&& 0xF0 ≠ 0xE0 ∧ (0xC0 + y) &&& 0xE0 = 0xC0 ∧
      (0xC0 + y) &&& 0x1F = y) ∧
    (y < 16 → (0xE0 + y) &&& 0xF8 ≠ 0xF0 ∧ (0xE0 + y) &&& 0xF0 = 0xE0 ∧
      (0xE0 + y) &&& 0x0F = y) ∧
    (y < 8 → (0xF0 + y) &&& 0xF8 = 0xF0 ∧ (0xF0 + y) &&& 0x07 = y) := by
  decide

set_option maxRecDepth 100000 in
theorem ascii_byte_reads : ∀ y, y < 128 →
    y &&& 0xF8 ≠ 0xF0 ∧ y &&& 0xF0 ≠ 0xE0 ∧ y &&& 0xE0 ≠ 0xC0 ∧ y &&& 0x7F = y := by
  decide

set_option maxRecDepth 100000 in
theorem continuation_byte_reads : ∀ y, y < 64 → (0x80 + y) &&& 0x3F = y := by
  decide

theorem or_two_groups (a b : Nat) (hb : b < 64) : (0 ||| (a <<< 6)) ||| b = a * 64 + b := by
  rw [Nat.zero_or, Nat.shiftLeft_eq]
  have := Nat.mul_add_lt_is_or (i := 6) (b := b) (by simpa using hb) a
  rw [Nat.mul_comm] at this
  exact this.symm

theorem or_three_groups (a b c : Nat) (hb : b < 64) (hc : c < 64) :
    ((0 ||| (a <<< 12)) ||| (b <<< 6)) ||| c = a * 4096 + b * 64 + c := by
  rw [Nat.zero_or, Nat.shiftLeft_eq, Nat.shiftLeft_eq]
  have h1 := Nat.mul_add_lt_is_or (i := 12) (b := b * 2 ^ 6) (by omega) a
  have h2 := Nat.mul_add_lt_is_or (i := 6) (b := c) (by simpa using hc) (a * 64 + b)
  have e1 : a * 2 ^ 12 ||| b * 2 ^ 6 = 2 ^ 6 * (a * 64 + b) := by
    rw [Nat.mul_comm a, ← h1]
    omega
  rw [e1, ← h2]
  omega

theorem or_four_groups (a b c d : Nat) (hb : b < 64) (hc : c < 64) (hd : d < 64) :
    (((0 ||| (a <<< 18)) ||| (b <<< 12)) ||| (c <<< 6)) ||| d
      = a * 262144 + b * 4096 + c * 64 + d := by
  rw [Nat.zero_or, Nat.shiftLeft_eq, Nat.shiftLeft_eq, Nat.shiftLeft_eq]
  have h1 := Nat.mul_add_lt_is_or (i := 18) (b := b * 2 ^ 12) (by omega) a
  have h2 := Nat.mul_add_lt_is_or (i := 12) (b := c * 2 ^ 6) (by omega) (a * 64 + b)
  have h3 := Nat.mul_add_lt_is_or (i := 6) (b := d) (by simpa using hd)
    (a * 4096 + b * 64 + c)
  have e1 : a * 2 ^ 18 ||| b * 2 ^ 12 = 2 ^ 12 * (a * 64 + b) := by
    rw [Nat.mul_comm a, ← h1]
    omega
  have e2 : 2 ^ 12 * (a * 64 + b) ||| c * 2 ^ 6 = 2 ^ 6 * (a * 4096 + b * 64 + c) := by
    rw [← h2]
    omega
  rw [e1, e2, ← h3]
  omega

theorem byte_ofNat_val_of_lt (n : Nat) (hn : n < 256) : (Byte.ofNat n).val = n :=
  Nat.mod_eq_of_lt hn

theorem cString_one (a : Byte) (rest : List Byte) (ha : a.val ≠ 0) :
    cString (a :: 0 :: rest) = [a] := by
  simp [cString, List.takeWhile, ha]

theorem cString_two (a b : Byte) (rest : List Byte) (ha : a.val ≠ 0) (hb : b.val ≠ 0) :
    cString (a :: b :: 0 :: rest) = [a, b] := by
  simp [cString, List.takeWhile, ha, hb]

theorem cString_three (a b c : Byte) (rest : List Byte) (ha : a.val ≠ 0) (hb : b.val ≠ 0)
    (hc : c.val ≠ 0) : cString (a :: b :: c :: 0 :: rest) = [a, b, c] := by
  simp [cString, List.takeWhile, ha, hb, hc]

theorem cString_four (a b c d : Byte) (rest : List Byte) (ha : a.val ≠ 0) (hb : b.val ≠ 0)
    (hc : c.val ≠ 0) (hd : d.val ≠ 0) : cString (a :: b :: c :: d :: 0 :: rest) = [a, b, c, d] := by
  simp [cString, List.takeWhile, ha, hb, hc, hd]

theorem encodeUTF8Step_eq (w0 w1 w2 w3 : Byte) (c : U32) (h0 : c.val ≠ 0)
    (hmax : c.val ≤ 0x10FFFF) :
    (encodeUTF8Step [w0, w1, w2, w3, 0] c).2 = utf8Bytes c ∧
    ∃ v0 v1 v2 v3 : Byte, (encodeUTF8Step [w0, w1, w2, w3, 0] c).1 = [v0, v1, v2, v3, 0] := by
  unfold encodeUTF8Step utf8Bytes
  by_cases h1 : c.val < 0x80
  · have hb : (Byte.ofNat c.val).val ≠ 0 := by
      rw [byte_ofNat_val_of_lt _ (by omega)]
      exact h0
    simp only [h1, if_true, firstByteMark]
    refine ⟨?_, w0, w1, w2, Byte.ofNat c.val, ?_⟩
    · simp only [Nat.reduceSub, Nat.reduceEqDiff, if_false, ge_iff_le, Nat.reduceLeDiff,
        List.getD_cons_succ, List.getD_cons_zero, Nat.or_zero, List.set_cons_succ,
        List.set_cons_zero, List.drop_succ_cons, List.drop_zero]
      exact cString_one _ _ hb
    · simp only [Nat.reduceSub, Nat.reduceEqDiff, if_false, ge_iff_le, Nat.reduceLeDiff,
        List.getD_cons_succ, List.getD_cons_zero, Nat.or_zero, List.set_cons_succ,
        List.set_cons_zero]
  · by_cases h2 : c.val < 0x800
    · obtain ⟨m1, -, -⟩ := lead_byte_marks (c.val / 64) (by omega)
      have hb0 : (Byte.ofNat (0xC0 + c.val / 64)).val ≠ 0 := by
        rw [byte_ofNat_val_of_lt _ (by omega)]
        omega
      have hb1 : (Byte.ofNat (0x80 + c.val % 64)).val ≠ 0 := by
        rw [byte_ofNat_val_of_lt _ (by omega)]
        omega
      simp only [h1, h2, if_true, if_false, firstByteMark]
      refine ⟨?_, w0, w1, Byte.ofNat (0xC0 + c.val / 64), Byte.ofNat (0x80 + c.val % 64), ?_⟩
      · simp only [Nat.reduceSub, Nat.reduceEqDiff, if_false, if_true, ge_iff_le,
          Nat.reduceLeDiff, Nat.reduceAdd, Nat.le_refl,
          List.getD_cons_succ, List.getD_cons_zero, List.set_cons_succ,
          List.set_cons_zero, List.drop_succ_cons, List.drop_zero, continuation_byte,
          Nat.shiftRight_eq_div_pow, Nat.reducePow, m1]
        exact cString_two _ _ _ hb0 hb1
      · simp only [Nat.reduceSub, Nat.reduceEqDiff, if_false, if_true, ge_iff_le,
          Nat.reduceLeDiff, Nat.reduceAdd, Nat.le_refl,
          List.getD_cons_succ, List.getD_cons_zero, List.set_cons_succ,
          List.set_cons_zero, continuation_byte,
          Nat.shiftRight_eq_div_pow, Nat.reducePow, m1]
    · by_cases h3 : c.val < 0x10000
      · have hd : c.val / 64 / 64 = c.val / 4096 := by omega
        obtain ⟨-, m2, -⟩ := lead_byte_marks (c.val / 4096) (by omega)
        have m2 := m2 (by omega)
        have hb0 : (Byte.ofNat (0xE0 + c.val / 4096)).val ≠ 0 := by
          rw [byte_ofNat_val_of_lt _ (by omega)]
          omega
        have hb1 : (Byte.ofNat (0x80 + c.val / 64 % 64)).val ≠ 0 := by
          rw [byte_ofNat_val_of_lt _ (by omega)]
          omega
        have hb2 : (Byte.ofNat (0x80 + c.val % 64)).val ≠ 0 := by
          rw [byte_ofNat_val_of_lt _ (by omega)]
          omega
        simp only [h1, h2, h3, if_true, if_false, firstByteMark]
        refine ⟨?_, w0, Byte.ofNat (0xE0 + c.val / 4096), Byte.ofNat (0x80 + c.val / 64 % 64),
          Byte.ofNat (0x80 + c.val % 64), ?_⟩
        · simp only [Nat.reduceSub, Nat.reduceEqDiff, if_false, if_true, ge_iff_le,
            Nat.reduceLeDiff, Nat.reduceAdd, Nat.le_refl,
            List.getD_cons_succ, List.getD_cons_zero, List.set_cons_succ,
            List.set_cons_zero, List.drop_succ_cons, List.drop_zero, continuation_byte,
            Nat.shiftRight_eq_div_pow, Nat.reducePow, hd, m2]
          exact cString_three _ _ _ _ hb0 hb1 hb2
        · simp only [Nat.reduceSub, Nat.reduceEqDiff, if_false, if_true, ge_iff_le,
            Nat.reduceLeDiff, Nat.reduceAdd, Nat.le_refl,
            List.getD_cons_succ, List.getD_cons_zero, List.set_cons_succ,
            List.set_cons_zero, continuation_byte,
            Nat.shiftRight_eq_div_pow, Nat.reducePow, hd, m2]
      · have hd : c.val / 64 / 64 = c.val / 4096 := by omega
        have hd2 : c.val / 4096 / 64 = c.val / 262144 := by omega
        obtain ⟨-, -, m3⟩ := lead_byte_marks (c.val / 262144) (by omega)
        have m3 := m3 (by omega)
        have hb0 : (Byte.ofNat (0xF0 + c.val / 262144)).val ≠ 0 := by
          rw [byte_ofNat_val_of_lt _ (by omega)]
          omega
        have hb1 : (Byte.ofNat (0x80 + c.val / 4096 % 64)).val ≠ 0 := by
          rw [byte_ofNat_val_of_lt _ (by omega)]
          omega
        have hb2 : (Byte.ofNat (0x80 + c.val / 64 % 64)).val ≠ 0 := by
          rw [byte_ofNat_val_of_lt _ (by omega)]
          omega
        have hb3 : (Byte.ofNat (0x80 + c.val % 64)).val ≠ 0 := by
          rw [byte_ofNat_val_of_lt _ (by omega)]
          omega
        simp only [h1, h2, h3, hmax, if_true, if_false, firstByteMark]
        refine ⟨?_, Byte.ofNat (0xF0 + c.val / 262144), Byte.ofNat (0x80 + c.val / 4096 % 64),
          Byte.ofNat (0x80 + c.val / 64 % 64), Byte.ofNat (0x80 + c.val % 64), ?_⟩
        · simp only [Nat.reduceSub, Nat.reduceEqDiff, if_false, if_true, ge_iff_le,
            Nat.reduceLeDiff, Nat.reduceAdd, Nat.le_refl,
            List.getD_cons_succ, List.getD_cons_zero, List.set_cons_succ,
            List.set_cons_zero, List.drop_succ_cons, List.drop_zero, continuation_byte,
            Nat.shiftRight_eq_div_pow, Nat.reducePow, hd, hd2, m3]
          exact cString_four _ _ _ _ _ hb0 hb1 hb2 hb3
        · simp only [Nat.reduceSub, Nat.reduceEqDiff, if_false, if_true, ge_iff_le,
            Nat.reduceLeDiff, Nat.reduceAdd, Nat.le_refl,
            List.getD_cons_succ, List.getD_cons_zero, List.set_cons_succ,
            List.set_cons_zero, continuation_byte,
            Nat.shiftRight_eq_div_pow, Nat.reducePow, hd, hd2, m3]

theorem encodeUTF8Loop_eq : ∀ (seq : List U32) (w0 w1 w2 w3 : Byte) (dst : List Byte),
    (∀ c ∈ seq, c.val ≠ 0 ∧ c.val ≤ 0x10FFFF) →
    encodeUTF8Loop [w0, w1, w2, w3, 0] seq dst = dst ++ utf8Seq seq
  | [], _, _, _, _, dst, _ => by simp [encodeUTF8Loop, utf8Seq]
  | c :: rest, w0, w1, w2, w3, dst, hall => by
    have hc := hall c (List.mem_cons_self c rest)
    obtain ⟨hout, v0, v1, v2, v3, hw⟩ := encodeUTF8Step_eq w0 w1 w2 w3 c hc.1 hc.2
    have ih := encodeUTF8Loop_eq rest v0 v1 v2 v3 (dst ++ utf8Bytes c)
      (fun d hd => hall d (List.mem_cons_of_mem c hd))
    unfold encodeUTF8Loop
    rw [hw, hout, ih, utf8Seq, List.append_assoc]

theorem strAt_mid (pre : List Byte) (x : Byte) (post : List Byte) (i : Nat)
    (hi : i = pre.length) : strAt (pre ++ x :: post) i = .ok x := by
  have hne : ¬ i = (pre ++ x :: post).length := by
    rw [List.length_append, List.length_cons]
    omega
  unfold strAt byteAt
  rw [if_neg hne, getElem?_mid pre x post i hi]

theorem strAt_mid1 (pre : List Byte) (a x : Byte) (post : List Byte) (i : Nat)
    (hi : i = pre.length) : strAt (pre ++ a :: x :: post) (i + 1) = .ok x := by
  have e : pre ++ a :: x :: post = (pre ++ [a]) ++ x :: post := by simp
  rw [e]
  exact strAt_mid _ x post (i + 1) (by simp [hi])

theorem strAt_mid2 (pre : List Byte) (a b x : Byte) (post : List Byte) (i : Nat)
    (hi : i = pre.length) : strAt (pre ++ a :: b :: x :: post) (i + 2) = .ok x := by
  have e : pre ++ a :: b :: x :: post = (pre ++ [a, b]) ++ x :: post := by simp
  rw [e]
  exact strAt_mid _ x post (i + 2) (by simp [hi])

theorem strAt_mid3 (pre : List Byte) (a b c x : Byte) (post : List Byte) (i : Nat)
    (hi : i = pre.length) : strAt (pre ++ a :: b :: c :: x :: post) (i + 3) = .ok x := by
  have e : pre ++ a :: b :: c :: x :: post = (pre ++ [a, b, c]) ++ x :: post := by simp
  rw [e]
  exact strAt_mid _ x post (i + 3) (by simp [hi])

theorem u32_ofNat_val_self (c : U32) : U32.ofNat c.val = c :=
  Fin.ext (Nat.mod_eq_of_lt c.isLt)

/-- What one iteration of the decoding loop does on the UTF-8 form of a code point. -/
theorem decode_utf8Bytes (pre post : List Byte) (c : U32) (i : Nat) (hi : i = pre.length)
    (hmax : c.val ≤ 0x10FFFF) :
    strAt (pre ++ utf8Bytes c ++ post) i >>= (fun lead =>
        decodeUTF8Char (pre ++ utf8Bytes c ++ post) i (sequenceLength lead)
          >>= fun chr => pure (sequenceLength lead, U32.ofNat chr))
      = Except.ok ((utf8Bytes c).length, c) := by
  unfold utf8Bytes
  by_cases h1 : c.val < 0x80
  · obtain ⟨r1, r2, r3, r4⟩ := ascii_byte_reads c.val h1
    have hv : (Byte.ofNat c.val).val = c.val := byte_ofNat_val_of_lt _ (by omega)
    have hlen : sequenceLength (Byte.ofNat c.val) = 1 := by
      simp only [sequenceLength, hv, r1, r2, r3, if_false]
    simp only [h1, if_true, List.append_assoc, List.singleton_append, List.length_singleton]
    rw [strAt_mid pre _ _ i hi]
    show decodeUTF8Char _ i (sequenceLength (Byte.ofNat c.val)) >>= _ = _
    rw [hlen]
    simp only [decodeUTF8Char, strAt_mid pre _ _ i hi, bind, Except.bind, pure, Except.pure, hv,
      r4, u32_ofNat_val_self]
  · by_cases h2 : c.val < 0x800
    · obtain ⟨⟨r1, r2, r3, r4⟩, -, -⟩ := lead_byte_reads (c.val / 64) (by omega)
      have r5 := continuation_byte_reads (c.val % 64) (by omega)
      have hv0 : (Byte.ofNat (0xC0 + c.val / 64)).val = 0xC0 + c.val / 64 :=
        byte_ofNat_val_of_lt _ (by omega)
      have hv1 : (Byte.ofNat (0x80 + c.val % 64)).val = 0x80 + c.val % 64 :=
        byte_ofNat_val_of_lt _ (by omega)
      have hlen : sequenceLength (Byte.ofNat (0xC0 + c.val / 64)) = 2 := by
        simp only [sequenceLength, hv0, r1, r2, r3, if_false, if_true]
      have hval : c.val / 64 * 64 + c.val % 64 = c.val := by omega
      simp only [h1, h2, if_true, if_false, List.append_assoc, List.cons_append,
        List.nil_append, List.length_cons, List.length_nil]
      rw [strAt_mid pre _ _ i hi]
      show decodeUTF8Char _ i (sequenceLength (Byte.ofNat (0xC0 + c.val / 64))) >>= _ = _
      rw [hlen]
      simp only [decodeUTF8Char, strAt_mid pre _ _ i hi, strAt_mid1 pre _ _ _ i hi, bind,
        Except.bind, pure, Except.pure, hv0, hv1, r4, r5,
        or_two_groups _ _ (Nat.mod_lt _ (by decide : 0 < 64)), hval, u32_ofNat_val_self]
    · by_cases h3 : c.val < 0x10000
      · obtain ⟨-, r, -⟩ := lead_byte_reads (c.val / 4096) (by omega)
        obtain ⟨r1, r2, r4⟩ := r (by omega)
        have r5 := continuation_byte_reads (c.val / 64 % 64) (by omega)
        have r6 := continuation_byte_reads (c.val % 64) (by omega)
        have hv0 : (Byte.ofNat (0xE0 + c.val / 4096)).val = 0xE0 + c.val / 4096 :=
          byte_ofNat_val_of_lt _ (by omega)
        have hv1 : (Byte.ofNat (0x80 + c.val / 64 % 64)).val = 0x80 + c.val / 64 % 64 :=
          byte_ofNat_val_of_lt _ (by omega)
        have hv2 : (Byte.ofNat (0x80 + c.val % 64)).val = 0x80 + c.val % 64 :=
          byte_ofNat_val_of_lt _ (by omega)
        have hlen : sequenceLength (Byte.ofNat (0xE0 + c.val / 4096)) = 3 := by
          simp only [sequenceLength, hv0, r1, r2, if_false, if_true]
        have hval : c.val / 4096 * 4096 + c.val / 64 % 64 * 64 + c.val % 64 = c.val := by omega
        simp only [h1, h2, h3, if_true, if_false, List.append_assoc, List.cons_append,
          List.nil_append, List.length_cons, List.length_nil]
        rw [strAt_mid pre _ _ i hi]
        show decodeUTF8Char _ i (sequenceLength (Byte.ofNat (0xE0 + c.val / 4096))) >>= _ = _
        rw [hlen]
        simp only [decodeUTF8Char, strAt_mid pre _ _ i hi, strAt_mid1 pre _ _ _ i hi,
          strAt_mid2 pre _ _ _ _ i hi, bind,
          Except.bind, pure, Except.pure, hv0, hv1, hv2, r4, r5, r6,
          or_three_groups _ _ _ (Nat.mod_lt _ (by decide : 0 < 64))
            (Nat.mod_lt _ (by decide : 0 < 64)), hval, u32_ofNat_val_self]
      · obtain ⟨-, -, r⟩ := lead_byte_reads (c.val / 262144) (by omega)
        obtain ⟨r1, r4⟩ := r (by omega)
        have r5 := continuation_byte_reads (c.val / 4096 % 64) (by omega)
        have r6 := continuation_byte_reads (c.val / 64 % 64) (by omega)
        have r7 := continuation_byte_reads (c.val % 64) (by omega)
        have hv0 : (Byte.ofNat (0xF0 + c.val / 262144)).val = 0xF0 + c.val / 262144 :=
          byte_ofNat_val_of_lt _ (by omega)
        have hv1 : (Byte.ofNat (0x80 + c.val / 4096 % 64)).val = 0x80 + c.val / 4096 % 64 :=
          byte_ofNat_val_of_lt _ (by omega)
        have hv2 : (Byte.ofNat (0x80 + c.val / 64 % 64)).val = 0x80 + c.val / 64 % 64 :=
          byte_ofNat_val_of_lt _ (by omega)
        have hv3 : (Byte.ofNat (0x80 + c.val % 64)).val = 0x80 + c.val % 64 :=
          byte_ofNat_val_of_lt _ (by omega)
        have hlen : sequenceLength (Byte.ofNat (0xF0 + c.val / 262144)) = 4 := by
          simp only [sequenceLength, hv0, r1, if_true]
        have hval : c.val / 262144 * 262144 + c.val / 4096 % 64 * 4096 + c.val / 64 % 64 * 64
            + c.val % 64 = c.val := by omega
        simp only [h1, h2, h3, if_true, if_false, List.append_assoc, List.cons_append,
          List.nil_append, List.length_cons, List.length_nil]
        rw [strAt_mid pre _ _ i hi]
        show decodeUTF8Char _ i (sequenceLength (Byte.ofNat (0xF0 + c.val / 262144))) >>= _ = _
        rw [hlen]
        simp only [decodeUTF8Char, strAt_mid pre _ _ i hi, strAt_mid1 pre _ _ _ i hi,
          strAt_mid2 pre _ _ _ _ i hi, strAt_mid3 pre _ _ _ _ _ i hi, bind,
          Except.bind, pure, Except.pure, hv0, hv1, hv2, hv3, r4, r5, r6, r7,
          or_four_groups _ _ _ _ (Nat.mod_lt _ (by decide : 0 < 64))
            (Nat.mod_lt _ (by decide : 0 < 64)) (Nat.mod_lt _ (by decide : 0 < 64)), hval,
          u32_ofNat_val_self]

theorem decode_utf8Bytes_parts (pre post : List Byte) (c : U32) (i : Nat) (hi : i = pre.length)
    (hmax : c.val ≤ 0x10FFFF) :
    ∃ (lead : Byte) (chr : Nat),
      strAt (pre ++ utf8Bytes c ++ post) i = .ok lead ∧
      sequenceLength lead = (utf8Bytes c).length ∧
      decodeUTF8Char (pre ++ utf8Bytes c ++ post) i (utf8Bytes c).length = .ok chr ∧
      U32.ofNat chr = c := by
  have hmain := decode_utf8Bytes pre post c i hi hmax
  cases hs : strAt (pre ++ utf8Bytes c ++ post) i with
  | error e =>
    rw [hs] at hmain
    exact absurd hmain (by intro hcontra; cases hcontra)
  | ok lead =>
    rw [hs] at hmain
    cases hd : decodeUTF8Char (pre ++ utf8Bytes c ++ post) i (sequenceLength lead) with
    | error e =>
      simp only [bind, Except.bind, hd] at hmain
      cases hmain
    | ok chr =>
      simp only [bind, Except.bind, hd, pure, Except.pure] at hmain
      injection hmain with hpair
      injection hpair with hl hc
      refine ⟨lead, chr, rfl, hl, ?_, hc⟩
      rw [← hl]
      exact hd

theorem utf8Bytes_length_bounds (c : U32) :
    1 ≤ (utf8Bytes c).length ∧ (utf8Bytes c).length ≤ 4 := by
  unfold utf8Bytes
  split
  · simp
  · split
    · simp
    · split <;> simp

theorem decodeUTF8Loop_step (pre post : List Byte) (c : U32) (i fuel : Nat) (dst : List U32)
    (hi : i = pre.length) (hmax : c.val ≤ 0x10FFFF)
    (hsize : (pre ++ utf8Bytes c ++ post).length + 4 ≤ 4294967296) :
    decodeUTF8Loop (pre ++ utf8Bytes c ++ post) (fuel + 1) i dst
      = decodeUTF8Loop (pre ++ utf8Bytes c ++ post) fuel (i + (utf8Bytes c).length)
          (dst ++ [c]) := by
  obtain ⟨lead, chr, hs, hl, hd, hc⟩ := decode_utf8Bytes_parts pre post c i hi hmax
  obtain ⟨hb1, hb4⟩ := utf8Bytes_length_bounds c
  have hlen : (pre ++ utf8Bytes c ++ post).length
      = i + (utf8Bytes c).length + post.length := by
    rw [List.length_append, List.length_append, hi]
  have hlt : i < (pre ++ utf8Bytes c ++ post).length := by omega
  have hwrap : (i + 4294967296 - (pre ++ utf8Bytes c ++ post).length) % 4294967296
      ≥ (utf8Bytes c).length := by
    omega
  rw [decodeUTF8Loop]
  simp only [hlt, if_true, hs, bind, Except.bind, hl, hwrap, hd, hc, ge_iff_le]

theorem utf8Seq_length_ge : ∀ seq : List U32, seq.length ≤ (utf8Seq seq).length
  | [] => Nat.le_refl _
  | c :: rest => by
    have ih := utf8Seq_length_ge rest
    have hb := (utf8Bytes_length_bounds c).1
    simp only [utf8Seq, List.length_cons, List.length_append]
    omega

theorem decodeUTF8Loop_utf8Seq : ∀ (seq : List U32) (pre : List Byte) (fuel : Nat)
    (dst : List U32), (∀ c ∈ seq, c.val ≤ 0x10FFFF) → seq.length + 1 ≤ fuel →
    (pre ++ utf8Seq seq).length + 4 ≤ 4294967296 →
    decodeUTF8Loop (pre ++ utf8Seq seq) fuel pre.length dst = .ok (dst ++ seq)
  | [], pre, fuel, dst, _, hfuel, _ => by
    obtain ⟨f, rfl⟩ : ∃ f, fuel = f + 1 := ⟨fuel - 1, by simp at hfuel; omega⟩
    simp [decodeUTF8Loop, utf8Seq, pure, Except.pure]
  | c :: rest, pre, fuel, dst, hall, hfuel, hsize => by
    obtain ⟨f, rfl⟩ : ∃ f, fuel = f + 1 := ⟨fuel - 1, by simp at hfuel; omega⟩
    have hstr : pre ++ utf8Seq (c :: rest) = pre ++ utf8Bytes c ++ utf8Seq rest := by
      simp [utf8Seq]
    have hstr2 : pre ++ utf8Bytes c ++ utf8Seq rest = (pre ++ utf8Bytes c) ++ utf8Seq rest := rfl
    rw [hstr] at hsize ⊢
    rw [decodeUTF8Loop_step pre (utf8Seq rest) c pre.length f dst rfl
      (hall c (List.mem_cons_self c rest)) hsize]
    have ih := decodeUTF8Loop_utf8Seq rest (pre ++ utf8Bytes c) f (dst ++ [c])
      (fun d hd => hall d (List.mem_cons_of_mem c hd))
      (by simp at hfuel; omega) hsize
    rw [List.length_append] at ih
    rw [ih, List.append_assoc, List.singleton_append]

/-- Claim C2, as amended: for every sequence of code points that are all non-zero and at
most 0x10FFFF, and whose UTF-8 form fits the `uint` size of a string (with room for one
more sequence), decoding with `String::decodeUTF8` the bytes that
`U32String::encodeUTF8` produces yields exactly the sequence. -/
theorem utf8_round_trip_nonzero (seq : List U32)
    (hall : ∀ c ∈ seq, c.val ≠ 0 ∧ c.val ≤ 0x10FFFF)
    (hsize : (encodeUTF8 seq []).length + 4 ≤ 4294967296) :
    decodeUTF8 (encodeUTF8 seq []) [] = .ok seq := by
  have henc : encodeUTF8 seq [] = utf8Seq seq := by
    unfold encodeUTF8
    rw [encodeUTF8Loop_eq seq 0 0 0 0 [] hall, List.nil_append]
  rw [henc] at hsize ⊢
  have hloop := decodeUTF8Loop_utf8Seq seq [] ((utf8Seq seq).length + 1) []
    (fun c hc => (hall c hc).2) (by have := utf8Seq_length_ge seq; omega)
    (by simpa using hsize)
  simpa [decodeUTF8] using hloop

theorem example_code_points_in_range :
    ∀ c ∈ ([0x41, 0xE9, 0x20AC, 0x1F600] : List U32), c.val ≠ 0 ∧ c.val ≤ 0x10FFFF := by
  intro c hc
  simp only [List.mem_cons, List.mem_singleton, List.not_mem_nil, or_false] at hc
  rcases hc with rfl | rfl | rfl | rfl <;> decide

theorem utf8_round_trip_nonzero_witness :
    (∀ c ∈ ([0x41, 0xE9, 0x20AC, 0x1F600] : List U32), c.val ≠ 0 ∧ c.val ≤ 0x10FFFF) ∧
    (encodeUTF8 [0x41, 0xE9, 0x20AC, 0x1F600] []).length + 4 ≤ 4294967296 ∧
    decodeUTF8 (encodeUTF8 [0x41, 0xE9, 0x20AC, 0x1F600] []) []
      = .ok [0x41, 0xE9, 0x20AC, 0x1F600] :=
  ⟨example_code_points_in_range, Nat.le_of_ble_eq_true rfl,
    utf8_round_trip_nonzero [0x41, 0xE9, 0x20AC, 0x1F600] example_code_points_in_range
      (Nat.le_of_ble_eq_true rfl)⟩

/-- Claim C2 fails as stated: the code point 0 is at most 0x10FFFF, but `encodeUTF8`
appends no byte for it, so decoding the encoded bytes of the one-element sequence 0
yields the empty sequence. -/
theorem utf8_round_trip_counterexample :
    encodeUTF8 [0] [] = [] ∧ decodeUTF8 (encodeUTF8 [0] []) [] = .ok [] ∧
    decodeUTF8 (encodeUTF8 [0x41, 0, 0x42] []) [] = .ok [0x41, 0x42] :=
  ⟨rfl, rfl, rfl⟩


theorem getElem?_some_lt {α : Type} (l : List α) (i : Nat) (x : α) (hx : l[i]? = some x) :
    i < l.length := by
  rcases Nat.lt_or_ge i l.length with hlt | hge
  · exact hlt
  · rw [List.getElem?_eq_none hge] at hx
    cases hx

theorem getElem?_of_lt {α : Type} (l : List α) (i : Nat) (hi : i < l.length) :
    ∃ x, l[i]? = some x :=
  ⟨l[i], List.getElem?_eq_getElem hi⟩

theorem stringLength8_scan (string : List Byte) (k : Nat)
    (hzero : string[k]? = some 0)
    (hfirst : ∀ k', k' < k → ¬ string[k']? = some 0) :
    ∀ (n i : Nat), i ≤ k → k - i < n → stringLength8 string i n = .ok k := by
  intro n
  induction n with
  | zero => intro i _ hn; omega
  | succ n ih =>
    intro i hik hn
    unfold stringLength8
    rcases Nat.lt_or_ge i k with hlt | hge
    · have hklen := getElem?_some_lt string k 0 hzero
      obtain ⟨b, hb⟩ := getElem?_of_lt string i (by omega)
      have hne : ¬ b.val = 0 := by
        intro h0
        have : b = 0 := Fin.ext h0
        exact hfirst i hlt (by rw [hb, this])
      simp only [byteAt, hb, bind, Except.bind, hne, if_false]
      exact ih (i + 1) (by omega) (by omega)
    · have hik' : i = k := by omega
      subst hik'
      simp only [byteAt, hzero, bind, Except.bind]
      rfl

theorem stringLength16_scan (h : Host) (string : List Byte) (k : Nat)
    (hzero : ∀ j, j < 2 → string[2 * k + j]? = some 0)
    (hfirst : ∀ k', k' < k → ¬ ∀ j, j < 2 → string[2 * k' + j]? = some 0) :
    ∀ (n i : Nat), i ≤ k → k - i < n → stringLength16 h string i n = .ok (2 * k) := by
  intro n
  induction n with
  | zero => intro i _ hn; omega
  | succ n ih =>
    intro i hik hn
    unfold stringLength16
    rcases Nat.lt_or_ge i k with hlt | hge
    · have hklen := getElem?_some_lt string (2 * k + 0) 0 (hzero 0 (by omega))
      obtain ⟨a, ha⟩ := getElem?_of_lt string (2 * i) (by omega)
      obtain ⟨b, hb⟩ := getElem?_of_lt string (2 * i + 1) (by omega)
      have hne : ¬ (if h.bigEndian then a.val * 256 + b.val else a.val + b.val * 256) = 0 := by
        intro h0
        have hab : a.val = 0 ∧ b.val = 0 := by
          cases hbe : h.bigEndian <;> simp only [hbe, if_true, if_false, Bool.false_eq_true] at h0
            <;> omega
        apply hfirst i hlt
        intro j hj
        rcases Nat.lt_or_ge j 1 with h1 | h1
        · have : j = 0 := by omega
          subst this
          rw [Nat.add_zero, ha, show a = 0 from Fin.ext hab.1]
        · have : j = 1 := by omega
          subst this
          rw [hb, show b = 0 from Fin.ext hab.2]
      simp only [load16, ha, hb, bind, Except.bind, hne, if_false]
      exact ih (i + 1) (by omega) (by omega)
    · have hik' : i = k := by omega
      subst hik'
      have h0 := hzero 0 (by omega)
      have h1 := hzero 1 (by omega)
      rw [Nat.add_zero] at h0
      simp only [load16, h0, h1, bind, Except.bind]
      cases h.bigEndian <;> rfl

theorem stringLength32_scan (h : Host) (string : List Byte) (k : Nat)
    (hzero : ∀ j, j < 4 → string[4 * k + j]? = some 0)
    (hfirst : ∀ k', k' < k → ¬ ∀ j, j < 4 → string[4 * k' + j]? = some 0) :
    ∀ (n i : Nat), i ≤ k → k - i < n → stringLength32 h string i n = .ok (4 * k) := by
  intro n
  induction n with
  | zero => intro i _ hn; omega
  | succ n ih =>
    intro i hik hn
    unfold stringLength32
    rcases Nat.lt_or_ge i k with hlt | hge
    · have hklen := getElem?_some_lt string (4 * k + 0) 0 (hzero 0 (by omega))
      obtain ⟨a, ha⟩ := getElem?_of_lt string (4 * i) (by omega)
      obtain ⟨b, hb⟩ := getElem?_of_lt string (4 * i + 1) (by omega)
      obtain ⟨c, hc⟩ := getElem?_of_lt string (4 * i + 2) (by omega)
      obtain ⟨d, hd⟩ := getElem?_of_lt string (4 * i + 3) (by omega)
      have hal := a.isLt
      have hbl := b.isLt
      have hcl := c.isLt
      have hdl := d.isLt
      have hne : ¬ (U32.ofNat (if h.bigEndian
          then a.val * 16777216 + b.val * 65536 + c.val * 256 + d.val
          else a.val + b.val * 256 + c.val * 65536 + d.val * 16777216)).val = 0 := by
        intro h0
        rw [u32_ofNat_val] at h0
        have hab : a.val = 0 ∧ b.val = 0 ∧ c.val = 0 ∧ d.val = 0 := by
          cases hbe : h.bigEndian <;> simp only [hbe, if_true, if_false, Bool.false_eq_true] at h0
            <;> omega
        apply hfirst i hlt
        intro j hj
        have hj4 : j = 0 ∨ j = 1 ∨ j = 2 ∨ j = 3 := by omega
        rcases hj4 with rfl | rfl | rfl | rfl
        · rw [Nat.add_zero, ha, show a = 0 from Fin.ext hab.1]
        · rw [hb, show b = 0 from Fin.ext hab.2.1]
        · rw [hc, show c = 0 from Fin.ext hab.2.2.1]
        · rw [hd, show d = 0 from Fin.ext hab.2.2.2]
      simp only [load32, ha, hb, hc, hd, bind, Except.bind, hne, if_false]
      exact ih (i + 1) (by omega) (by omega)
    · have hik' : i = k := by omega
      subst hik'
      have h0 := hzero 0 (by omega)
      have h1 := hzero 1 (by omega)
      have h2 := hzero 2 (by omega)
      have h3 := hzero 3 (by omega)
      rw [Nat.add_zero] at h0
      simp only [load32, h0, h1, h2, h3, bind, Except.bind]
      cases h.bigEndian <;> rfl

/-- Claim C11: for a buffer that holds an all-zero element at an element-aligned
position, `stringLength` returns `w * k`, where `w` is the element width of the name (2
with prefix "UTF-16", 4 with prefix "UTF-32", 1 otherwise) and `k` is the index of the
first all-zero `w`-byte element. -/
theorem stringLength_first_zero_element (h : Host) (string : List Byte) (encoding : String)
    (k : Nat)
    (hzero : ∀ j, j < elementWidth encoding → string[elementWidth encoding * k + j]? = some 0)
    (hfirst : ∀ k', k' < k →
      ¬ ∀ j, j < elementWidth encoding → string[elementWidth encoding * k' + j]? = some 0) :
    stringLength h string encoding = .ok (elementWidth encoding * k) := by
  unfold stringLength
  unfold elementWidth at hzero hfirst ⊢
  cases h16 : hasPrefixIgnoreCase encoding "UTF-16"
  · cases h32 : hasPrefixIgnoreCase encoding "UTF-32"
    · simp only [h16, h32, Bool.false_eq_true, if_false] at hzero hfirst ⊢
      have hz : string[k]? = some 0 := by
        have := hzero 0 (by omega)
        simpa using this
      have hf : ∀ k', k' < k → ¬ string[k']? = some 0 := by
        intro k' hk' hc
        apply hfirst k' hk'
        intro j hj
        have : j = 0 := by omega
        subst this
        simpa using hc
      have hlen := getElem?_some_lt string k 0 hz
      rw [Nat.one_mul]
      exact stringLength8_scan string k hz hf _ 0 (Nat.zero_le k) (by omega)
    · simp only [h16, h32, Bool.false_eq_true, if_true, if_false] at hzero hfirst ⊢
      have hlen := getElem?_some_lt string (4 * k + 3) 0 (hzero 3 (by omega))
      exact stringLength32_scan h string k hzero hfirst _ 0 (Nat.zero_le k) (by omega)
  · simp only [h16, if_true] at hzero hfirst ⊢
    have hlen := getElem?_some_lt string (2 * k + 1) 0 (hzero 1 (by omega))
    exact stringLength16_scan h string k hzero hfirst _ 0 (Nat.zero_le k) (by omega)

theorem stringLength_first_zero_element_witness :
    stringLength exampleHost [0x41, 0, 0x42, 0, 0, 0] "UTF-16LE"
      = .ok (elementWidth "UTF-16LE" * 2) ∧ elementWidth "UTF-16LE" * 2 = 4 :=
  ⟨stringLength_first_zero_element exampleHost [0x41, 0, 0x42, 0, 0, 0] "UTF-16LE" 2
    (by
      intro j hj
      have hw : elementWidth "UTF-16LE" = 2 := by decide
      rw [hw] at hj ⊢
      have hj2 : j = 0 ∨ j = 1 := by omega
      rcases hj2 with rfl | rfl <;> rfl)
    (by
      intro k' hk' hall
      have hw : elementWidth "UTF-16LE" = 2 := by decide
      rw [hw] at hall
      have h0 := hall 0 (by omega)
      have hk2 : k' = 0 ∨ k' = 1 := by omega
      rcases hk2 with rfl | rfl <;> exact absurd h0 (by decide)),
    by decide⟩

/-- Claim C15: `conversion` consults the iconv converter, then the platform converter,
then the built-in table converter, each with the names `addUtfEndianness` gives; the
result is that of the first one that returns a result, whatever the later ones would
answer, and it is "no result" exactly when all three return no result. -/
theorem conversion_tries_converters_in_order (h : Host)
    (convert : String → String → List Byte → Nat → Result)
    (toName fromName : String) (string : List Byte) (length : Nat) :
    (∀ r, h.convertIconv (addUtfEndianness h toName) (addUtfEndianness h fromName) string length
        = some r →
      conversion h convert toName fromName string length = .ok (some r)) ∧
    (h.convertIconv (addUtfEndianness h toName) (addUtfEndianness h fromName) string length
        = none →
      ∀ r, h.convertEncoding (addUtfEndianness h toName) (addUtfEndianness h fromName) string
          length = some r →
        conversion h convert toName fromName string length = .ok (some r)) ∧
    (h.convertIconv (addUtfEndianness h toName) (addUtfEndianness h fromName) string length
        = none →
      h.convertEncoding (addUtfEndianness h toName) (addUtfEndianness h fromName) string length
        = none →
      conversion h convert toName fromName string length
        = convertConversionTable h convert (addUtfEndianness h toName)
            (addUtfEndianness h fromName) string length) ∧
    (conversion h convert toName fromName string length = .ok none ↔
      h.convertIconv (addUtfEndianness h toName) (addUtfEndianness h fromName) string length
        = none ∧
      h.convertEncoding (addUtfEndianness h toName) (addUtfEndianness h fromName) string length
        = none ∧
      convertConversionTable h convert (addUtfEndianness h toName)
        (addUtfEndianness h fromName) string length = .ok none) := by
  unfold conversion
  refine ⟨?_, ?_, ?_, ?_⟩
  · intro r hr
    rw [hr]
  · intro h1 r hr
    rw [h1, hr]
  · intro h1 h2
    rw [h1, h2]
  · cases h1 : h.convertIconv (addUtfEndianness h toName) (addUtfEndianness h fromName)
        string length with
    | some r => simp
    | none =>
      cases h2 : h.convertEncoding (addUtfEndianness h toName) (addUtfEndianness h fromName)
          string length with
      | some r => simp
      | none => simp

theorem conversion_tries_converters_in_order_witness :
    copyingIconvHost.convertIconv (addUtfEndianness copyingIconvHost "ASCII")
        (addUtfEndianness copyingIconvHost "UTF-8") [0x41] 1 = some [0x41, 0, 0, 0, 0] ∧
    conversion copyingIconvHost (convert copyingIconvHost 1) "ASCII" "UTF-8" [0x41] 1
      = .ok (some [0x41, 0, 0, 0, 0]) :=
  ⟨rfl, (conversion_tries_converters_in_order copyingIconvHost (convert copyingIconvHost 1)
    "ASCII" "UTF-8" [0x41] 1).1 _ rfl⟩

theorem suffixed_not_bare_utf (name : String)
    (hs : hasSuffixIgnoreCase name "le" = true ∨ hasSuffixIgnoreCase name "be" = true) :
    equalsIgnoreCase name "utf-16" = false ∧ equalsIgnoreCase name "utf-32" = false := by
  constructor
  · rw [Bool.eq_false_iff]
    intro he
    unfold equalsIgnoreCase at he
    rw [beq_iff_eq] at he
    unfold hasSuffixIgnoreCase at hs
    rw [he] at hs
    rcases hs with hs | hs <;> exact absurd hs (by decide)
  · rw [Bool.eq_false_iff]
    intro he
    unfold equalsIgnoreCase at he
    rw [beq_iff_eq] at he
    unfold hasSuffixIgnoreCase at hs
    rw [he] at hs
    rcases hs with hs | hs <;> exact absurd hs (by decide)

/-- Claim C17: `addUtfEndianness` appends "LE" on a little-endian host and "BE" on a
big-endian host to a name that equals "utf-16" or "utf-32" ignoring case, and returns
every other name unchanged, among them every name that ends in "LE" or "BE" and the
name "UTF-8". -/
theorem addUtfEndianness_appends_host_suffix (h : Host) (name : String) :
    (equalsIgnoreCase name "utf-16" = true ∨ equalsIgnoreCase name "utf-32" = true →
      addUtfEndianness h name = name ++ (if h.bigEndian then "BE" else "LE")) ∧
    (equalsIgnoreCase name "utf-16" = false → equalsIgnoreCase name "utf-32" = false →
      addUtfEndianness h name = name) ∧
    (hasSuffixIgnoreCase name "le" = true ∨ hasSuffixIgnoreCase name "be" = true →
      addUtfEndianness h name = name) ∧
    addUtfEndianness h "UTF-8" = "UTF-8" := by
  refine ⟨?_, ?_, ?_, ?_⟩
  · intro hor
    have hb : (equalsIgnoreCase name "utf-16" || equalsIgnoreCase name "utf-32") = true := by
      rcases hor with h1 | h1 <;> simp [h1]
    unfold addUtfEndianness
    rw [if_pos hb]
    cases h.bigEndian <;> rfl
  · intro h1 h2
    unfold addUtfEndianness
    simp [h1, h2]
  · intro hs
    obtain ⟨h1, h2⟩ := suffixed_not_bare_utf name hs
    unfold addUtfEndianness
    simp [h1, h2]
  · have h1 : equalsIgnoreCase "UTF-8" "utf-16" = false := by decide
    have h2 : equalsIgnoreCase "UTF-8" "utf-32" = false := by decide
    unfold addUtfEndianness
    simp [h1, h2]

theorem addUtfEndianness_appends_host_suffix_witness :
    (equalsIgnoreCase "UTF-16" "utf-16" = true ∨ equalsIgnoreCase "UTF-16" "utf-32" = true) ∧
    addUtfEndianness exampleHost "UTF-16" = "UTF-16" ++ "LE" ∧
    addUtfEndianness exampleHost "utf-32be" = "utf-32be" :=
  ⟨Or.inl (by decide),
    (addUtfEndianness_appends_host_suffix exampleHost "UTF-16").1 (Or.inl (by decide)),
    (addUtfEndianness_appends_host_suffix exampleHost "utf-32be").2.2.1 (Or.inr (by decide))⟩

/-- Claim C20: when the source name matches a tabulated page, whatever the destination
name is (another tabulated page included), `convertConversionTable` takes the decode
path: its result is that of `convert(to, "utf-32", u, 4 * n)`, where `u` holds, in the
byte order of the host, the table entries of the `n` input bytes, followed by one zero
element. -/
theorem both_tabulated_takes_decode_path (h : Host)
    (convert : String → String → List Byte → Nat → Result)
    (toName fromName : String) (t : Table) (data : List Byte)
    (ha : h.allocationSucceeds) (hfrom : lookupTable h fromName = some t) :
    convertConversionTable h convert toName fromName data data.length
      = convert toName "utf-32" (utf32Bytes h.bigEndian (data.map t) ++ zeros 4)
          (data.length * 4) := by
  unfold convertConversionTable
  have hdec := decodeLoop_eq h t data [] [] 0 rfl
  rw [List.nil_append, List.append_nil] at hdec
  simp only [hfrom, ha (4 * (data.length + 1)), Bool.not_true, Bool.false_eq_true, if_false,
    hdec, bind, Except.bind]

theorem both_tabulated_takes_decode_path_witness :
    exampleHost.allocationSucceeds ∧
    lookupTable exampleHost "cp437" = some (fun b => U32.ofNat b.val) ∧
    convertConversionTable exampleHost (convert exampleHost 2) "cp850" "cp437" [0x41, 0x80]
        ([0x41, 0x80] : List Byte).length
      = convert exampleHost 2 "cp850" "utf-32"
          (utf32Bytes exampleHost.bigEndian
            (([0x41, 0x80] : List Byte).map (fun b => U32.ofNat b.val)) ++ zeros 4)
          (([0x41, 0x80] : List Byte).length * 4) :=
  ⟨exampleHost_facts.1, rfl,
    both_tabulated_takes_decode_path exampleHost (convert exampleHost 2) "cp850" "cp437"
      (fun b => U32.ofNat b.val) [0x41, 0x80] exampleHost_facts.1 rfl⟩

theorem encodeUTF8Step_zero (w0 w1 w2 w3 : Byte) :
    encodeUTF8Step [w0, w1, w2, w3, 0] 0 = ([w0, w1, w2, 0, 0], []) := by
  rfl

theorem encodeUTF8Step_replacement (w0 w1 w2 w3 : Byte) (c : U32) (hc : 0x10FFFF < c.val) :
    encodeUTF8Step [w0, w1, w2, w3, 0] c = ([w0, 0xEF, 0xBF, 0xBD, 0], [0xEF, 0xBF, 0xBD]) := by
  have h1 : ¬ c.val < 0x80 := by omega
  have h2 : ¬ c.val < 0x800 := by omega
  have h3 : ¬ c.val < 0x10000 := by omega
  have h4 : ¬ c.val ≤ 0x10FFFF := by omega
  unfold encodeUTF8Step
  simp only [h1, h2, h3, h4, if_false, firstByteMark]
  simp only [Nat.reduceSub, Nat.reduceEqDiff, if_false, if_true, ge_iff_le,
    Nat.reduceLeDiff, Nat.reduceAdd, Nat.le_refl,
    List.getD_cons_succ, List.getD_cons_zero, List.set_cons_succ,
    List.set_cons_zero, List.drop_succ_cons, List.drop_zero, continuation_byte,
    Nat.shiftRight_eq_div_pow, Nat.reducePow, Nat.reduceDiv, Nat.reduceMod]
  rfl

theorem encodeUTF8Step_total (w0 w1 w2 w3 : Byte) (c : U32) :
    (encodeUTF8Step [w0, w1, w2, w3, 0] c).2 = appendedUTF8 c ∧
    ∃ v0 v1 v2 v3 : Byte, (encodeUTF8Step [w0, w1, w2, w3, 0] c).1 = [v0, v1, v2, v3, 0] := by
  unfold appendedUTF8
  by_cases h0 : c.val = 0
  · have hc : c = 0 := Fin.ext h0
    subst hc
    rw [encodeUTF8Step_zero]
    exact ⟨rfl, w0, w1, w2, 0, rfl⟩
  · by_cases hmax : c.val ≤ 0x10FFFF
    · simp only [h0, hmax, if_true, if_false]
      exact encodeUTF8Step_eq w0 w1 w2 w3 c h0 hmax
    · rw [encodeUTF8Step_replacement w0 w1 w2 w3 c (by omega), if_neg h0, if_neg hmax]
      exact ⟨rfl, w0, 0xEF, 0xBF, 0xBD, rfl⟩

theorem encodeUTF8Loop_total : ∀ (seq : List U32) (w0 w1 w2 w3 : Byte) (dst : List Byte),
    encodeUTF8Loop [w0, w1, w2, w3, 0] seq dst = dst ++ appendedUTF8Seq seq
  | [], _, _, _, _, dst => by simp [encodeUTF8Loop, appendedUTF8Seq]
  | c :: rest, w0, w1, w2, w3, dst => by
    obtain ⟨hout, v0, v1, v2, v3, hw⟩ := encodeUTF8Step_total w0 w1 w2 w3 c
    have ih := encodeUTF8Loop_total rest v0 v1 v2 v3 (dst ++ appendedUTF8 c)
    unfold encodeUTF8Loop
    rw [hw, hout, ih, appendedUTF8Seq, List.append_assoc]

theorem encodeUTF8_eq (seq : List U32) (dst : List Byte) :
    encodeUTF8 seq dst = dst ++ appendedUTF8Seq seq :=
  encodeUTF8Loop_total seq 0 0 0 0 dst

theorem appendedUTF8Seq_append : ∀ (a b : List U32),
    appendedUTF8Seq (a ++ b) = appendedUTF8Seq a ++ appendedUTF8Seq b
  | [], b => rfl
  | c :: a, b => by
    have ih := appendedUTF8Seq_append a b
    rw [List.cons_append, appendedUTF8Seq, appendedUTF8Seq, ih, List.append_assoc]

theorem encodeUTF8_split (pre : List U32) (c : U32) (post : List U32) (dst : List Byte) :
    encodeUTF8 (pre ++ c :: post) dst
      = encodeUTF8 pre dst ++ appendedUTF8 c ++ encodeUTF8 post [] := by
  simp only [encodeUTF8_eq, appendedUTF8Seq_append, appendedUTF8Seq, List.nil_append,
    List.append_assoc]

/-- Claim C16: for every code point above 0x10FFFF, wherever it stands in the input,
`encodeUTF8` appends exactly the 3 bytes 0xEF 0xBF 0xBD after the bytes of the code
points in front of it and goes on with the code points behind it. -/
theorem encodeUTF8_replaces_out_of_range (pre : List U32) (c : U32) (post : List U32)
    (dst : List Byte) (hc : 0x10FFFF < c.val) :
    encodeUTF8 (pre ++ c :: post) dst
      = encodeUTF8 pre dst ++ [0xEF, 0xBF, 0xBD] ++ encodeUTF8 post [] := by
  rw [encodeUTF8_split]
  have h0 : ¬ c.val = 0 := by omega
  have hmax : ¬ c.val ≤ 0x10FFFF := by omega
  simp only [appendedUTF8, h0, hmax, if_false]

theorem encodeUTF8_replaces_out_of_range_witness :
    0x10FFFF < (0x110000 : U32).val ∧
    encodeUTF8 ([0x41] ++ 0x110000 :: [0x42]) []
      = encodeUTF8 [0x41] [] ++ [0xEF, 0xBF, 0xBD] ++ encodeUTF8 [0x42] [] :=
  ⟨by decide, encodeUTF8_replaces_out_of_range [0x41] 0x110000 [0x42] [] (by decide)⟩

set_option maxRecDepth 100000 in
theorem continuation_or_small : ∀ y, y < 64 → 0x80 ||| y = 0x80 + y := by
  decide

theorem continuation_or (x : Nat) : 0x80 ||| (x &&& 0x3F) = 0x80 + x % 64 := by
  have e : x &&& 0x3F = x % 64 := Nat.and_pow_two_sub_one_eq_mod x 6
  rw [e]
  exact continuation_or_small _ (Nat.mod_lt _ (by decide))

theorem standardUTF8_eq (c : U32) (hmax : c.val ≤ 0x10FFFF) :
    standardUTF8 c.val = utf8Bytes c := by
  unfold standardUTF8 utf8Bytes
  by_cases h1 : c.val < 0x80
  · simp only [h1, if_true, Nat.or_zero]
  · by_cases h2 : c.val < 0x800
    · obtain ⟨m1, -, -⟩ := lead_byte_marks (c.val / 64) (by omega)
      simp only [h1, h2, if_true, if_false, continuation_or, Nat.shiftRight_eq_div_pow,
        Nat.reducePow, m1]
    · by_cases h3 : c.val < 0x10000
      · obtain ⟨-, m2, -⟩ := lead_byte_marks (c.val / 4096) (by omega)
        have m2 := m2 (by omega)
        simp only [h1, h2, h3, if_true, if_false, continuation_or, Nat.shiftRight_eq_div_pow,
          Nat.reducePow, m2]
      · obtain ⟨-, -, m3⟩ := lead_byte_marks (c.val / 262144) (by omega)
        have m3 := m3 (by omega)
        simp only [h1, h2, h3, if_false, continuation_or, Nat.shiftRight_eq_div_pow,
          Nat.reducePow, m3]

theorem standardUTF8_length (c : Nat) :
    (standardUTF8 c).length
      = if c < 0x80 then 1 else if c < 0x800 then 2 else if c < 0x10000 then 3 else 4 := by
  unfold standardUTF8
  split
  · rfl
  · split
    · rfl
    · split <;> rfl

/-- Claim C18, as amended: for every non-zero code point `c` up to 0x10FFFF, wherever it
stands in the input, `encodeUTF8` appends the standard UTF-8 encoding of `c` after the
bytes of the code points in front of it: 1 byte if `c < 0x80`, 2 bytes if `c < 0x800`, 3
bytes if `c < 0x10000` and 4 bytes otherwise, every continuation byte being 0x80 OR'd
with a 6-bit group of `c` and the lead byte the remaining high bits OR'd with 0x00,
0xC0, 0xE0 or 0xF0. -/
theorem encodeUTF8_appends_standard_form (pre : List U32) (c : U32) (post : List U32)
    (dst : List Byte) (h0 : c.val ≠ 0) (hmax : c.val ≤ 0x10FFFF) :
    encodeUTF8 (pre ++ c :: post) dst
        = encodeUTF8 pre dst ++ standardUTF8 c.val ++ encodeUTF8 post [] ∧
    (standardUTF8 c.val).length
      = (if c.val < 0x80 then 1 else if c.val < 0x800 then 2
          else if c.val < 0x10000 then 3 else 4) := by
  refine ⟨?_, standardUTF8_length c.val⟩
  rw [encodeUTF8_split, standardUTF8_eq c hmax]
  simp only [appendedUTF8, h0, hmax, if_true, if_false]

theorem encodeUTF8_appends_standard_form_witness :
    (0x20AC : U32).val ≠ 0 ∧ (0x20AC : U32).val ≤ 0x10FFFF ∧
    encodeUTF8 ([0x41] ++ 0x20AC :: [0x42]) []
      = encodeUTF8 [0x41] [] ++ standardUTF8 (0x20AC : U32).val ++ encodeUTF8 [0x42] [] ∧
    standardUTF8 (0x20AC : U32).val = [0xE2, 0x82, 0xAC] :=
  ⟨by decide, by decide,
    (encodeUTF8_appends_standard_form [0x41] 0x20AC [0x42] [] (by decide) (by decide)).1,
    by decide⟩

/-- Claim C18 fails as stated: the code point 0 is below 0x80, yet `encodeUTF8` appends
no byte for it instead of the one byte 0x00 of its standard encoding. -/
theorem encodeUTF8_zero_counterexample :
    standardUTF8 0 = [0x00] ∧ encodeUTF8 [0x41, 0, 0x42] [] = [0x41, 0x42] ∧
    encodeUTF8 [0] [0x41] = [0x41] :=
  ⟨by decide, rfl, rfl⟩

/-- Claim C19, evaluated at truncated inputs: the guard `i - _size >= num` of
`decodeUTF8` is computed in `uint` arithmetic and holds for every position inside a
string, so a truncated sequence is decoded all the same. The one-byte string 0xC3 gives
the code point 0xC0 (its second byte is the terminator at index 1), the string
0x41 0xE2 0x82 gives 0x41 and 0x2080, and for the one-byte string 0xE0 the read of
index 2 lies behind the terminator. -/
theorem decodeUTF8_reads_past_truncated_sequence :
    (∀ (str : List Byte) (i num : Nat), i < str.length → str.length + 4 ≤ 4294967296 →
      num ≤ 4 → (i + 4294967296 - str.length) % 4294967296 ≥ num) ∧
    decodeUTF8 [0xC3] [] = .ok [0xC0] ∧
    decodeUTF8 [0x41, 0xE2, 0x82] [] = .ok [0x41, 0x2080] ∧
    decodeUTF8 [0xE0] [] = .error .outOfBounds := by
  refine ⟨?_, rfl, rfl, rfl⟩
  intro str i num hi hlen hnum
  omega

theorem byteAt_ok (string : List Byte) (i : Nat) (hi : i < string.length) :
    ∃ b, byteAt string i = .ok b := by
  obtain ⟨b, hb⟩ := getElem?_of_lt string i hi
  exact ⟨b, by unfold byteAt; rw [hb]⟩

theorem iso_not_utf (name : String) (hiso : equalsIgnoreCase name "iso-8859-5" = true) :
    hasPrefixIgnoreCase name "utf" = false := by
  unfold equalsIgnoreCase at hiso
  rw [beq_iff_eq] at hiso
  unfold hasPrefixIgnoreCase
  rw [hiso]
  decide

theorem copyString_padding (h : Host) (string : List Byte) (length : Nat) (buf : List Byte)
    (hr : copyString h string length = .ok (some buf)) :
    ∃ payload, buf = payload ++ zeros 4 ∧ payload.length = length := by
  unfold copyString at hr
  cases ha : h.allocates (length + 4)
  · simp [ha] at hr
  · by_cases hl : length ≤ string.length
    · simp only [ha, Bool.not_true, Bool.false_eq_true, if_false, memcpy, hl, if_true, bind,
        Except.bind, pure, Except.pure] at hr
      injection hr with hr
      injection hr with hr
      exact ⟨string.take length, hr.symm, by rw [List.length_take]; omega⟩
    · simp only [ha, Bool.not_true, Bool.false_eq_true, if_false, memcpy, hl, bind,
        Except.bind] at hr
      cases hr

theorem store16_length (be : Bool) (v : Nat) : (store16 be v).length = 2 := by
  cases be <;> rfl

theorem store32_length (be : Bool) (v : Nat) : (store32 be v).length = 4 := by
  cases be <;> rfl

theorem switchEndian16_length (h : Host) (string : List Byte) :
    ∀ (n i : Nat) (out : List Byte), switchEndian16 h string i n = .ok out →
      out.length = 2 * n := by
  intro n
  induction n with
  | zero =>
    intro i out hr
    simp only [switchEndian16] at hr
    injection hr with hr
    rw [← hr]
    rfl
  | succ n ih =>
    intro i out hr
    unfold switchEndian16 at hr
    cases hv : load16 h.bigEndian string i with
    | error e => rw [hv] at hr; cases hr
    | ok v =>
      cases hrest : switchEndian16 h string (i + 1) n with
      | error e => simp only [hv, hrest, bind, Except.bind] at hr; cases hr
      | ok rest =>
        simp only [hv, hrest, bind, Except.bind, pure, Except.pure] at hr
        injection hr with hr
        rw [← hr, List.length_append, store16_length, ih (i + 1) rest hrest]
        omega

theorem switchEndian32_length (h : Host) (string : List Byte) :
    ∀ (n i : Nat) (out : List Byte), switchEndian32 h string i n = .ok out →
      out.length = 4 * n := by
  intro n
  induction n with
  | zero =>
    intro i out hr
    simp only [switchEndian32] at hr
    injection hr with hr
    rw [← hr]
    rfl
  | succ n ih =>
    intro i out hr
    unfold switchEndian32 at hr
    cases hv : load32 h.bigEndian string i with
    | error e => rw [hv] at hr; cases hr
    | ok v =>
      cases hrest : switchEndian32 h string (i + 1) n with
      | error e => simp only [hv, hrest, bind, Except.bind] at hr; cases hr
      | ok rest =>
        simp only [hv, hrest, bind, Except.bind, pure, Except.pure] at hr
        injection hr with hr
        rw [← hr, List.length_append, store32_length, ih (i + 1) rest hrest]
        omega

theorem switchEndian_padding (h : Host) (string : List Byte) (length bitCount : Nat)
    (buf : List Byte) (hr : switchEndian h string length bitCount = .ok (some buf)) :
    ∃ payload, buf = payload ++ zeros 4 ∧ payload.length = length := by
  unfold switchEndian at hr
  by_cases h8 : bitCount % 8 ≠ 0
  · rw [if_pos h8] at hr; cases hr
  · rw [if_neg h8] at hr
    by_cases hm : length % (bitCount / 8) ≠ 0
    · rw [if_pos hm] at hr; cases hr
    · rw [if_neg hm] at hr
      cases ha : h.allocates (length + 4)
      · simp [ha] at hr
      · simp only [ha, Bool.not_true, Bool.false_eq_true, if_false] at hr
        by_cases h16 : bitCount = 16
        · subst h16
          simp only [if_true] at hr
          cases hs : switchEndian16 h string 0 (length / 2) with
          | error e => simp only [hs, bind, Except.bind] at hr; cases hr
          | ok swapped =>
            simp only [hs, bind, Except.bind, pure, Except.pure] at hr
            injection hr with hr
            injection hr with hr
            have hl := switchEndian16_length h string _ 0 swapped hs
            have hz : length + 4 - 2 * (length / 2) = 4 := by omega
            rw [hz] at hr
            exact ⟨swapped, hr.symm, by omega⟩
        · by_cases h32 : bitCount = 32
          · subst h32
            simp only [Nat.reduceEqDiff, if_false, if_true] at hr
            cases hs : switchEndian32 h string 0 (length / 4) with
            | error e => simp only [hs, bind, Except.bind] at hr; cases hr
            | ok swapped =>
              simp only [hs, bind, Except.bind, pure, Except.pure] at hr
              injection hr with hr
              injection hr with hr
              have hl := switchEndian32_length h string _ 0 swapped hs
              have hz : length + 4 - 4 * (length / 4) = 4 := by omega
              rw [hz] at hr
              exact ⟨swapped, hr.symm, by omega⟩
          · simp only [h16, h32, if_false] at hr
            cases hr

theorem direct_paths_padding (h : Host) (fuel : Nat) (toName fromName : String)
    (string : List Byte) (length : Nat) (buf : List Byte)
    (hnames : equalsIgnoreCase toName fromName = true ∨
      (hasPrefixIgnoreCase toName "utf-16" && hasPrefixIgnoreCase fromName "utf-16" ||
        hasPrefixIgnoreCase toName "utf-32" && hasPrefixIgnoreCase fromName "utf-32") = true)
    (hr : convertWithTransliteration h (fuel + 1) toName fromName string length
      = .ok (some buf)) :
    ∃ payload, buf = payload ++ zeros 4 ∧ payload.length = length := by
  simp only [convertWithTransliteration] at hr
  cases heq : equalsIgnoreCase toName fromName
  · have hfam : (hasPrefixIgnoreCase toName "utf-16" && hasPrefixIgnoreCase fromName "utf-16" ||
        hasPrefixIgnoreCase toName "utf-32" && hasPrefixIgnoreCase fromName "utf-32") = true := by
      rcases hnames with hn | hn
      · rw [heq] at hn; cases hn
      · exact hn
    rw [family_switch h _ toName fromName string length heq hfam] at hr
    by_cases hres : resolvesBigEndian h fromName = resolvesBigEndian h toName
    · rw [if_pos hres] at hr
      exact copyString_padding h string length buf hr
    · rw [if_neg hres] at hr
      cases h16 : hasPrefixIgnoreCase toName "utf-16"
      · simp only [h16, Bool.false_eq_true, if_false] at hr
        exact switchEndian_padding h string length 32 buf hr
      · simp only [h16, if_true] at hr
        exact switchEndian_padding h string length 16 buf hr
  · rw [equalsIgnoreCase_comm] at heq
    unfold convertWithTransliterationBody at hr
    simp only [heq, if_true] at hr
    exact copyString_padding h string length buf hr

theorem encodeLoop_length (h : Host) (t : Table) (u : Option (List Byte)) :
    ∀ (n i : Nat) (out : List Byte), encodeLoop h t u i n = .ok out → out.length = n := by
  intro n
  induction n with
  | zero =>
    intro i out hr
    simp only [encodeLoop] at hr
    injection hr with hr
    rw [← hr]
    rfl
  | succ n ih =>
    intro i out hr
    unfold encodeLoop at hr
    cases u with
    | none => cases hr
    | some buf =>
      cases hv : load32 h.bigEndian buf i with
      | error e => simp only [hv, bind, Except.bind] at hr; cases hr
      | ok v =>
        cases hrest : encodeLoop h t (some buf) (i + 1) n with
        | error e => simp only [hv, hrest, bind, Except.bind] at hr; cases hr
        | ok rest =>
          simp only [hv, hrest, bind, Except.bind, pure, Except.pure] at hr
          injection hr with hr
          rw [← hr, List.length_cons, ih (i + 1) rest hrest]

theorem decodeLoop_length (h : Host) (t : Table) (string : List Byte) :
    ∀ (n i : Nat) (out : List Byte), decodeLoop h t string i n = .ok out →
      out.length = 4 * n := by
  intro n
  induction n with
  | zero =>
    intro i out hr
    simp only [decodeLoop] at hr
    injection hr with hr
    rw [← hr]
    rfl
  | succ n ih =>
    intro i out hr
    unfold decodeLoop at hr
    cases hv : byteAt string i with
    | error e => simp only [hv, bind, Except.bind] at hr; cases hr
    | ok v =>
      cases hrest : decodeLoop h t string (i + 1) n with
      | error e => simp only [hv, hrest, bind, Except.bind] at hr; cases hr
      | ok rest =>
        simp only [hv, hrest, bind, Except.bind, pure, Except.pure] at hr
        injection hr with hr
        rw [← hr, List.length_append, store32_length, ih (i + 1) rest hrest]
        omega

theorem cct_encode_any (h : Host) (convert : String → String → List Byte → Nat → Result)
    (toName fromName : String) (string : List Byte) (length : Nat) (t : Table)
    (hfrom : lookupTable h fromName = none) (hto : lookupTable h toName = some t) :
    convertConversionTable h convert toName fromName string length
      = (convert "utf-32" fromName string length).bind (fun u =>
          if !h.allocates (encodeCount fromName length + 1) then .ok none
          else (encodeLoop h t u 0 (encodeCount fromName length)).map
            (fun e => some (e ++ zeros 1))) := by
  unfold convertConversionTable encodeCount
  simp only [hfrom, hto, bind, pure, Except.pure]
  cases hu : convert "utf-32" fromName string length with
  | error e => rfl
  | ok u =>
    simp only [Except.bind]
    cases hasPrefixIgnoreCase fromName "utf-16" <;>
      cases hasPrefixIgnoreCase fromName "utf-32" <;>
      simp only [Bool.false_eq_true, if_false, if_true] <;>
      split <;> try rfl

/-- Claim C12, as amended: a buffer returned by the identity copy, the same-family copy
or the endianness swap is `length` bytes followed by 4 zero bytes, a buffer returned by
the table decode path to a UTF-32 destination is `4 * length` bytes followed by 4 zero
bytes, and a buffer returned by the table encode path is one byte per source element
followed by exactly one zero byte. -/
theorem returned_buffers_padding (h : Host) (fuel : Nat) (toName fromName : String)
    (string : List Byte) (length : Nat) (buf : List Byte) :
    ((equalsIgnoreCase toName fromName = true ∨
        (hasPrefixIgnoreCase toName "utf-16" && hasPrefixIgnoreCase fromName "utf-16" ||
          hasPrefixIgnoreCase toName "utf-32" && hasPrefixIgnoreCase fromName "utf-32") = true) →
      convertWithTransliteration h (fuel + 1) toName fromName string length = .ok (some buf) →
      ∃ payload, buf = payload ++ zeros 4 ∧ payload.length = length) ∧
    (∀ t, lookupTable h fromName = some t → hasPrefixIgnoreCase toName "utf-32" = true →
      convertConversionTable h (convertWithTransliteration h (fuel + 1)) toName fromName string
        length = .ok (some buf) →
      ∃ payload, buf = payload ++ zeros 4 ∧ payload.length = 4 * length) ∧
    (∀ t (convert : String → String → List Byte → Nat → Result),
      lookupTable h fromName = none → lookupTable h toName = some t →
      convertConversionTable h convert toName fromName string length = .ok (some buf) →
      ∃ payload, buf = payload ++ zeros 1 ∧
        payload.length = encodeCount fromName length) := by
  refine ⟨fun hnames hr => direct_paths_padding h fuel toName fromName string length buf hnames hr,
    ?_, ?_⟩
  · intro t ht h32 hr
    unfold convertConversionTable at hr
    cases ha : h.allocates (4 * (length + 1))
    · simp [ht, ha] at hr
    · cases hd : decodeLoop h t string 0 length with
      | error e =>
        simp only [ht, ha, hd, Bool.not_true, Bool.false_eq_true, if_false, bind,
          Except.bind] at hr
        cases hr
      | ok decoded =>
        simp only [ht, ha, hd, Bool.not_true, Bool.false_eq_true, if_false, bind,
          Except.bind] at hr
        have h32' : hasPrefixIgnoreCase "utf-32" "utf-32" = true := by decide
        obtain ⟨payload, hp1, hp2⟩ := direct_paths_padding h fuel toName "utf-32" _ _ buf
          (Or.inr (by simp [h32, h32'])) hr
        exact ⟨payload, hp1, by omega⟩
  · intro t convert hfrom hto hr
    rw [cct_encode_any h convert toName fromName string length t hfrom hto] at hr
    cases hu : convert "utf-32" fromName string length with
    | error e => rw [hu] at hr; cases hr
    | ok u =>
      rw [hu] at hr
      simp only [Except.bind] at hr
      cases hal : h.allocates (encodeCount fromName length + 1)
      · simp [hal] at hr
      · simp only [hal, Bool.not_true, Bool.false_eq_true, if_false] at hr
        cases he : encodeLoop h t u 0 (encodeCount fromName length) with
        | error e => rw [he] at hr; cases hr
        | ok e =>
          rw [he] at hr
          simp only [Except.map] at hr
          injection hr with hr
          injection hr with hr
          exact ⟨e, hr.symm, encodeLoop_length h t u _ 0 e he⟩

theorem returned_buffers_padding_witness :
    lookupTable exampleHost "UTF-32LE" = none ∧
    lookupTable exampleHost "cp850" = some (fun b => U32.ofNat b.val) ∧
    convertConversionTable exampleHost (convert exampleHost 1) "cp850" "UTF-32LE"
      [0x41, 0, 0, 0] 4 = .ok (some [0x41, 0]) ∧
    ∃ payload, [0x41, 0] = payload ++ zeros 1 ∧ payload.length = encodeCount "UTF-32LE" 4 :=
  ⟨rfl, rfl, rfl,
    (returned_buffers_padding exampleHost 0 "cp850" "UTF-32LE" [0x41, 0, 0, 0] 4 [0x41, 0]).2.2
      (fun b => U32.ofNat b.val) (convert exampleHost 1) rfl rfl rfl⟩

/-- Claim C12 fails as stated: the table encode path returns its bytes followed by one
zero byte only. Encoding the UTF-32 buffer of the two code points 0x41 and 0x42 to
"cp850" returns the 3 bytes 0x41 0x42 0x00, which do not end in 4 zero bytes. -/
theorem encode_path_padding_counterexample :
    convertConversionTable exampleHost (convert exampleHost 1) "cp850" "UTF-32LE"
      [0x41, 0, 0, 0, 0x42, 0, 0, 0] 8 = .ok (some [0x41, 0x42, 0]) ∧
    convert exampleHost 2 "cp850" "UTF-32" [0x41, 0, 0, 0, 0x42, 0, 0, 0, 0, 0, 0, 0] 8
      = .ok (some [0x41, 0x42, 0]) ∧
    ¬ ∃ payload : List Byte, [0x41, 0x42, 0] = payload ++ zeros 4 := by
  refine ⟨rfl, rfl, ?_⟩
  rintro ⟨payload, hp⟩
  have hl := congrArg List.length hp
  simp [zeros] at hl

theorem noFatal_ok {α : Type} (a : α) : NoFatal (Except.ok a : Except Fault α) := by
  intro hc
  cases hc

theorem noFatal_pure {α : Type} (a : α) : NoFatal (pure a : Except Fault α) :=
  noFatal_ok a

theorem noFatal_bind {α β : Type} (x : Except Fault α) (f : α → Except Fault β)
    (hx : NoFatal x) (hf : ∀ a, NoFatal (f a)) : NoFatal (x >>= f) := by
  cases x with
  | error e =>
    intro hc
    apply hx
    simp only [bind, Except.bind] at hc
    injection hc with hc
    rw [hc]
  | ok a => exact hf a

theorem noFatal_map {α β : Type} (x : Except Fault α) (f : α → β) (hx : NoFatal x) :
    NoFatal (x.map f) := by
  cases x with
  | error e =>
    intro hc
    apply hx
    simp only [Except.map] at hc
    injection hc with hc
    rw [hc]
  | ok a => exact noFatal_ok _

theorem noFatal_load16 (be : Bool) (s : List Byte) (i : Nat) : NoFatal (load16 be s i) := by
  unfold load16
  split
  · exact noFatal_ok _
  · intro hc; cases hc

theorem noFatal_load32 (be : Bool) (s : List Byte) (i : Nat) : NoFatal (load32 be s i) := by
  unfold load32
  split
  · exact noFatal_ok _
  · intro hc; cases hc

theorem noFatal_byteAt (s : List Byte) (i : Nat) : NoFatal (byteAt s i) := by
  unfold byteAt
  split
  · exact noFatal_ok _
  · intro hc; cases hc

theorem noFatal_memcpy (s : List Byte) (n : Nat) : NoFatal (memcpy s n) := by
  unfold memcpy
  split
  · exact noFatal_ok _
  · intro hc; cases hc

theorem noFatal_strlen : ∀ s : List Byte, NoFatal (strlen s)
  | [] => by intro hc; cases hc
  | b :: rest => by
    unfold strlen
    split
    · exact noFatal_ok _
    · exact noFatal_map _ _ (noFatal_strlen rest)

theorem noFatal_cyrillicAt (i : Nat) : NoFatal (cyrillicAt i) := by
  unfold cyrillicAt
  split
  · exact noFatal_ok _
  · intro hc; cases hc

theorem noFatal_switchEndian16 (h : Host) (s : List Byte) :
    ∀ (n i : Nat), NoFatal (switchEndian16 h s i n) := by
  intro n
  induction n with
  | zero => intro i; exact noFatal_ok _
  | succ n ih =>
    intro i
    unfold switchEndian16
    exact noFatal_bind _ _ (noFatal_load16 _ _ _) (fun v =>
      noFatal_bind _ _ (ih (i + 1)) (fun rest => noFatal_pure _))

theorem noFatal_switchEndian32 (h : Host) (s : List Byte) :
    ∀ (n i : Nat), NoFatal (switchEndian32 h s i n) := by
  intro n
  induction n with
  | zero => intro i; exact noFatal_ok _
  | succ n ih =>
    intro i
    unfold switchEndian32
    exact noFatal_bind _ _ (noFatal_load32 _ _ _) (fun v =>
      noFatal_bind _ _ (ih (i + 1)) (fun rest => noFatal_pure _))

theorem noFatal_switchEndian (h : Host) (s : List Byte) (n bits : Nat) :
    NoFatal (switchEndian h s n bits) := by
  unfold switchEndian
  split
  · intro hc; cases hc
  · split
    · intro hc; cases hc
    · split
      · exact noFatal_ok _
      · split
        · exact noFatal_bind _ _ (noFatal_switchEndian16 h s _ 0) (fun _ => noFatal_pure _)
        · split
          · exact noFatal_bind _ _ (noFatal_switchEndian32 h s _ 0) (fun _ => noFatal_pure _)
          · exact noFatal_ok _

theorem noFatal_copyString (h : Host) (s : List Byte) (n : Nat) :
    NoFatal (copyString h s n) := by
  unfold copyString
  split
  · exact noFatal_ok _
  · exact noFatal_bind _ _ (noFatal_memcpy s n) (fun _ => noFatal_pure _)

theorem noFatal_transliterateCyrillicByte (b : Byte) :
    NoFatal (transliterateCyrillicByte b) := by
  unfold transliterateCyrillicByte
  split
  · exact noFatal_map _ _ (noFatal_cyrillicAt _)
  · exact noFatal_pure _

theorem noFatal_transliterateCyrillicLoop (s : List Byte) :
    ∀ (n i : Nat), NoFatal (transliterateCyrillicLoop s i n) := by
  intro n
  induction n with
  | zero => intro i; exact noFatal_ok _
  | succ n ih =>
    intro i
    unfold transliterateCyrillicLoop
    exact noFatal_bind _ _ (noFatal_byteAt _ _) (fun b =>
      noFatal_bind _ _ (noFatal_transliterateCyrillicByte b) (fun o =>
        noFatal_bind _ _ (ih (i + 1)) (fun rest => noFatal_pure _)))

theorem noFatal_transliterateCyrillic (h : Host) (s : List Byte) :
    NoFatal (transliterateCyrillic h s) := by
  unfold transliterateCyrillic
  refine noFatal_bind _ _ (noFatal_strlen s) (fun len => ?_)
  split
  · exact noFatal_pure _
  · exact noFatal_bind _ _ (noFatal_transliterateCyrillicLoop s _ 0) (fun _ => noFatal_pure _)

theorem noFatal_transliterateUTF32Loop (h : Host) (s : List Byte) :
    ∀ (n i : Nat), NoFatal (transliterateUTF32Loop h s i n) := by
  intro n
  induction n with
  | zero => intro i; exact noFatal_ok _
  | succ n ih =>
    intro i
    unfold transliterateUTF32Loop
    refine noFatal_bind _ _ (noFatal_load32 _ _ _) (fun c => ?_)
    refine noFatal_bind _ _ ?_ (fun o => noFatal_bind _ _ (ih (i + 1)) (fun rest => noFatal_pure _))
    rw [transliterate_step]
    exact noFatal_ok _

theorem noFatal_transliterateUTF32 (h : Host) (s : List Byte) (n : Nat) :
    NoFatal (transliterateUTF32 h s n) := by
  unfold transliterateUTF32
  split
  · exact noFatal_ok _
  · exact noFatal_bind _ _ (noFatal_transliterateUTF32Loop h s _ 0) (fun _ => noFatal_pure _)

theorem noFatal_decodeLoop (h : Host) (t : Table) (s : List Byte) :
    ∀ (n i : Nat), NoFatal (decodeLoop h t s i n) := by
  intro n
  induction n with
  | zero => intro i; exact noFatal_ok _
  | succ n ih =>
    intro i
    unfold decodeLoop
    exact noFatal_bind _ _ (noFatal_byteAt _ _) (fun b =>
      noFatal_bind _ _ (ih (i + 1)) (fun rest => noFatal_pure _))

theorem noFatal_encodeLoop (h : Host) (t : Table) (u : Option (List Byte)) :
    ∀ (n i : Nat), NoFatal (encodeLoop h t u i n) := by
  intro n
  induction n with
  | zero => intro i; exact noFatal_ok _
  | succ n ih =>
    intro i
    unfold encodeLoop
    cases u with
    | some buf =>
      exact noFatal_bind _ _ (noFatal_load32 _ _ _) (fun c =>
        noFatal_bind _ _ (ih (i + 1)) (fun rest => noFatal_pure _))
    | none =>
      intro hc
      cases hc

theorem noFatal_utf32Terminator (h : Host) (s : List Byte) :
    ∀ (n i : Nat), NoFatal (utf32Terminator h s i n) := by
  intro n
  induction n with
  | zero => intro i hc; cases hc
  | succ n ih =>
    intro i
    unfold utf32Terminator
    refine noFatal_bind _ _ (noFatal_load32 _ _ _) (fun c => ?_)
    split
    · exact noFatal_pure _
    · exact ih (i + 1)

theorem noFatal_error_cast {α β : Type} (e : Fault)
    (he : NoFatal (Except.error e : Except Fault α)) :
    NoFatal (Except.error e : Except Fault β) := by
  intro hc
  apply he
  injection hc with hc
  rw [hc]

theorem noFatal_convertConversionTable (h : Host)
    (convert : String → String → List Byte → Nat → Result)
    (hconvert : ∀ t f s n, NoFatal (convert t f s n))
    (toName fromName : String) (string : List Byte) (length : Nat) :
    NoFatal (convertConversionTable h convert toName fromName string length) := by
  cases hf : lookupTable h fromName with
  | some t =>
    unfold convertConversionTable
    simp only [hf]
    cases h.allocates (4 * (length + 1))
    · exact noFatal_ok _
    · exact noFatal_bind _ _ (noFatal_decodeLoop h _ string _ 0) (fun _ => hconvert _ _ _ _)
  | none =>
    cases ht : lookupTable h toName with
    | some t =>
      rw [cct_encode_any h convert toName fromName string length t hf ht]
      refine noFatal_bind _ _ (hconvert _ _ _ _) (fun u => ?_)
      cases h.allocates (encodeCount fromName length + 1)
      · exact noFatal_ok _
      · exact noFatal_map _ _ (noFatal_encodeLoop h _ u _ 0)
    | none =>
      unfold convertConversionTable
      simp only [hf, ht]
      exact noFatal_ok _

theorem noFatal_conversion (h : Host)
    (convert : String → String → List Byte → Nat → Result)
    (hconvert : ∀ t f s n, NoFatal (convert t f s n))
    (toName fromName : String) (string : List Byte) (length : Nat) :
    NoFatal (conversion h convert toName fromName string length) := by
  unfold conversion
  split
  · exact noFatal_ok _
  · split
    · exact noFatal_ok _
    · exact noFatal_convertConversionTable h convert hconvert _ _ _ _

theorem noFatal_body (h : Host)
    (convert : String → String → List Byte → Nat → Result)
    (hconvert : ∀ t f s n, NoFatal (convert t f s n))
    (toName fromName : String) (string : List Byte) (length : Nat) :
    NoFatal (convertWithTransliterationBody h convert toName fromName string length) := by
  have hconv : ∀ t f s n, NoFatal (conversion h convert t f s n) :=
    fun t f s n => noFatal_conversion h convert hconvert t f s n
  cases hne : equalsIgnoreCase fromName toName
  · cases hfam : (hasPrefixIgnoreCase toName "utf-16" && hasPrefixIgnoreCase fromName "utf-16" ||
        hasPrefixIgnoreCase toName "utf-32" && hasPrefixIgnoreCase fromName "utf-32")
    · unfold convertWithTransliterationBody
      simp only [hne, hfam, Bool.false_eq_true, if_false]
      cases hiso : equalsIgnoreCase fromName "iso-8859-5"
      · simp only [Bool.false_and, Bool.false_eq_true, if_false, pure, Except.pure, bind,
          Except.bind]
        by_cases hB : (hasPrefixIgnoreCase fromName "utf" && !hasPrefixIgnoreCase toName "utf" &&
            !equalsIgnoreCase toName "iso-8859-5") = true
        · rw [if_pos hB]
          cases h32 : hasPrefixIgnoreCase fromName "utf-32"
          · simp only [Bool.false_eq_true, if_false]
            have h1 := hconv "UTF-32" fromName string length
            cases hx : conversion h convert "UTF-32" fromName string length with
            | error e => rw [hx] at h1; exact noFatal_error_cast e h1
            | ok v =>
              cases v with
              | none => exact noFatal_ok _
              | some tmpString =>
                simp only []
                have h2 := noFatal_utf32Terminator h tmpString (tmpString.length / 4 + 1) 0
                cases hy : utf32Terminator h tmpString 0 (tmpString.length / 4 + 1) with
                | error e => rw [hy] at h2; exact noFatal_error_cast e h2
                | ok i =>
                  simp only []
                  have h3 := noFatal_transliterateUTF32 h tmpString (i * 4)
                  cases hz : transliterateUTF32 h tmpString (i * 4) with
                  | error e => rw [hz] at h3; exact noFatal_error_cast e h3
                  | ok r =>
                    cases r with
                    | none => exact noFatal_ok _
                    | some s => exact hconv _ _ _ _
          · simp only [if_true]
            have h3 := noFatal_transliterateUTF32 h string length
            cases hz : transliterateUTF32 h string length with
            | error e => rw [hz] at h3; exact noFatal_error_cast e h3
            | ok r =>
              cases r with
              | none => exact noFatal_ok _
              | some s => exact hconv _ _ _ _
        · rw [if_neg hB]
          exact hconv _ _ _ _
      · have hutf := iso_not_utf fromName hiso
        simp only [hutf, Bool.true_and, Bool.false_and, Bool.false_eq_true, if_false]
        cases hpto : hasPrefixIgnoreCase toName "utf"
        · simp only [Bool.not_false, if_true, pure, Except.pure, bind, Except.bind]
          have h3 := noFatal_transliterateCyrillic h string
          cases hz : transliterateCyrillic h string with
          | error e => rw [hz] at h3; exact noFatal_error_cast e h3
          | ok r =>
            cases r with
            | none => exact noFatal_ok _
            | some s => exact hconv _ _ _ _
        · simp only [Bool.not_true, Bool.false_eq_true, if_false, pure, Except.pure, bind,
            Except.bind]
          exact hconv _ _ _ _
    · rw [equalsIgnoreCase_comm] at hne
      rw [family_switch h convert toName fromName string length hne hfam]
      split
      · exact noFatal_copyString _ _ _
      · split
        · exact noFatal_switchEndian _ _ _ _
        · exact noFatal_switchEndian _ _ _ _
  · unfold convertWithTransliterationBody
    simp only [hne, if_true]
    exact noFatal_copyString _ _ _

theorem noFatal_convert (h : Host) :
    ∀ (fuel : Nat) (toName fromName : String) (string : List Byte) (length : Nat),
      NoFatal (convertWithTransliteration h fuel toName fromName string length) := by
  intro fuel
  induction fuel with
  | zero =>
    intro t f s n hc
    cases hc
  | succ fuel ih =>
    intro t f s n
    exact noFatal_body h _ ih t f s n
theorem noFatal_strAt (s : List Byte) (i : Nat) : NoFatal (strAt s i) := by
  unfold strAt
  split
  · exact noFatal_ok _
  · exact noFatal_byteAt s i

theorem noFatal_decodeUTF8Char (s : List Byte) (i num : Nat) :
    NoFatal (decodeUTF8Char s i num) := by
  unfold decodeUTF8Char
  split
  · exact noFatal_bind _ _ (noFatal_strAt _ _) (fun _ =>
      noFatal_bind _ _ (noFatal_strAt _ _) (fun _ =>
      noFatal_bind _ _ (noFatal_strAt _ _) (fun _ =>
      noFatal_bind _ _ (noFatal_strAt _ _) (fun _ => noFatal_pure _))))
  · exact noFatal_bind _ _ (noFatal_strAt _ _) (fun _ =>
      noFatal_bind _ _ (noFatal_strAt _ _) (fun _ =>
      noFatal_bind _ _ (noFatal_strAt _ _) (fun _ => noFatal_pure _)))
  · exact noFatal_bind _ _ (noFatal_strAt _ _) (fun _ =>
      noFatal_bind _ _ (noFatal_strAt _ _) (fun _ => noFatal_pure _))
  · exact noFatal_bind _ _ (noFatal_strAt _ _) (fun _ => noFatal_pure _)

theorem noFatal_decodeUTF8Loop (s : List Byte) :
    ∀ (fuel i : Nat) (dst : List U32), NoFatal (decodeUTF8Loop s fuel i dst) := by
  intro fuel
  induction fuel with
  | zero => intro i dst hc; cases hc
  | succ n ih =>
    intro i dst
    unfold decodeUTF8Loop
    by_cases hi : i < s.length
    · rw [if_pos hi]
      refine noFatal_bind _ _ (noFatal_strAt _ _) (fun lead => ?_)
      show NoFatal (if (i + 4294967296 - s.length) % 4294967296 ≥ sequenceLength lead
        then decodeUTF8Char s i (sequenceLength lead) >>= fun chr =>
          decodeUTF8Loop s n (i + sequenceLength lead) (dst ++ [U32.ofNat chr])
        else pure dst)
      split
      · exact noFatal_bind _ _ (noFatal_decodeUTF8Char _ _ _) (fun _ => ih _ _)
      · exact noFatal_pure _
    · rw [if_neg hi]
      exact noFatal_pure _

theorem noFatal_decodeUTF8 (s : List Byte) (dst : List U32) : NoFatal (decodeUTF8 s dst) :=
  noFatal_decodeUTF8Loop s _ _ _

theorem noFatal_loadElements (h : Host) (buf : List Byte) :
    ∀ (n i : Nat), NoFatal (loadElements h buf i n) := by
  intro n
  induction n with
  | zero => intro i; exact noFatal_ok _
  | succ n ih =>
    intro i
    unfold loadElements
    exact noFatal_bind _ _ (noFatal_load32 _ _ _) (fun _ =>
      noFatal_bind _ _ (ih _) (fun _ => noFatal_pure _))

theorem noFatal_u32StringOf (h : Host) (buf : List Byte) : NoFatal (u32StringOf h buf) :=
  noFatal_bind _ _ (noFatal_utf32Terminator h buf _ _) (fun _ => noFatal_loadElements h buf _ _)

theorem noFatal_stringOf (buf : List Byte) : NoFatal (stringOf buf) :=
  noFatal_bind _ _ (noFatal_strlen buf) (fun _ => noFatal_pure _)

theorem noFatal_codePageName (page : Int) : NoFatal (codePageName page) := by
  unfold codePageName
  split
  · intro hc; cases hc
  · split
    · exact noFatal_ok _
    · intro hc; cases hc
theorem invalidCodepage_iff (signedCount : Bool) (page : Int) :
    invalidCodepage signedCount page = true ↔
      (page = -1 ∨ 15 ≤ page ∨ (page < -1 ∧ signedCount = false)) := by
  have hsize : (ARRAYSIZE g_codePageMap : Int) = 15 := rfl
  have hinv : CodePage.kCodePageInvalid.toInt = -1 := rfl
  unfold invalidCodepage beyondCodePageMap
  rw [hsize, hinv]
  cases signedCount
  · simp only [Bool.false_eq_true, if_false, Bool.or_eq_true, beq_iff_eq, decide_eq_true_eq,
      and_true]
    omega
  · simp only [if_true, Bool.or_eq_true, beq_iff_eq, decide_eq_true_eq, Bool.true_eq_false,
      and_false, or_false]

theorem decode_fatal_iff (h : Host) (signedCount : Bool) (fuel : Nat) (str : List Byte)
    (page : Int) :
    decode h signedCount fuel str page = .error .fatalError ↔
      invalidCodepage signedCount page = true := by
  constructor
  · intro hd
    by_contra hg
    revert hd
    unfold decode
    rw [if_neg hg]
    refine noFatal_bind _ _ (noFatal_codePageName page) (fun name => ?_)
    refine noFatal_bind _ _ (noFatal_convert h fuel _ _ _ _) (fun result => ?_)
    cases result with
    | some buf => exact noFatal_u32StringOf h buf
    | none =>
      show NoFatal (if page = CodePage.kUtf8.toInt then decodeUTF8 str []
        else pure (decodeOneByte h str page []))
      split
      · exact noFatal_decodeUTF8 _ _
      · exact noFatal_pure _
  · intro hg
    unfold decode
    rw [if_pos hg]

theorem encode_fatal_iff (h : Host) (signedCount : Bool) (fuel : Nat) (str : List U32)
    (page : Int) :
    encode h signedCount fuel str page = .error .fatalError ↔
      invalidCodepage signedCount page = true := by
  constructor
  · intro hd
    by_contra hg
    revert hd
    unfold encode
    rw [if_neg hg]
    refine noFatal_bind _ _ (noFatal_codePageName page) (fun name => ?_)
    refine noFatal_bind _ _ (noFatal_convert h fuel _ _ _ _) (fun result => ?_)
    cases result with
    | some buf => exact noFatal_stringOf buf
    | none =>
      show NoFatal (if page = CodePage.kUtf8.toInt then pure (encodeUTF8 str [])
        else pure (encodeOneByte h str page []))
      split
      · exact noFatal_pure _
      · exact noFatal_pure _
  · intro hg
    unfold encode
    rw [if_pos hg]

theorem enumerator_values (p : CodePage) (hp : p ≠ CodePage.kCodePageInvalid) :
    0 ≤ p.toInt ∧ p.toInt ≤ 14 := by
  cases p <;> first | exact absurd rfl hp | (constructor <;> decide)

theorem codePageName_negative (page : Int) (hneg : page < 0) :
    codePageName page = .error .outOfBounds := by
  unfold codePageName
  rw [if_pos hneg]

theorem outOfBounds_not_fatal {α : Type} :
    (Except.error Fault.outOfBounds : Except Fault α) ≠ .error .fatalError := by
  intro hc
  cases hc

/-- Claim C13, evaluated on the code: `String::decode` and `U32String::encode` raise the
fatal error "Invalid codepage" for the value `kCodePageInvalid` (-1) and for every value
of at least 15, for every host, string and number of dispatcher steps allowed, none
included, so before any conversion; no enumerator `kUtf8` .. `kWindows1257` raises it. For
a negative value other than -1 the guard `page >= ARRAYSIZE(g_codePageMap)` fires only if
the macro yields an unsigned count; with a signed count it lets the value pass, no error
is raised and the read `g_codePageMap[page]` is outside the table. -/
theorem invalid_codepage_is_fatal (h : Host) (signedCount : Bool) (fuel : Nat) (page : Int) :
    (∀ str, decode h signedCount fuel str page = .error .fatalError ↔
      (page = -1 ∨ 15 ≤ page ∨ (page < -1 ∧ signedCount = false))) ∧
    (∀ str, encode h signedCount fuel str page = .error .fatalError ↔
      (page = -1 ∨ 15 ≤ page ∨ (page < -1 ∧ signedCount = false))) ∧
    (∀ p : CodePage, p ≠ CodePage.kCodePageInvalid →
      (∀ str, decode h signedCount fuel str p.toInt ≠ .error .fatalError) ∧
      (∀ str, encode h signedCount fuel str p.toInt ≠ .error .fatalError)) ∧
    (page < -1 → signedCount = true →
      (∀ str, decode h signedCount fuel str page = .error .outOfBounds) ∧
      (∀ str, encode h signedCount fuel str page = .error .outOfBounds)) := by
  refine ⟨fun str => (decode_fatal_iff h signedCount fuel str page).trans
      (invalidCodepage_iff signedCount page),
    fun str => (encode_fatal_iff h signedCount fuel str page).trans
      (invalidCodepage_iff signedCount page), ?_, ?_⟩
  · intro p hp
    have hv := enumerator_values p hp
    constructor
    · intro str hc
      have := ((decode_fatal_iff h signedCount fuel str p.toInt).trans
        (invalidCodepage_iff signedCount p.toInt)).mp hc
      omega
    · intro str hc
      have := ((encode_fatal_iff h signedCount fuel str p.toInt).trans
        (invalidCodepage_iff signedCount p.toInt)).mp hc
      omega
  · intro hneg hsigned
    have hg : ¬ invalidCodepage signedCount page = true := by
      rw [invalidCodepage_iff, hsigned]
      simp only [Bool.true_eq_false, and_false, or_false]
      omega
    constructor
    · intro str
      unfold decode
      rw [if_neg hg, codePageName_negative page (by omega)]
      rfl
    · intro str
      unfold encode
      rw [if_neg hg, codePageName_negative page (by omega)]
      rfl

theorem invalid_codepage_is_fatal_witness :
    decode exampleHost true 0 [0x41] (-1) = .error .fatalError ∧
    encode exampleHost true 0 [0x41] (-1) = .error .fatalError ∧
    decode exampleHost true 3 [0x41] CodePage.kCodePage850.toInt ≠ .error .fatalError ∧
    decode exampleHost true 3 [0x41] CodePage.kCodePage850.toInt = .ok [0x41] ∧
    invalidCodepage true (-2) = false ∧
    decode exampleHost true 3 [0x41] (-2) ≠ .error .fatalError ∧
    decode exampleHost true 3 [0x41] (-2) = .error .outOfBounds ∧
    encode exampleHost true 3 [0x41] (-2) = .error .outOfBounds :=
  ⟨((invalid_codepage_is_fatal exampleHost true 0 (-1)).1 [0x41]).mpr (Or.inl rfl),
    ((invalid_codepage_is_fatal exampleHost true 0 (-1)).2.1 [0x41]).mpr (Or.inl rfl),
    ((invalid_codepage_is_fatal exampleHost true 3 0).2.2.1 CodePage.kCodePage850
      (by decide)).1 [0x41],
    rfl, rfl, outOfBounds_not_fatal,
    ((invalid_codepage_is_fatal exampleHost true 3 (-2)).2.2.2 (by decide) rfl).1 [0x41],
    ((invalid_codepage_is_fatal exampleHost true 3 (-2)).2.2.2 (by decide) rfl).2 [0x41]⟩

theorem cyrillic_entries_ascii :
    ∀ ch ∈ g_cyrillicTransliterationTable, ch.toNat < 0x80 := by
  decide

theorem cyrillicAt_in_bounds (k : Nat) (hk : k ≤ 95) :
    ∃ v, cyrillicAt k = .ok v ∧ v < 0x80 :=
  ⟨_, (cyrillicAt_eq k (by omega)).1, (cyrillicAt_eq k (by omega)).2⟩

/-- Claim C24: `g_cyrillicTransliterationTable` has exactly 96 entries, each of them an
ASCII character (value below 0x80), and every lookup the code makes is in bounds: the
index `b - 160` that `transliterateCyrillic` uses for a byte `b` of 160..255 and the index
`c - 160 - 864` that `transliterateUTF32` uses for a code point `c` of 0x410..0x450 are at
most 95, the read succeeds and yields an ASCII value; for every other byte or code point
no lookup is made. -/
theorem cyrillic_table_lookups_in_bounds :
    g_cyrillicTransliterationTable.length = 96 ∧
    (∀ ch ∈ g_cyrillicTransliterationTable, ch.toNat < 0x80) ∧
    (∀ b : Byte, 160 ≤ b.val →
      b.val - 160 ≤ 95 ∧
      ∃ v, cyrillicAt (b.val - 160) = .ok v ∧ v < 0x80 ∧
        transliterateCyrillicByte b = .ok (Byte.ofNat v)) ∧
    (∀ b : Byte, b.val < 160 → transliterateCyrillicByte b = .ok b) ∧
    (∀ c : U32, 0x410 ≤ c.val → c.val ≤ 0x450 →
      c.val - 160 - 864 ≤ 95 ∧
      ∃ v, cyrillicAt (c.val - 160 - 864) = .ok v ∧ v < 0x80 ∧
        transliterateUTF32Element c = .ok v) ∧
    (∀ c : U32, ¬ (0x410 ≤ c.val ∧ c.val ≤ 0x450) →
      transliterateUTF32Element c = .ok c.val) := by
  refine ⟨rfl, cyrillic_entries_ascii, ?_, ?_, ?_, ?_⟩
  · intro b hb
    have hlt : b.val < 256 := b.isLt
    have hk : b.val - 160 ≤ 95 := by omega
    obtain ⟨v, hv, hascii⟩ := cyrillicAt_in_bounds (b.val - 160) hk
    refine ⟨hk, v, hv, hascii, ?_⟩
    unfold transliterateCyrillicByte
    rw [if_pos hb, hv]
    rfl
  · intro b hb
    unfold transliterateCyrillicByte
    rw [if_neg (by omega)]
    rfl
  · intro c hlo hhi
    have hk : c.val - 160 - 864 ≤ 95 := by omega
    obtain ⟨v, hv, hascii⟩ := cyrillicAt_in_bounds (c.val - 160 - 864) hk
    refine ⟨hk, v, hv, hascii, ?_⟩
    unfold transliterateUTF32Element
    rw [if_pos ⟨hlo, hhi⟩, hv]
  · intro c hc
    unfold transliterateUTF32Element
    rw [if_neg hc]
    rfl
theorem switchEndian16_outcome (h : Host) (s : List Byte) :
    ∀ (n i : Nat), (∃ out, switchEndian16 h s i n = .ok out) ∨
      switchEndian16 h s i n = .error .outOfBounds := by
  intro n
  induction n with
  | zero => intro i; exact Or.inl ⟨[], rfl⟩
  | succ n ih =>
    intro i
    unfold switchEndian16
    cases hv : load16 h.bigEndian s i with
    | error e =>
      right
      unfold load16 at hv
      split at hv
      · cases hv
      · cases hv
        rfl
    | ok v =>
      rcases ih (i + 1) with ⟨out, hout⟩ | herr
      · left
        rw [hout]
        exact ⟨_, rfl⟩
      · right
        rw [herr]
        rfl

theorem switchEndian32_outcome (h : Host) (s : List Byte) :
    ∀ (n i : Nat), (∃ out, switchEndian32 h s i n = .ok out) ∨
      switchEndian32 h s i n = .error .outOfBounds := by
  intro n
  induction n with
  | zero => intro i; exact Or.inl ⟨[], rfl⟩
  | succ n ih =>
    intro i
    unfold switchEndian32
    cases hv : load32 h.bigEndian s i with
    | error e =>
      right
      unfold load32 at hv
      split at hv
      · cases hv
      · cases hv
        rfl
    | ok v =>
      rcases ih (i + 1) with ⟨out, hout⟩ | herr
      · left
        rw [hout]
        exact ⟨_, rfl⟩
      · right
        rw [herr]
        rfl

theorem switchEndian_16_outcome (h : Host) (s : List Byte) (length : Nat) :
    (switchEndian h s length 16 = .error .assertion ↔ length % 2 ≠ 0) ∧
    (length % 2 = 0 →
      (switchEndian h s length 16 = .ok none ↔ h.allocates (length + 4) = false)) := by
  unfold switchEndian
  have h8 : ¬ (16 % 8 ≠ 0) := by decide
  have hd : 16 / 8 = 2 := rfl
  rw [if_neg h8, hd]
  by_cases hlen : length % 2 ≠ 0
  · rw [if_pos hlen]
    exact ⟨⟨fun _ => hlen, fun _ => rfl⟩, fun h0 => absurd h0 hlen⟩
  · rw [if_neg hlen]
    cases ha : h.allocates (length + 4)
    · simp only [Bool.not_false, if_true]
      exact ⟨⟨nofun, fun hc => absurd hc hlen⟩, fun _ => trivial⟩
    · simp only [Bool.not_true, Bool.false_eq_true, if_false, if_true]
      rcases switchEndian16_outcome h s (length / 2) 0 with ⟨out, hout⟩ | herr
      · rw [hout]
        exact ⟨⟨nofun, fun hc => absurd hc hlen⟩,
          fun _ => ⟨nofun, nofun⟩⟩
      · rw [herr]
        exact ⟨⟨nofun, fun hc => absurd hc hlen⟩,
          fun _ => ⟨nofun, nofun⟩⟩

theorem switchEndian_32_outcome (h : Host) (s : List Byte) (length : Nat) :
    (switchEndian h s length 32 = .error .assertion ↔ length % 4 ≠ 0) ∧
    (length % 4 = 0 →
      (switchEndian h s length 32 = .ok none ↔ h.allocates (length + 4) = false)) := by
  unfold switchEndian
  have h8 : ¬ (32 % 8 ≠ 0) := by decide
  have hd : 32 / 8 = 4 := rfl
  have h16 : ¬ (32 = 16) := by decide
  rw [if_neg h8, hd]
  by_cases hlen : length % 4 ≠ 0
  · rw [if_pos hlen]
    exact ⟨⟨fun _ => hlen, fun _ => rfl⟩, fun h0 => absurd h0 hlen⟩
  · rw [if_neg hlen]
    cases ha : h.allocates (length + 4)
    · simp only [Bool.not_false, if_true]
      exact ⟨⟨nofun, fun hc => absurd hc hlen⟩, fun _ => trivial⟩
    · simp only [Bool.not_true, Bool.false_eq_true, if_false, if_true, if_neg h16]
      rcases switchEndian32_outcome h s (length / 4) 0 with ⟨out, hout⟩ | herr
      · rw [hout]
        exact ⟨⟨nofun, fun hc => absurd hc hlen⟩,
          fun _ => ⟨nofun, nofun⟩⟩
      · rw [herr]
        exact ⟨⟨nofun, fun hc => absurd hc hlen⟩,
          fun _ => ⟨nofun, nofun⟩⟩
/-- Claim C29: in a call of `convertWithTransliteration` with two names of the same UTF-16
or UTF-32 family that are not equal and resolve to different byte orders, `switchEndian`
is called with `bitCount` 16 (UTF-16) or 32 (UTF-32) and the given length; its assertions
fail exactly when the length is not a multiple of 2 (UTF-16) or of 4 (UTF-32), and for a
length that is such a multiple the call returns no result exactly when the allocation of
`length + 4` bytes fails. -/
theorem switchEndian_assertions_hold_iff (h : Host) (fuel : Nat) (toName fromName : String)
    (string : List Byte) (length : Nat)
    (hne : equalsIgnoreCase toName fromName = false)
    (hfam : (hasPrefixIgnoreCase toName "utf-16" && hasPrefixIgnoreCase fromName "utf-16" ||
      hasPrefixIgnoreCase toName "utf-32" && hasPrefixIgnoreCase fromName "utf-32") = true)
    (hres : resolvesBigEndian h fromName ≠ resolvesBigEndian h toName) :
    (convertWithTransliteration h (fuel + 1) toName fromName string length
      = switchEndian h string length (if hasPrefixIgnoreCase toName "utf-16" then 16 else 32)) ∧
    (convertWithTransliteration h (fuel + 1) toName fromName string length = .error .assertion ↔
      length % (if hasPrefixIgnoreCase toName "utf-16" then 2 else 4) ≠ 0) ∧
    (length % (if hasPrefixIgnoreCase toName "utf-16" then 2 else 4) = 0 →
      (convertWithTransliteration h (fuel + 1) toName fromName string length = .ok none ↔
        h.allocates (length + 4) = false)) := by
  have hbody : convertWithTransliteration h (fuel + 1) toName fromName string length
      = if hasPrefixIgnoreCase toName "utf-16" then switchEndian h string length 16
        else switchEndian h string length 32 := by
    show convertWithTransliterationBody h _ toName fromName string length = _
    rw [family_switch h _ toName fromName string length hne hfam, if_neg hres]
  rw [hbody]
  cases h16 : hasPrefixIgnoreCase toName "utf-16"
  · simp only [Bool.false_eq_true, if_false]
    exact ⟨trivial, switchEndian_32_outcome h string length⟩
  · simp only [if_true]
    exact ⟨trivial, switchEndian_16_outcome h string length⟩

theorem switchEndian_assertions_hold_iff_witness :
    convertWithTransliteration exampleHost 1 "UTF-16BE" "UTF-16LE" [0x41, 0, 0x42] 3
      = .error .assertion ∧
    convertWithTransliteration exampleHost 1 "UTF-16BE" "UTF-16LE" [0x41, 0, 0x42, 0] 4
      ≠ .error .assertion ∧
    convertWithTransliteration exampleHost 1 "UTF-16BE" "UTF-16LE" [0x41, 0, 0x42, 0] 4
      = .ok (some [0, 0x41, 0, 0x42, 0, 0, 0, 0]) :=
  ⟨(switchEndian_assertions_hold_iff exampleHost 0 "UTF-16BE" "UTF-16LE" [0x41, 0, 0x42] 3
      rfl rfl (by decide)).2.1.mpr (by decide),
    fun hc => (switchEndian_assertions_hold_iff exampleHost 0 "UTF-16BE" "UTF-16LE"
      [0x41, 0, 0x42, 0] 4 rfl rfl (by decide)).2.1.mp hc rfl,
    rfl⟩
theorem appendedUTF8Seq_filter : ∀ seq : List U32,
    appendedUTF8Seq (seq.filter (fun c => decide (c.val ≠ 0))) = appendedUTF8Seq seq
  | [] => rfl
  | c :: rest => by
    have ih := appendedUTF8Seq_filter rest
    by_cases hc : c.val = 0
    · have hf : (c :: rest).filter (fun c => decide (c.val ≠ 0))
          = rest.filter (fun c => decide (c.val ≠ 0)) := by
        rw [List.filter_cons]
        simp only [hc, ne_eq, not_true_eq_false, decide_False, Bool.false_eq_true, if_false]
      rw [hf, ih, appendedUTF8Seq, appendedUTF8, if_pos hc, List.nil_append]
    · have hf : (c :: rest).filter (fun c => decide (c.val ≠ 0))
          = c :: rest.filter (fun c => decide (c.val ≠ 0)) := by
        rw [List.filter_cons]
        simp only [hc, ne_eq, not_false_eq_true, decide_True, if_true]
      rw [hf, appendedUTF8Seq, appendedUTF8Seq, ih]

theorem encodeUTF8_filter (seq : List U32) (dst : List Byte) :
    encodeUTF8 (seq.filter (fun c => decide (c.val ≠ 0))) dst = encodeUTF8 seq dst := by
  rw [encodeUTF8_eq, encodeUTF8_eq, appendedUTF8Seq_filter]

theorem encodeUTF8_nonzero (seq : List U32) (hall : ∀ c ∈ seq, c.val ≠ 0 ∧ c.val ≤ 0x10FFFF) :
    encodeUTF8 seq [] = utf8Seq seq := by
  unfold encodeUTF8
  rw [encodeUTF8Loop_eq seq 0 0 0 0 [] hall, List.nil_append]

theorem decodeUTF8_utf8Seq (seq : List U32) (hall : ∀ c ∈ seq, c.val ≤ 0x10FFFF)
    (hsize : (utf8Seq seq).length + 4 ≤ 4294967296) :
    decodeUTF8 (utf8Seq seq) [] = .ok seq := by
  have hloop := decodeUTF8Loop_utf8Seq seq [] ((utf8Seq seq).length + 1) [] hall
    (by have := utf8Seq_length_ge seq; omega) (by simpa using hsize)
  simpa [decodeUTF8] using hloop

theorem filter_nonzero_in_range (seq : List U32) (hall : ∀ c ∈ seq, c.val ≤ 0x10FFFF) :
    ∀ c ∈ seq.filter (fun c => decide (c.val ≠ 0)), c.val ≠ 0 ∧ c.val ≤ 0x10FFFF := by
  intro c hc
  rw [List.mem_filter] at hc
  exact ⟨of_decide_eq_true hc.2, hall c hc.1⟩

/-- Claim C27: for every sequence of code points that are all non-zero and at most
0x10FFFF (its UTF-8 form fitting the `uint` size of a string, with room for one more
sequence), decoding with `decodeUTF8` what `encodeUTF8` produces gives the sequence back.
For the code point 0 `encodeUTF8` appends no byte, wherever it stands, so the output for
any sequence is the output for the sequence with its zero code points removed: for code
points up to 0x10FFFF that is the UTF-8 form of the non-zero ones, and decoding it yields
the non-zero code points. -/
theorem encodeUTF8_skips_zero_code_points (seq : List U32) :
    ((∀ c ∈ seq, c.val ≠ 0 ∧ c.val ≤ 0x10FFFF) →
      (encodeUTF8 seq []).length + 4 ≤ 4294967296 →
      decodeUTF8 (encodeUTF8 seq []) [] = .ok seq) ∧
    (∀ (pre post : List U32) (dst : List Byte),
      encodeUTF8 (pre ++ 0 :: post) dst = encodeUTF8 pre dst ++ encodeUTF8 post [] ∧
      encodeUTF8 (pre ++ 0 :: post) dst = encodeUTF8 (pre ++ post) dst) ∧
    encodeUTF8 seq [] = encodeUTF8 (seq.filter (fun c => decide (c.val ≠ 0))) [] ∧
    ((∀ c ∈ seq, c.val ≤ 0x10FFFF) →
      encodeUTF8 seq [] = utf8Seq (seq.filter (fun c => decide (c.val ≠ 0))) ∧
      ((encodeUTF8 seq []).length + 4 ≤ 4294967296 →
        decodeUTF8 (encodeUTF8 seq []) []
          = .ok (seq.filter (fun c => decide (c.val ≠ 0))))) := by
  refine ⟨?_, ?_, (encodeUTF8_filter seq []).symm, ?_⟩
  · intro hall hsize
    rw [encodeUTF8_nonzero seq hall] at hsize ⊢
    exact decodeUTF8_utf8Seq seq (fun c hc => (hall c hc).2) hsize
  · intro pre post dst
    have hsplit := encodeUTF8_split pre 0 post dst
    have hzero : appendedUTF8 0 = [] := rfl
    rw [hzero, List.append_nil] at hsplit
    refine ⟨hsplit, ?_⟩
    rw [hsplit, encodeUTF8_eq (pre ++ post), appendedUTF8Seq_append, encodeUTF8_eq pre,
      encodeUTF8_eq post, List.nil_append, List.append_assoc]
  · intro hall
    have henc : encodeUTF8 seq [] = utf8Seq (seq.filter (fun c => decide (c.val ≠ 0))) := by
      rw [← encodeUTF8_filter seq []]
      exact encodeUTF8_nonzero _ (filter_nonzero_in_range seq hall)
    refine ⟨henc, ?_⟩
    intro hsize
    rw [henc] at hsize ⊢
    exact decodeUTF8_utf8Seq _ (fun c hc => (filter_nonzero_in_range seq hall c hc).2) hsize

theorem sample_code_points_bounded :
    ∀ c ∈ ([0x41, 0, 0xE9, 0, 0x20AC] : List U32), c.val ≤ 0x10FFFF := by
  intro c hc
  simp only [List.mem_cons, List.mem_singleton, List.not_mem_nil, or_false] at hc
  rcases hc with rfl | rfl | rfl | rfl | rfl <;> decide

theorem sample_code_points_nonzero :
    ∀ c ∈ ([0x41, 0xE9, 0x20AC] : List U32), c.val ≠ 0 ∧ c.val ≤ 0x10FFFF := by
  intro c hc
  simp only [List.mem_cons, List.mem_singleton, List.not_mem_nil, or_false] at hc
  rcases hc with rfl | rfl | rfl <;> decide

theorem encodeUTF8_skips_zero_code_points_witness :
    encodeUTF8 [0x41, 0, 0xE9, 0, 0x20AC] [] = [0x41, 0xC3, 0xA9, 0xE2, 0x82, 0xAC] ∧
    encodeUTF8 [0x41, 0, 0xE9, 0, 0x20AC] [] = utf8Seq [0x41, 0xE9, 0x20AC] ∧
    decodeUTF8 (encodeUTF8 [0x41, 0, 0xE9, 0, 0x20AC] []) [] = .ok [0x41, 0xE9, 0x20AC] ∧
    decodeUTF8 (encodeUTF8 [0x41, 0xE9, 0x20AC] []) [] = .ok [0x41, 0xE9, 0x20AC] :=
  ⟨rfl,
    ((encodeUTF8_skips_zero_code_points [0x41, 0, 0xE9, 0, 0x20AC]).2.2.2
      sample_code_points_bounded).1,
    ((encodeUTF8_skips_zero_code_points [0x41, 0, 0xE9, 0, 0x20AC]).2.2.2
      sample_code_points_bounded).2 (Nat.le_of_ble_eq_true rfl),
    (encodeUTF8_skips_zero_code_points [0x41, 0xE9, 0x20AC]).1
      sample_code_points_nonzero (Nat.le_of_ble_eq_true rfl)⟩
theorem scanTable_eq_encodeOneByteScan (t : Table) (c : U32) :
    ∀ (steps j : Nat) (cur : Byte), j + steps = 256 →
      scanTable t c (steps + 1) j cur
        = (encodeOneByteScan t c steps j).getD (Byte.ofNat '?'.toNat) := by
  intro steps
  induction steps with
  | zero =>
    intro j cur hj
    have hj256 : j = 256 := by omega
    subst hj256
    rfl
  | succ n ih =>
    intro j cur hj
    have hne : ¬ j = 256 := by omega
    unfold scanTable encodeOneByteScan
    rw [if_neg hne]
    by_cases hc : c = t (Byte.ofNat j)
    · rw [if_pos hc, if_pos hc.symm]
      rfl
    · rw [if_neg hc, if_neg (fun e => hc e.symm)]
      exact ih (j + 1) cur (by omega)

theorem encodedByte_eq_scan (t : Table) (c : U32) :
    encodedByte t c = (encodeOneByteScan t c 256 0).getD 0x3F :=
  scanTable_eq_encodeOneByteScan t c 256 0 0 rfl

theorem encodeOneByteScan_none (t : Table) (c : U32) :
    ∀ (steps j : Nat), (∀ k, j ≤ k → k < j + steps → t (Byte.ofNat k) ≠ c) →
      encodeOneByteScan t c steps j = none := by
  intro steps
  induction steps with
  | zero => intro j _; rfl
  | succ n ih =>
    intro j hmiss
    unfold encodeOneByteScan
    rw [if_neg (hmiss j (Nat.le_refl _) (by omega))]
    exact ih (j + 1) (fun k hk1 hk2 => hmiss k (by omega) (by omega))

theorem encodeOneByteScan_some (t : Table) (c : U32) :
    ∀ (steps j : Nat), (∃ k, j ≤ k ∧ k < j + steps ∧ t (Byte.ofNat k) = c) →
      ∃ b, encodeOneByteScan t c steps j = some b := by
  intro steps
  induction steps with
  | zero =>
    intro j hex
    obtain ⟨k, h1, h2, _⟩ := hex
    omega
  | succ n ih =>
    intro j hex
    unfold encodeOneByteScan
    by_cases hj : t (Byte.ofNat j) = c
    · rw [if_pos hj]
      exact ⟨_, rfl⟩
    · rw [if_neg hj]
      obtain ⟨k, h1, h2, h3⟩ := hex
      have hkj : k ≠ j := fun e => hj (e ▸ h3)
      exact ih (j + 1) ⟨k, by omega, by omega, h3⟩

theorem encodeOneByteScan_present (t : Table) (c : U32) (hex : ∃ j : Byte, t j = c) :
    encodeOneByteScan t c 256 0 = some (encodedByte t c) := by
  obtain ⟨j, hj⟩ := hex
  obtain ⟨b, hb⟩ := encodeOneByteScan_some t c 256 0
    ⟨j.val, Nat.zero_le _, by have := j.isLt; omega, by rw [byte_ofNat_val_self]; exact hj⟩
  rw [encodedByte_eq_scan, hb]
  rfl

theorem encodeOneByteScan_absent (t : Table) (c : U32) (hmiss : ∀ j : Byte, t j ≠ c) :
    encodeOneByteScan t c 256 0 = none :=
  encodeOneByteScan_none t c 256 0 (fun k _ _ => hmiss (Byte.ofNat k))

theorem encodeOneByte_eq (h : Host) (page : Int) (t : Table)
    (ht : conversionTableOf h page = some t) (s : List U32) (dst : List Byte) :
    encodeOneByte h s page dst
      = dst ++ s.filterMap (fun c => encodeOneByteScan t c 256 0) := by
  unfold encodeOneByte
  rw [ht]
  show List.foldl _ dst s = _
  induction s generalizing dst with
  | nil => simp
  | cons c rest ih =>
    rw [List.foldl_cons, ih]
    cases hc : encodeOneByteScan t c 256 0 with
    | none => simp [List.filterMap_cons, hc]
    | some b => simp [List.filterMap_cons, hc]

theorem filterMap_scan_present (t : Table) : ∀ s : List U32,
    (∀ c ∈ s, ∃ j : Byte, t j = c) →
      s.filterMap (fun c => encodeOneByteScan t c 256 0) = s.map (encodedByte t)
  | [], _ => rfl
  | c :: rest, hall => by
    have ih := filterMap_scan_present t rest (fun d hd => hall d (List.mem_cons_of_mem c hd))
    rw [List.filterMap_cons, encodeOneByteScan_present t c (hall c (List.mem_cons_self c rest)),
      ih, List.map_cons]
theorem filterMap_scan_filter (t : Table) : ∀ s : List U32,
    s.filterMap (fun c => encodeOneByteScan t c 256 0)
      = (s.filter (fun c => decide (∃ j : Byte, t j = c))).map (encodedByte t)
  | [] => rfl
  | c :: rest => by
    have ih := filterMap_scan_filter t rest
    by_cases hex : ∃ j : Byte, t j = c
    · rw [List.filterMap_cons, encodeOneByteScan_present t c hex, List.filter_cons,
        if_pos (decide_eq_true hex), List.map_cons, ih]
    · have hmiss : ∀ j : Byte, t j ≠ c := fun j hj => hex ⟨j, hj⟩
      rw [List.filterMap_cons, encodeOneByteScan_absent t c hmiss, List.filter_cons,
        if_neg (by rw [decide_eq_true_iff]; exact hex), ih]

/-- Claim C28: for a page that has a conversion table and a sequence of code points that
all occur in the table, `U32String::encodeOneByte` produces exactly the bytes the table
scan of the encode path of `convertConversionTable` produces (for each code point the
first index holding it). On a code point that is absent from the table the two differ:
`encodeOneByte` appends nothing, the table converter emits '?'. For every sequence the
output of `encodeOneByte` is that of the table scan on the code points that occur in the
table. -/
theorem encodeOneByte_matches_table_scan (h : Host) (page : Int) (t : Table)
    (ht : conversionTableOf h page = some t) :
    (∀ (s : List U32) (tail : List Byte), (∀ c ∈ s, ∃ j : Byte, t j = c) →
      encodeOneByte h s page [] = s.map (encodedByte t) ∧
      encodeLoop h t (some (utf32Bytes h.bigEndian s ++ tail)) 0 s.length
        = .ok (encodeOneByte h s page [])) ∧
    (∀ c : U32, (∀ j : Byte, t j ≠ c) →
      (∀ dst, encodeOneByte h [c] page dst = dst) ∧
      ∀ tail, encodeLoop h t (some (utf32Bytes h.bigEndian [c] ++ tail)) 0 1
        = .ok [Byte.ofNat '?'.toNat]) ∧
    (∀ (s : List U32) (dst tail : List Byte),
      encodeLoop h t (some (utf32Bytes h.bigEndian s ++ tail)) 0 s.length
        = .ok (s.map (encodedByte t)) ∧
      encodeOneByte h s page dst
        = dst ++ (s.filter (fun c => decide (∃ j : Byte, t j = c))).map (encodedByte t)) := by
  refine ⟨?_, ?_, ?_⟩
  · intro s tail hall
    have h1 : encodeOneByte h s page [] = s.map (encodedByte t) := by
      rw [encodeOneByte_eq h page t ht, filterMap_scan_present t s hall, List.nil_append]
    refine ⟨h1, ?_⟩
    rw [h1]
    exact encodeLoop_eq h t s [] tail 0 rfl
  · intro c hmiss
    constructor
    · intro dst
      rw [encodeOneByte_eq h page t ht, List.filterMap_cons, encodeOneByteScan_absent t c hmiss]
      simp
    · intro tail
      have := encodeLoop_eq h t [c] [] tail 0 rfl
      rw [List.map_cons, encodedByte_absent t c hmiss] at this
      exact this
  · intro s dst tail
    refine ⟨encodeLoop_eq h t s [] tail 0 rfl, ?_⟩
    rw [encodeOneByte_eq h page t ht, filterMap_scan_filter]

theorem sample_code_points_tabulated :
    ∀ c ∈ ([0x41, 0x42] : List U32), ∃ j : Byte, (fun b : Byte => U32.ofNat b.val) j = c := by
  intro c hc
  simp only [List.mem_cons, List.mem_singleton, List.not_mem_nil, or_false] at hc
  rcases hc with rfl | rfl
  · exact ⟨0x41, rfl⟩
  · exact ⟨0x42, rfl⟩

set_option maxRecDepth 100000 in
theorem encodeOneByte_matches_table_scan_witness :
    conversionTableOf exampleHost 2 = some (fun b => U32.ofNat b.val) ∧
    (∀ c ∈ ([0x41, 0x42] : List U32), ∃ j : Byte, (fun b : Byte => U32.ofNat b.val) j = c) ∧
    encodeOneByte exampleHost [0x41, 0x42] 2 [] = [0x41, 0x42] ∧
    encodeLoop exampleHost (fun b => U32.ofNat b.val)
        (some (utf32Bytes exampleHost.bigEndian [0x41, 0x42] ++ zeros 4)) 0 2
      = .ok (encodeOneByte exampleHost [0x41, 0x42] 2 []) ∧
    encodeOneByte exampleHost [0x41, 0x20AC, 0x42] 2 [] = [0x41, 0x42] :=
  ⟨rfl, sample_code_points_tabulated, rfl,
    ((encodeOneByte_matches_table_scan exampleHost 2 (fun b => U32.ofNat b.val) rfl).1
      [0x41, 0x42] (zeros 4) sample_code_points_tabulated).2,
    rfl⟩
theorem encodedByte_round_trip_iff (t : Table) (b : Byte) :
    encodedByte t (t b) = b ↔ ∀ k : Byte, k < b → t k ≠ t b := by
  constructor
  · intro hrt k hk
    have := (encodedByte_present t (t b) ⟨b, rfl⟩).2 k (by rw [hrt]; exact hk)
    exact this
  · exact encodedByte_first t b

theorem encodedByte_all_iff_injective (t : Table) :
    (∀ b : Byte, encodedByte t (t b) = b) ↔ Function.Injective t := by
  constructor
  · intro hall a b hab
    rw [← hall a, ← hall b, hab]
  · intro hinj b
    exact hinj (encodedByte_present t (t b) ⟨b, rfl⟩).1

theorem table_round_trip_result (h : Host) (fuel : Nat) (P : String) (t : Table) (b : Byte)
    (ha : h.allocationSucceeds) (hb : h.backendsUnavailable) (ht : lookupTable h P = some t)
    (hc : ¬ (0x410 ≤ (t b).val ∧ (t b).val ≤ 0x450)) :
    convert h (fuel + 2) "UTF-32" P [b] 1
      = .ok (some (utf32Bytes h.bigEndian [t b] ++ zeros 4)) ∧
    convert h (fuel + 2) P "UTF-32" (utf32Bytes h.bigEndian [t b] ++ zeros 4) 4
      = .ok (some [encodedByte t (t b), 0]) := by
  constructor
  · have := table_decode_path h fuel P t [b] [] ha hb ht
    rwa [List.append_nil] at this
  · have hpath := table_encode_path h fuel P t [t b] 0 [] ha hb ht
    rw [List.append_nil, utf32Bytes_append, ← zeros_four_eq] at hpath
    refine Eq.trans hpath ?_
    simp only [List.map_cons, List.map_nil, transliteratedCodePoint_outside (t b) hc]
    rfl

theorem oneByte_round_trip_result (h : Host) (page : Int) (t : Table) (b : Byte)
    (ht : conversionTableOf h page = some t) :
    encodeOneByte h (decodeOneByte h [b] page []) page [] = [encodedByte t (t b)] := by
  have hd : decodeOneByte h [b] page [] = [t b] := by
    unfold decodeOneByte
    rw [ht]
    rfl
  rw [hd, encodeOneByte_eq h page t ht, List.filterMap_cons,
    encodeOneByteScan_present t (t b) ⟨b, rfl⟩]
  rfl

/-- Claim C26: for every 256-entry table and every code point that occurs in it, the
encode scan of `convertConversionTable` and that of `encodeOneByte` emit the smallest
index holding the code point. So encoding the table entry of a byte `b` gives `b` back
exactly when no smaller index holds the same entry, and this holds for all 256 bytes
exactly when the table is injective. The same is true of the round trip through the
dispatcher without external converters, for entries outside 0x410..0x450, and of the
round trip through `decodeOneByte` and `encodeOneByte`. -/
theorem encode_scan_emits_smallest_index (t : Table) :
    (∀ c : U32, (∃ j : Byte, t j = c) →
      t (encodedByte t c) = c ∧ (∀ k : Byte, k < encodedByte t c → t k ≠ c) ∧
      encodeOneByteScan t c 256 0 = some (encodedByte t c)) ∧
    (∀ b : Byte, encodedByte t (t b) = b ↔ ∀ k : Byte, k < b → t k ≠ t b) ∧
    ((∀ b : Byte, encodedByte t (t b) = b) ↔ Function.Injective t) ∧
    (∀ (h : Host) (fuel : Nat) (P : String) (b : Byte),
      h.allocationSucceeds → h.backendsUnavailable → lookupTable h P = some t →
      ¬ (0x410 ≤ (t b).val ∧ (t b).val ≤ 0x450) →
      ∃ out : List Byte, convert h (fuel + 2) "UTF-32" P [b] 1 = .ok (some out) ∧
        convert h (fuel + 2) P "UTF-32" out 4 = .ok (some [encodedByte t (t b), 0]) ∧
        (convert h (fuel + 2) P "UTF-32" out 4 = .ok (some [b, 0]) ↔
          ∀ k : Byte, k < b → t k ≠ t b)) ∧
    (∀ (h : Host) (page : Int) (b : Byte), conversionTableOf h page = some t →
      encodeOneByte h (decodeOneByte h [b] page []) page [] = [encodedByte t (t b)] ∧
      (encodeOneByte h (decodeOneByte h [b] page []) page [] = [b] ↔
        ∀ k : Byte, k < b → t k ≠ t b)) := by
  refine ⟨?_, encodedByte_round_trip_iff t, encodedByte_all_iff_injective t, ?_, ?_⟩
  · intro c hex
    exact ⟨(encodedByte_present t c hex).1, (encodedByte_present t c hex).2,
      encodeOneByteScan_present t c hex⟩
  · intro h fuel P b ha hb ht hc
    obtain ⟨hdec, henc⟩ := table_round_trip_result h fuel P t b ha hb ht hc
    refine ⟨_, hdec, henc, ?_⟩
    rw [henc, ← encodedByte_round_trip_iff t b]
    constructor
    · intro he
      injection he with he
      injection he with he
      injection he with he
    · intro he
      rw [he]
  · intro h page b ht
    have hres := oneByte_round_trip_result h page t b ht
    refine ⟨hres, ?_⟩
    rw [hres, ← encodedByte_round_trip_iff t b]
    constructor
    · intro he
      injection he with he
    · intro he
      rw [he]

set_option maxRecDepth 100000 in
theorem encode_scan_emits_smallest_index_witness :
    encodedByte (fun b : Byte => U32.ofNat b.val) 0x41 = 0x41 ∧
    (∀ b : Byte, encodedByte (fun b : Byte => U32.ofNat b.val) (U32.ofNat b.val) = b) ∧
    encodedByte (fun b : Byte => if b.val = 0x80 then 0x41 else if b.val = 0x81 then 0x410
      else U32.ofNat b.val) 0x41 = 0x41 ∧
    ¬ Function.Injective (fun b : Byte => if b.val = 0x80 then (0x41 : U32)
      else if b.val = 0x81 then 0x410 else U32.ofNat b.val) :=
  ⟨rfl,
    (encode_scan_emits_smallest_index (fun b : Byte => U32.ofNat b.val)).2.2.1.mpr
      (fun k b he => exampleTable_injective k b he),
    rfl,
    fun hinj => absurd (@hinj 0x80 0x41 rfl) (by decide)⟩
theorem returnsOrOutOfBounds_bind {α β : Type} (x : Except Fault α) (f : α → Except Fault β)
    (P : α → Prop) (Q : β → Prop) (hx : ReturnsOrOutOfBounds x P)
    (hf : ∀ a, P a → ReturnsOrOutOfBounds (f a) Q) : ReturnsOrOutOfBounds (x >>= f) Q := by
  cases x with
  | error e => exact hx
  | ok a => exact hf a hx

theorem returnsOrOutOfBounds_strAt (s : List Byte) (i : Nat) :
    ReturnsOrOutOfBounds (strAt s i) (fun _ => True) := by
  unfold strAt
  split
  · trivial
  · unfold byteAt
    split
    · trivial
    · rfl

theorem code_point_bits (a b c d : Nat) (ha : a ≤ 7) (hb : b ≤ 63) (hc : c ≤ 63) (hd : d ≤ 63) :
    (((0 ||| (a <<< 18)) ||| (b <<< 12)) ||| (c <<< 6)) ||| d < 0x200000 := by
  have h21 : (0x200000 : Nat) = 2 ^ 21 := by decide
  rw [h21]
  refine Nat.or_lt_two_pow (Nat.or_lt_two_pow (Nat.or_lt_two_pow (Nat.or_lt_two_pow ?_ ?_) ?_) ?_) ?_
  · decide
  · rw [Nat.shiftLeft_eq]; omega
  · rw [Nat.shiftLeft_eq]; omega
  · rw [Nat.shiftLeft_eq]; omega
  · omega

theorem and_mask_le (b m : Nat) : b &&& m ≤ m := Nat.and_le_right

theorem returnsOrOutOfBounds_decodeUTF8Char (s : List Byte) (i num : Nat) :
    ReturnsOrOutOfBounds (decodeUTF8Char s i num) (fun chr => chr < 0x200000) := by
  unfold decodeUTF8Char
  split
  · refine returnsOrOutOfBounds_bind _ _ _ _ (returnsOrOutOfBounds_strAt s i) (fun b0 _ => ?_)
    refine returnsOrOutOfBounds_bind _ _ _ _ (returnsOrOutOfBounds_strAt s _) (fun b1 _ => ?_)
    refine returnsOrOutOfBounds_bind _ _ _ _ (returnsOrOutOfBounds_strAt s _) (fun b2 _ => ?_)
    refine returnsOrOutOfBounds_bind _ _ _ _ (returnsOrOutOfBounds_strAt s _) (fun b3 _ => ?_)
    exact code_point_bits _ _ _ _ (and_mask_le _ _) (and_mask_le _ _) (and_mask_le _ _)
      (and_mask_le _ _)
  · refine returnsOrOutOfBounds_bind _ _ _ _ (returnsOrOutOfBounds_strAt s i) (fun b0 _ => ?_)
    refine returnsOrOutOfBounds_bind _ _ _ _ (returnsOrOutOfBounds_strAt s _) (fun b1 _ => ?_)
    refine returnsOrOutOfBounds_bind _ _ _ _ (returnsOrOutOfBounds_strAt s _) (fun b2 _ => ?_)
    show ((0 ||| ((b0.val &&& 0x0F) <<< 12)) ||| ((b1.val &&& 0x3F) <<< 6))
      ||| (b2.val &&& 0x3F) < 0x200000
    have h21 : (0x200000 : Nat) = 2 ^ 21 := by decide
    have e0 := and_mask_le b0.val 0x0F
    have e1 := and_mask_le b1.val 0x3F
    have e2 := and_mask_le b2.val 0x3F
    rw [h21]
    refine Nat.or_lt_two_pow (Nat.or_lt_two_pow (Nat.or_lt_two_pow ?_ ?_) ?_) ?_
    · decide
    · rw [Nat.shiftLeft_eq]; omega
    · rw [Nat.shiftLeft_eq]; omega
    · omega
  · refine returnsOrOutOfBounds_bind _ _ _ _ (returnsOrOutOfBounds_strAt s i) (fun b0 _ => ?_)
    refine returnsOrOutOfBounds_bind _ _ _ _ (returnsOrOutOfBounds_strAt s _) (fun b1 _ => ?_)
    show (0 ||| ((b0.val &&& 0x1F) <<< 6)) ||| (b1.val &&& 0x3F) < 0x200000
    have h21 : (0x200000 : Nat) = 2 ^ 21 := by decide
    have e0 := and_mask_le b0.val 0x1F
    have e1 := and_mask_le b1.val 0x3F
    rw [h21]
    refine Nat.or_lt_two_pow (Nat.or_lt_two_pow ?_ ?_) ?_
    · decide
    · rw [Nat.shiftLeft_eq]; omega
    · omega
  · refine returnsOrOutOfBounds_bind _ _ _ _ (returnsOrOutOfBounds_strAt s i) (fun b0 _ => ?_)
    show b0.val &&& 0x7F < 0x200000
    have e0 := and_mask_le b0.val 0x7F
    omega

theorem sequenceLength_bounds (b : Byte) : 1 ≤ sequenceLength b ∧ sequenceLength b ≤ 4 := by
  unfold sequenceLength
  split
  · omega
  · split
    · omega
    · split <;> omega
theorem decodeUTF8Loop_unfold (s : List Byte) (fuel i : Nat) (dst : List U32)
    (hi : i < s.length) :
    decodeUTF8Loop s (fuel + 1) i dst
      = strAt s i >>= fun lead =>
          if (i + 4294967296 - s.length) % 4294967296 ≥ sequenceLength lead
          then decodeUTF8Char s i (sequenceLength lead) >>= fun chr =>
            decodeUTF8Loop s fuel (i + sequenceLength lead) (dst ++ [U32.ofNat chr])
          else pure dst := by
  rw [decodeUTF8Loop, if_pos hi]

theorem decodeUTF8Loop_done (s : List Byte) (fuel i : Nat) (dst : List U32)
    (hi : ¬ i < s.length) : decodeUTF8Loop s (fuel + 1) i dst = .ok dst := by
  rw [decodeUTF8Loop, if_neg hi]
  rfl

theorem returnsOrOutOfBounds_decodeUTF8Loop (s : List Byte) :
    ∀ (fuel i : Nat) (dst : List U32), s.length - i + 1 ≤ fuel →
      ReturnsOrOutOfBounds (decodeUTF8Loop s fuel i dst) (fun out =>
        ∃ app : List U32, out = dst ++ app ∧ app.length ≤ s.length - i ∧
          ∀ c ∈ app, c.val < 0x200000) := by
  intro fuel
  induction fuel with
  | zero => intro i dst hf; omega
  | succ n ih =>
    intro i dst hf
    by_cases hi : i < s.length
    · rw [decodeUTF8Loop_unfold s n i dst hi]
      refine returnsOrOutOfBounds_bind _ _ _ _ (returnsOrOutOfBounds_strAt s i)
        (fun lead _ => ?_)
      have hnum := sequenceLength_bounds lead
      split
      · refine returnsOrOutOfBounds_bind _ _ _ _
          (returnsOrOutOfBounds_decodeUTF8Char s i (sequenceLength lead)) (fun chr hchr => ?_)
        have hrec := ih (i + sequenceLength lead) (dst ++ [U32.ofNat chr]) (by omega)
        cases hr : decodeUTF8Loop s n (i + sequenceLength lead) (dst ++ [U32.ofNat chr]) with
        | error e =>
          rw [hr] at hrec
          exact hrec
        | ok out =>
          rw [hr] at hrec
          obtain ⟨app, happ, hlen, hall⟩ := hrec
          refine ⟨U32.ofNat chr :: app, ?_, ?_, ?_⟩
          · rw [happ, List.append_assoc, List.singleton_append]
          · simp only [List.length_cons]
            omega
          · intro c hc
            rcases List.mem_cons.mp hc with rfl | hc
            · rw [u32_ofNat_val]
              exact Nat.lt_of_le_of_lt (Nat.mod_le _ _) hchr
            · exact hall c hc
      · exact ⟨[], (List.append_nil dst).symm, Nat.zero_le _, fun c hc => by cases hc⟩
    · rw [decodeUTF8Loop_done s n i dst hi]
      exact ⟨[], (List.append_nil dst).symm, Nat.zero_le _, fun c hc => by cases hc⟩
theorem strAt_ok (s : List Byte) (i : Nat) (hi : i ≤ s.length) : ∃ b, strAt s i = .ok b := by
  unfold strAt
  by_cases he : i = s.length
  · rw [if_pos he]
    exact ⟨0, rfl⟩
  · rw [if_neg he]
    exact byteAt_ok s i (by omega)

theorem strAt_lt (s : List Byte) (i : Nat) (hi : i < s.length) :
    ∃ b, s[i]? = some b ∧ strAt s i = .ok b := by
  refine ⟨s[i], List.getElem?_eq_getElem hi, ?_⟩
  unfold strAt byteAt
  rw [if_neg (by omega), List.getElem?_eq_getElem hi]

theorem decodeUTF8Char_ok (s : List Byte) (i num : Nat) (h1 : 1 ≤ num)
    (hn : i + num ≤ s.length + 1) : ∃ chr, decodeUTF8Char s i num = .ok chr := by
  unfold decodeUTF8Char
  split
  · obtain ⟨b0, e0⟩ := strAt_ok s i (by omega)
    obtain ⟨b1, e1⟩ := strAt_ok s (i + 1) (by omega)
    obtain ⟨b2, e2⟩ := strAt_ok s (i + 2) (by omega)
    obtain ⟨b3, e3⟩ := strAt_ok s (i + 3) (by omega)
    rw [e0, e1, e2, e3]
    exact ⟨_, rfl⟩
  · obtain ⟨b0, e0⟩ := strAt_ok s i (by omega)
    obtain ⟨b1, e1⟩ := strAt_ok s (i + 1) (by omega)
    obtain ⟨b2, e2⟩ := strAt_ok s (i + 2) (by omega)
    rw [e0, e1, e2]
    exact ⟨_, rfl⟩
  · obtain ⟨b0, e0⟩ := strAt_ok s i (by omega)
    obtain ⟨b1, e1⟩ := strAt_ok s (i + 1) (by omega)
    rw [e0, e1]
    exact ⟨_, rfl⟩
  · obtain ⟨b0, e0⟩ := strAt_ok s i (by omega)
    rw [e0]
    exact ⟨_, rfl⟩

theorem decodeUTF8Loop_returns (s : List Byte)
    (hwell : ∀ (i : Nat) (b : Byte), s[i]? = some b → i + sequenceLength b ≤ s.length + 1) :
    ∀ (fuel i : Nat) (dst : List U32), s.length - i + 1 ≤ fuel →
      ∃ out, decodeUTF8Loop s fuel i dst = .ok out := by
  intro fuel
  induction fuel with
  | zero => intro i dst hf; omega
  | succ n ih =>
    intro i dst hf
    by_cases hi : i < s.length
    · obtain ⟨lead, hget, hlead⟩ := strAt_lt s i hi
      have hnum := sequenceLength_bounds lead
      rw [decodeUTF8Loop_unfold s n i dst hi, hlead]
      show ∃ out, (if (i + 4294967296 - s.length) % 4294967296 ≥ sequenceLength lead
        then decodeUTF8Char s i (sequenceLength lead) >>= fun chr =>
          decodeUTF8Loop s n (i + sequenceLength lead) (dst ++ [U32.ofNat chr])
        else pure dst) = .ok out
      split
      · obtain ⟨chr, hchr⟩ := decodeUTF8Char_ok s i (sequenceLength lead) hnum.1
          (hwell i lead hget)
        rw [hchr]
        exact ih (i + sequenceLength lead) (dst ++ [U32.ofNat chr]) (by omega)
      · exact ⟨dst, rfl⟩
    · exact ⟨dst, decodeUTF8Loop_done s n i dst hi⟩

theorem decodeUTF8CharWithin_lt (storage : Nat → Byte) (s : List Byte) (i num : Nat) :
    decodeUTF8CharWithin storage s i num < 0x200000 := by
  unfold decodeUTF8CharWithin
  split
  · exact code_point_bits _ _ _ _ (and_mask_le _ _) (and_mask_le _ _) (and_mask_le _ _)
      (and_mask_le _ _)
  · have h21 : (0x200000 : Nat) = 2 ^ 21 := by decide
    have e0 := and_mask_le (storageAt storage s i).val 0x0F
    have e1 := and_mask_le (storageAt storage s (i + 1)).val 0x3F
    have e2 := and_mask_le (storageAt storage s (i + 2)).val 0x3F
    rw [h21]
    refine Nat.or_lt_two_pow (Nat.or_lt_two_pow (Nat.or_lt_two_pow ?_ ?_) ?_) ?_
    · decide
    · rw [Nat.shiftLeft_eq]; omega
    · rw [Nat.shiftLeft_eq]; omega
    · omega
  · have h21 : (0x200000 : Nat) = 2 ^ 21 := by decide
    have e0 := and_mask_le (storageAt storage s i).val 0x1F
    have e1 := and_mask_le (storageAt storage s (i + 1)).val 0x3F
    rw [h21]
    refine Nat.or_lt_two_pow (Nat.or_lt_two_pow ?_ ?_) ?_
    · decide
    · rw [Nat.shiftLeft_eq]; omega
    · omega
  · have e0 := and_mask_le (storageAt storage s i).val 0x7F
    omega

theorem decodeUTF8LoopWithin_unfold (storage : Nat → Byte) (s : List Byte) (fuel i : Nat)
    (dst : List U32) (hi : i < s.length) :
    decodeUTF8LoopWithin storage s (fuel + 1) i dst
      = if (i + 4294967296 - s.length) % 4294967296 ≥ sequenceLength (storageAt storage s i)
        then decodeUTF8LoopWithin storage s fuel (i + sequenceLength (storageAt storage s i))
          (dst ++ [U32.ofNat (decodeUTF8CharWithin storage s i
            (sequenceLength (storageAt storage s i)))])
        else .ok dst := by
  rw [decodeUTF8LoopWithin, if_pos hi]

theorem decodeUTF8LoopWithin_done (storage : Nat → Byte) (s : List Byte) (fuel i : Nat)
    (dst : List U32) (hi : ¬ i < s.length) :
    decodeUTF8LoopWithin storage s (fuel + 1) i dst = .ok dst := by
  rw [decodeUTF8LoopWithin, if_neg hi]

theorem decodeUTF8LoopWithin_returns (storage : Nat → Byte) (s : List Byte) :
    ∀ (fuel i : Nat) (dst : List U32), s.length - i + 1 ≤ fuel →
      ∃ app : List U32, decodeUTF8LoopWithin storage s fuel i dst = .ok (dst ++ app) ∧
        app.length ≤ s.length - i ∧ ∀ c ∈ app, c.val < 0x200000 := by
  intro fuel
  induction fuel with
  | zero => intro i dst hf; omega
  | succ n ih =>
    intro i dst hf
    by_cases hi : i < s.length
    · rw [decodeUTF8LoopWithin_unfold storage s n i dst hi]
      have hnum := sequenceLength_bounds (storageAt storage s i)
      by_cases hg : (i + 4294967296 - s.length) % 4294967296
          ≥ sequenceLength (storageAt storage s i)
      · rw [if_pos hg]
        obtain ⟨app, happ, hlen, hall⟩ := ih (i + sequenceLength (storageAt storage s i))
          (dst ++ [U32.ofNat (decodeUTF8CharWithin storage s i
            (sequenceLength (storageAt storage s i)))]) (by omega)
        refine ⟨U32.ofNat (decodeUTF8CharWithin storage s i
          (sequenceLength (storageAt storage s i))) :: app, ?_, ?_, ?_⟩
        · rw [happ, List.append_assoc, List.singleton_append]
        · simp only [List.length_cons]
          omega
        · intro c hc
          rcases List.mem_cons.mp hc with rfl | hc
          · rw [u32_ofNat_val]
            exact Nat.lt_of_le_of_lt (Nat.mod_le _ _) (decodeUTF8CharWithin_lt _ _ _ _)
          · exact hall c hc
      · rw [if_neg hg]
        exact ⟨[], by rw [List.append_nil], Nat.zero_le _, fun c hc => by cases hc⟩
    · rw [decodeUTF8LoopWithin_done storage s n i dst hi]
      exact ⟨[], by rw [List.append_nil], Nat.zero_le _, fun c hc => by cases hc⟩

theorem storageAt_of_strAt (storage : Nat → Byte) (s : List Byte) (i : Nat) (b : Byte)
    (hb : strAt s i = .ok b) : storageAt storage s i = b := by
  unfold strAt at hb
  unfold storageAt
  by_cases he : i = s.length
  · rw [if_pos he] at hb
    injection hb with hb
    rw [he, List.getElem?_eq_none (Nat.le_refl _)]
    simp only [if_true]
    exact hb
  · rw [if_neg he] at hb
    unfold byteAt at hb
    cases hg : s[i]? with
    | none =>
      rw [hg] at hb
      cases hb
    | some x =>
      rw [hg] at hb
      injection hb

theorem sequenceLength_cases (b : Byte) :
    sequenceLength b = 4 ∨ sequenceLength b = 3 ∨ sequenceLength b = 2 ∨
      sequenceLength b = 1 := by
  unfold sequenceLength
  split
  · exact Or.inl rfl
  · split
    · exact Or.inr (Or.inl rfl)
    · split
      · exact Or.inr (Or.inr (Or.inl rfl))
      · exact Or.inr (Or.inr (Or.inr rfl))

theorem decodeUTF8CharWithin_four (storage : Nat → Byte) (s : List Byte) (i chr : Nat)
    (hc : decodeUTF8Char s i 4 = .ok chr) : decodeUTF8CharWithin storage s i 4 = chr := by
  have hdef : decodeUTF8Char s i 4 = (strAt s i >>= fun b0 => strAt s (i + 1) >>= fun b1 =>
      strAt s (i + 2) >>= fun b2 => strAt s (i + 3) >>= fun b3 =>
        pure ((((0 ||| ((b0.val &&& 0x07) <<< 18)) ||| ((b1.val &&& 0x3F) <<< 12))
          ||| ((b2.val &&& 0x3F) <<< 6)) ||| (b3.val &&& 0x3F))) := rfl
  rw [hdef] at hc
  cases h0 : strAt s i with
  | error e => rw [h0] at hc; cases hc
  | ok b0 =>
    cases h1 : strAt s (i + 1) with
    | error e => rw [h0, h1] at hc; cases hc
    | ok b1 =>
      cases h2 : strAt s (i + 2) with
      | error e => rw [h0, h1, h2] at hc; cases hc
      | ok b2 =>
        cases h3 : strAt s (i + 3) with
        | error e => rw [h0, h1, h2, h3] at hc; cases hc
        | ok b3 =>
          rw [h0, h1, h2, h3] at hc
          simp only [bind, Except.bind, pure, Except.pure, Except.ok.injEq] at hc
          have e0 := storageAt_of_strAt storage s _ _ h0
          have e1 := storageAt_of_strAt storage s _ _ h1
          have e2 := storageAt_of_strAt storage s _ _ h2
          have e3 := storageAt_of_strAt storage s _ _ h3
          rw [← hc, ← e0, ← e1, ← e2, ← e3]
          rfl

theorem decodeUTF8CharWithin_three (storage : Nat → Byte) (s : List Byte) (i chr : Nat)
    (hc : decodeUTF8Char s i 3 = .ok chr) : decodeUTF8CharWithin storage s i 3 = chr := by
  have hdef : decodeUTF8Char s i 3 = (strAt s i >>= fun b0 => strAt s (i + 1) >>= fun b1 =>
      strAt s (i + 2) >>= fun b2 =>
        pure (((0 ||| ((b0.val &&& 0x0F) <<< 12)) ||| ((b1.val &&& 0x3F) <<< 6))
          ||| (b2.val &&& 0x3F))) := rfl
  rw [hdef] at hc
  cases h0 : strAt s i with
  | error e => rw [h0] at hc; cases hc
  | ok b0 =>
    cases h1 : strAt s (i + 1) with
    | error e => rw [h0, h1] at hc; cases hc
    | ok b1 =>
      cases h2 : strAt s (i + 2) with
      | error e => rw [h0, h1, h2] at hc; cases hc
      | ok b2 =>
        rw [h0, h1, h2] at hc
        simp only [bind, Except.bind, pure, Except.pure, Except.ok.injEq] at hc
        have e0 := storageAt_of_strAt storage s _ _ h0
        have e1 := storageAt_of_strAt storage s _ _ h1
        have e2 := storageAt_of_strAt storage s _ _ h2
        rw [← hc, ← e0, ← e1, ← e2]
        rfl

theorem decodeUTF8CharWithin_two (storage : Nat → Byte) (s : List Byte) (i chr : Nat)
    (hc : decodeUTF8Char s i 2 = .ok chr) : decodeUTF8CharWithin storage s i 2 = chr := by
  have hdef : decodeUTF8Char s i 2 = (strAt s i >>= fun b0 => strAt s (i + 1) >>= fun b1 =>
      pure ((0 ||| ((b0.val &&& 0x1F) <<< 6)) ||| (b1.val &&& 0x3F))) := rfl
  rw [hdef] at hc
  cases h0 : strAt s i with
  | error e => rw [h0] at hc; cases hc
  | ok b0 =>
    cases h1 : strAt s (i + 1) with
    | error e => rw [h0, h1] at hc; cases hc
    | ok b1 =>
      rw [h0, h1] at hc
      simp only [bind, Except.bind, pure, Except.pure, Except.ok.injEq] at hc
      have e0 := storageAt_of_strAt storage s _ _ h0
      have e1 := storageAt_of_strAt storage s _ _ h1
      rw [← hc, ← e0, ← e1]
      rfl

theorem decodeUTF8CharWithin_one (storage : Nat → Byte) (s : List Byte) (i chr : Nat)
    (hc : decodeUTF8Char s i 1 = .ok chr) : decodeUTF8CharWithin storage s i 1 = chr := by
  have hdef : decodeUTF8Char s i 1 = (strAt s i >>= fun b0 => pure (b0.val &&& 0x7F)) := rfl
  rw [hdef] at hc
  cases h0 : strAt s i with
  | error e => rw [h0] at hc; cases hc
  | ok b0 =>
    rw [h0] at hc
    simp only [bind, Except.bind, pure, Except.pure, Except.ok.injEq] at hc
    have e0 := storageAt_of_strAt storage s _ _ h0
    rw [← hc, ← e0]
    rfl

theorem decodeUTF8CharWithin_of_char (storage : Nat → Byte) (s : List Byte) (i chr : Nat)
    (b : Byte) (hc : decodeUTF8Char s i (sequenceLength b) = .ok chr) :
    decodeUTF8CharWithin storage s i (sequenceLength b) = chr := by
  rcases sequenceLength_cases b with h | h | h | h
  · rw [h] at hc ⊢
    exact decodeUTF8CharWithin_four storage s i chr hc
  · rw [h] at hc ⊢
    exact decodeUTF8CharWithin_three storage s i chr hc
  · rw [h] at hc ⊢
    exact decodeUTF8CharWithin_two storage s i chr hc
  · rw [h] at hc ⊢
    exact decodeUTF8CharWithin_one storage s i chr hc

theorem decodeUTF8LoopWithin_of_loop (storage : Nat → Byte) (s : List Byte) :
    ∀ (fuel i : Nat) (dst out : List U32), decodeUTF8Loop s fuel i dst = .ok out →
      decodeUTF8LoopWithin storage s fuel i dst = .ok out := by
  intro fuel
  induction fuel with
  | zero =>
    intro i dst out ho
    cases ho
  | succ n ih =>
    intro i dst out ho
    by_cases hi : i < s.length
    · rw [decodeUTF8Loop_unfold s n i dst hi] at ho
      rw [decodeUTF8LoopWithin_unfold storage s n i dst hi]
      cases hl : strAt s i with
      | error e =>
        rw [hl] at ho
        cases ho
      | ok lead =>
        rw [hl] at ho
        rw [storageAt_of_strAt storage s i lead hl]
        have hstep : (if (i + 4294967296 - s.length) % 4294967296 ≥ sequenceLength lead
            then decodeUTF8Char s i (sequenceLength lead) >>= fun chr =>
              decodeUTF8Loop s n (i + sequenceLength lead) (dst ++ [U32.ofNat chr])
            else pure dst) = .ok out := ho
        by_cases hg : (i + 4294967296 - s.length) % 4294967296 ≥ sequenceLength lead
        · rw [if_pos hg] at hstep
          rw [if_pos hg]
          cases hc : decodeUTF8Char s i (sequenceLength lead) with
          | error e =>
            rw [hc] at hstep
            cases hstep
          | ok chr =>
            rw [hc] at hstep
            rw [decodeUTF8CharWithin_of_char storage s i chr lead hc]
            exact ih _ _ _ hstep
        · rw [if_neg hg] at hstep
          rw [if_neg hg]
          exact hstep
    · rw [decodeUTF8Loop_done s n i dst hi] at ho
      rw [decodeUTF8LoopWithin_done storage s n i dst hi]
      exact ho

/-- Claim C30: `String::decodeUTF8` terminates on every byte string, whatever bytes lie
behind its terminating zero byte: the loop needs at most `_size + 1` iterations and the
call returns. An iteration at a position inside the string either stops or reads a
sequence length of 1 to 4 off the lead byte, advances the position by it and appends one
code point; so the call appends at most `_size` code points, each of them below 0x200000.
Where the decoder that reports a read behind the terminator as a fault returns, this one
returns the same code points. -/
theorem decodeUTF8_terminates (storage : Nat → Byte) (str : List Byte) (dst : List U32) :
    (∃ app : List U32, decodeUTF8Within storage str dst = .ok (dst ++ app) ∧
      app.length ≤ str.length ∧ ∀ c ∈ app, c.val < 0x200000) ∧
    (∀ (fuel i : Nat) (d : List U32), i < str.length →
      1 ≤ sequenceLength (storageAt storage str i) ∧
      sequenceLength (storageAt storage str i) ≤ 4 ∧
      (decodeUTF8LoopWithin storage str (fuel + 1) i d = .ok d ∨
        decodeUTF8LoopWithin storage str (fuel + 1) i d
          = decodeUTF8LoopWithin storage str fuel
              (i + sequenceLength (storageAt storage str i))
              (d ++ [U32.ofNat (decodeUTF8CharWithin storage str i
                (sequenceLength (storageAt storage str i)))]))) ∧
    (∀ (i num : Nat), decodeUTF8CharWithin storage str i num < 0x200000) ∧
    (∀ out, decodeUTF8 str dst = .ok out → decodeUTF8Within storage str dst = .ok out) := by
  refine ⟨?_, ?_, decodeUTF8CharWithin_lt storage str, ?_⟩
  · obtain ⟨app, happ, hlen, hall⟩ :=
      decodeUTF8LoopWithin_returns storage str (str.length + 1) 0 dst (by omega)
    exact ⟨app, happ, by omega, hall⟩
  · intro fuel i d hi
    refine ⟨(sequenceLength_bounds _).1, (sequenceLength_bounds _).2, ?_⟩
    rw [decodeUTF8LoopWithin_unfold storage str fuel i d hi]
    by_cases hg : (i + 4294967296 - str.length) % 4294967296
        ≥ sequenceLength (storageAt storage str i)
    · rw [if_pos hg]
      exact Or.inr rfl
    · rw [if_neg hg]
      exact Or.inl rfl
  · intro out ho
    exact decodeUTF8LoopWithin_of_loop storage str (str.length + 1) 0 dst out ho

theorem decodeUTF8_terminates_witness :
    decodeUTF8Within (fun _ => 0xAA) [0x41, 0xFF, 0xC3, 0xA9, 0x80] []
      = .ok [0x41, 0x7F, 0xE9, 0] ∧
    decodeUTF8Within (fun _ => 0xAA) [0xE0] [] = .ok [0x2A] ∧
    decodeUTF8Within (fun _ => 0xAA) [0x41, 0xF0] [] = .ok [0x41, 0xAAA] ∧
    ∃ app : List U32, decodeUTF8Within (fun _ => 0xAA) [0x41, 0xF0] [] = .ok ([] ++ app) ∧
      app.length ≤ 2 ∧ ∀ c ∈ app, c.val < 0x200000 :=
  ⟨rfl, rfl, rfl, (decodeUTF8_terminates (fun _ => 0xAA) [0x41, 0xF0] []).1⟩

theorem encodeLoop_null (h : Host) (t : Table) (i n : Nat) :
    encodeLoop h t none i (n + 1) = .error .nullDeref := by
  unfold encodeLoop
  rfl

/-- Claim C21, evaluated on the code: in the encode path of `convertConversionTable` (a
table for the destination name, none for the source name), when the nested conversion to
"utf-32" returns no result the pivot pointer is not tested. With at least one element to
write the scan reads through the null pointer; with none, a buffer of one zero byte is
returned; no result is returned only when the allocation of the final buffer fails. -/
theorem encode_path_reads_missing_pivot (h : Host)
    (convert : String → String → List Byte → Nat → Result)
    (toName fromName : String) (string : List Byte) (length : Nat) (t : Table)
    (hfrom : lookupTable h fromName = none) (hto : lookupTable h toName = some t)
    (hpivot : convert "utf-32" fromName string length = .ok none) :
    (h.allocates (encodeCount fromName length + 1) = true →
      0 < encodeCount fromName length →
      convertConversionTable h convert toName fromName string length
        = .error .nullDeref) ∧
    (h.allocates (encodeCount fromName length + 1) = true →
      encodeCount fromName length = 0 →
      convertConversionTable h convert toName fromName string length = .ok (some [0])) ∧
    (convertConversionTable h convert toName fromName string length = .ok none ↔
      h.allocates (encodeCount fromName length + 1) = false) := by
  have hcct := cct_encode_any h convert toName fromName string length t hfrom hto
  rw [hpivot] at hcct
  have hbody : convertConversionTable h convert toName fromName string length
      = if !h.allocates (encodeCount fromName length + 1) then .ok none
        else (encodeLoop h t none 0 (encodeCount fromName length)).map
          (fun e => some (e ++ zeros 1)) := hcct
  rw [hbody]
  cases ha : h.allocates (encodeCount fromName length + 1)
  · simp only [Bool.not_false, if_true]
    exact ⟨nofun, nofun, trivial⟩
  · simp only [Bool.not_true, Bool.false_eq_true, if_false]
    cases hn : encodeCount fromName length with
    | zero =>
      refine ⟨fun _ hpos => absurd hpos (by omega), fun _ _ => rfl, ?_⟩
      exact ⟨nofun, nofun⟩
    | succ n =>
      rw [encodeLoop_null]
      refine ⟨fun _ _ => rfl, fun _ hz => absurd hz (by omega), ?_⟩
      exact ⟨nofun, nofun⟩

theorem encode_path_reads_missing_pivot_witness :
    convert exampleHost 1 "utf-32" "ascii" [0x41, 0] 1 = .ok none ∧
    convertConversionTable exampleHost (convert exampleHost 1) "cp850" "ascii" [0x41, 0] 1
      = .error .nullDeref ∧
    convertConversionTable exampleHost (convert exampleHost 1) "cp850" "ascii" [0] 0
      = .ok (some [0]) ∧
    convert exampleHost 2 "cp850" "ascii" [0x41, 0] 1 = .error .nullDeref ∧
    convert exampleHost 2 "cp850" "ascii" [0] 0 = .ok (some [0]) :=
  ⟨rfl,
    (encode_path_reads_missing_pivot exampleHost (convert exampleHost 1) "cp850" "ascii"
      [0x41, 0] 1 (fun b => U32.ofNat b.val) rfl rfl rfl).1 rfl (by decide),
    (encode_path_reads_missing_pivot exampleHost (convert exampleHost 1) "cp850" "ascii"
      [0] 0 (fun b => U32.ofNat b.val) rfl rfl rfl).2.1 rfl rfl,
    rfl, rfl⟩
theorem transliterateCyrillicByte_eq (b : Byte) :
    transliterateCyrillicByte b = .ok (transliteratedByte b) := by
  unfold transliterateCyrillicByte transliteratedByte
  by_cases hb : b.val ≥ 160
  · have hlt := b.isLt
    rw [if_pos hb, if_pos hb, (cyrillicAt_eq (b.val - 160) (by omega)).1]
    rfl
  · rw [if_neg hb, if_neg hb]
    rfl

theorem transliterateCyrillicLoop_eq :
    ∀ (data pre tail : List Byte) (i : Nat), pre.length = i →
      transliterateCyrillicLoop (pre ++ data ++ tail) i data.length
        = .ok (data.map transliteratedByte) := by
  intro data
  induction data with
  | nil => intro pre tail i _; rfl
  | cons b rest ih =>
    intro pre tail i hpre
    have hsplit : pre ++ b :: rest ++ tail = pre ++ b :: (rest ++ tail) := by simp
    have hnext : pre ++ b :: rest ++ tail = (pre ++ [b]) ++ rest ++ tail := by simp
    have hrec := ih (pre ++ [b]) tail (i + 1) (by simp [hpre])
    have hbyte : byteAt (pre ++ b :: rest ++ tail) i = .ok b := by
      unfold byteAt
      rw [hsplit, getElem?_mid pre b _ i hpre.symm]
    rw [List.length_cons, transliterateCyrillicLoop, hbyte]
    show (transliterateCyrillicByte b >>= fun out =>
      transliterateCyrillicLoop (pre ++ b :: rest ++ tail) (i + 1) rest.length >>= fun r =>
        pure (out :: r)) = _
    rw [transliterateCyrillicByte_eq, hnext, hrec]
    rfl

theorem strlen_nonzero : ∀ (data rest : List Byte), (∀ b ∈ data, b.val ≠ 0) →
    strlen (data ++ 0 :: rest) = .ok data.length
  | [], rest, _ => rfl
  | b :: data, rest, hall => by
    have hb := hall b (List.mem_cons_self b data)
    have ih := strlen_nonzero data rest (fun d hd => hall d (List.mem_cons_of_mem b hd))
    simp only [List.cons_append, strlen, hb, if_false]
    show Except.map (fun x => x + 1) (strlen (data ++ 0 :: rest)) = _
    rw [ih]
    rfl

theorem transliterateCyrillic_eq (h : Host) (data rest : List Byte)
    (hnz : ∀ b ∈ data, b.val ≠ 0) (ha : h.allocates (data.length + 1) = true) :
    transliterateCyrillic h (data ++ 0 :: rest)
      = .ok (some (data.map transliteratedByte ++ [0])) := by
  unfold transliterateCyrillic
  rw [strlen_nonzero data rest hnz]
  show (if !h.allocates (data.length + 1) then pure none
    else transliterateCyrillicLoop (data ++ 0 :: rest) 0 (data.length + 1) >>= fun out =>
      pure (some out)) = _
  rw [ha]
  have hloop := transliterateCyrillicLoop_eq (data ++ [0]) [] rest 0 rfl
  have hstr : [] ++ (data ++ [0]) ++ rest = data ++ 0 :: rest := by simp
  rw [hstr, List.length_append, List.length_singleton] at hloop
  simp only [Bool.not_true, Bool.false_eq_true, if_false]
  rw [hloop, List.map_append]
  rfl
theorem prefix_utf_of_family (s : String)
    (hs : hasPrefixIgnoreCase s "utf-16" = true ∨ hasPrefixIgnoreCase s "utf-32" = true) :
    hasPrefixIgnoreCase s "utf" = true := by
  unfold hasPrefixIgnoreCase at *
  simp only [List.isPrefixOf_iff_prefix] at *
  rcases hs with hs | hs
  · exact List.IsPrefix.trans (by decide) hs
  · exact List.IsPrefix.trans (by decide) hs

theorem not_utf_not_family (s : String) (hs : hasPrefixIgnoreCase s "utf" = false) :
    hasPrefixIgnoreCase s "utf-16" = false ∧ hasPrefixIgnoreCase s "utf-32" = false := by
  constructor
  · cases h16 : hasPrefixIgnoreCase s "utf-16"
    · rfl
    · rw [prefix_utf_of_family s (Or.inl h16)] at hs
      cases hs
  · cases h32 : hasPrefixIgnoreCase s "utf-32"
    · rfl
    · rw [prefix_utf_of_family s (Or.inr h32)] at hs
      cases hs

theorem equal_names_agree_on_prefixes (a b x : String) (he : equalsIgnoreCase a b = true) :
    hasPrefixIgnoreCase a x = hasPrefixIgnoreCase b x := by
  unfold equalsIgnoreCase at he
  rw [beq_iff_eq] at he
  unfold hasPrefixIgnoreCase
  rw [he]

theorem utf_source_other_target (toName fromName : String)
    (hutf : hasPrefixIgnoreCase fromName "utf" = true)
    (hto : hasPrefixIgnoreCase toName "utf" = false) :
    equalsIgnoreCase fromName toName = false ∧
    (hasPrefixIgnoreCase toName "utf-16" && hasPrefixIgnoreCase fromName "utf-16" ||
      hasPrefixIgnoreCase toName "utf-32" && hasPrefixIgnoreCase fromName "utf-32") = false ∧
    equalsIgnoreCase fromName "iso-8859-5" = false := by
  obtain ⟨h16, h32⟩ := not_utf_not_family toName hto
  refine ⟨?_, by rw [h16, h32]; rfl, ?_⟩
  · cases he : equalsIgnoreCase fromName toName
    · rfl
    · rw [equal_names_agree_on_prefixes fromName toName "utf" he, hto] at hutf
      cases hutf
  · cases he : equalsIgnoreCase fromName "iso-8859-5"
    · rfl
    · rw [iso_not_utf fromName he] at hutf
      cases hutf

theorem body_iso_source (h : Host) (convert : String → String → List Byte → Nat → Result)
    (toName fromName : String) (string : List Byte) (length : Nat)
    (hne : equalsIgnoreCase fromName toName = false)
    (hiso : equalsIgnoreCase fromName "iso-8859-5" = true)
    (hto : hasPrefixIgnoreCase toName "utf" = false) :
    convertWithTransliterationBody h convert toName fromName string length
      = (transliterateCyrillic h string).bind (fun r =>
          match r with
          | none => .ok none
          | some s => conversion h convert toName "ASCII" s length) := by
  obtain ⟨h16, h32⟩ := not_utf_not_family toName hto
  have hutf := iso_not_utf fromName hiso
  unfold convertWithTransliterationBody
  simp only [hne, hiso, hto, hutf, h16, h32, Bool.false_eq_true, if_false, if_true,
    Bool.false_and, Bool.or_false, Bool.not_false, Bool.and_true, Bool.true_and]
  cases htr : transliterateCyrillic h string with
  | error e => rfl
  | ok r =>
    cases r with
    | none => rfl
    | some s => rfl

theorem body_utf_source (h : Host) (convert : String → String → List Byte → Nat → Result)
    (toName fromName : String) (string : List Byte) (length : Nat)
    (hutf : hasPrefixIgnoreCase fromName "utf" = true)
    (hto : hasPrefixIgnoreCase toName "utf" = false)
    (htoiso : equalsIgnoreCase toName "iso-8859-5" = false)
    (h32 : hasPrefixIgnoreCase fromName "utf-32" = false) :
    convertWithTransliterationBody h convert toName fromName string length
      = (conversion h convert "UTF-32" fromName string length).bind (fun r =>
          match r with
          | none => .ok none
          | some tmpString =>
            (utf32Terminator h tmpString 0 (tmpString.length / 4 + 1)).bind (fun i =>
              (transliterateUTF32 h tmpString (i * 4)).bind (fun r =>
                match r with
                | none => .ok none
                | some s => conversion h convert toName "UTF-32" s (i * 4)))) := by
  obtain ⟨hne, hfam, hiso⟩ := utf_source_other_target toName fromName hutf hto
  obtain ⟨h16, h32'⟩ := not_utf_not_family toName hto
  unfold convertWithTransliterationBody
  simp only [hne, hiso, hto, hutf, h16, h32', h32, htoiso, Bool.false_eq_true, if_false,
    if_true, Bool.false_and, Bool.or_false, Bool.not_false, Bool.and_true, Bool.true_and]
  cases hpivot : conversion h convert "UTF-32" fromName string length with
  | error e => rfl
  | ok r =>
    cases r with
    | none => rfl
    | some tmp =>
      cases hterm : utf32Terminator h tmp 0 (tmp.length / 4 + 1) with
      | error e => rfl
      | ok i =>
        cases htr : transliterateUTF32 h tmp (i * 4) with
        | error e => rfl
        | ok r =>
          cases r with
          | none => rfl
          | some s => rfl
theorem body_identity (h : Host) (convert : String → String → List Byte → Nat → Result)
    (toName fromName : String) (string : List Byte) (length : Nat)
    (heq : equalsIgnoreCase fromName toName = true) :
    convertWithTransliterationBody h convert toName fromName string length
      = copyString h string length := by
  unfold convertWithTransliterationBody
  rw [if_pos heq]

theorem body_without_utf_prepass (h : Host)
    (convert : String → String → List Byte → Nat → Result)
    (toName fromName : String) (string : List Byte) (length : Nat)
    (hguard : (hasPrefixIgnoreCase fromName "utf" && !hasPrefixIgnoreCase toName "utf" &&
      !equalsIgnoreCase toName "iso-8859-5") = false) :
    convertWithTransliterationBody h convert toName fromName string length
      = if equalsIgnoreCase fromName toName then copyString h string length
        else if (hasPrefixIgnoreCase toName "utf-16" && hasPrefixIgnoreCase fromName "utf-16" ||
            hasPrefixIgnoreCase toName "utf-32" && hasPrefixIgnoreCase fromName "utf-32") then
          if resolvesBigEndian h fromName = resolvesBigEndian h toName
          then copyString h string length
          else if hasPrefixIgnoreCase toName "utf-16" then switchEndian h string length 16
          else switchEndian h string length 32
        else if equalsIgnoreCase fromName "iso-8859-5" && !hasPrefixIgnoreCase toName "utf" then
          (transliterateCyrillic h string).bind (fun r =>
            match r with
            | none => .ok none
            | some s => conversion h convert toName "ASCII" s length)
        else conversion h convert toName fromName string length := by
  cases heq : equalsIgnoreCase fromName toName
  · have hne : equalsIgnoreCase toName fromName = false := by
      rw [equalsIgnoreCase_comm]
      exact heq
    cases hfam : (hasPrefixIgnoreCase toName "utf-16" && hasPrefixIgnoreCase fromName "utf-16" ||
        hasPrefixIgnoreCase toName "utf-32" && hasPrefixIgnoreCase fromName "utf-32")
    · simp only [Bool.false_eq_true, if_false]
      cases hiso : equalsIgnoreCase fromName "iso-8859-5"
      · simp only [Bool.false_and, Bool.false_eq_true, if_false]
        unfold convertWithTransliterationBody
        simp only [heq, hfam, hiso, hguard, Bool.false_eq_true, if_false, Bool.false_and]
        rfl
      · cases hto : hasPrefixIgnoreCase toName "utf"
        · simp only [Bool.not_false, Bool.and_true, if_true]
          exact body_iso_source h convert toName fromName string length heq hiso hto
        · simp only [Bool.not_true, Bool.and_false, Bool.false_eq_true, if_false]
          have hutf := iso_not_utf fromName hiso
          unfold convertWithTransliterationBody
          simp only [heq, hfam, hiso, hto, hutf, Bool.false_eq_true, if_false, Bool.false_and,
            Bool.not_true, Bool.and_false]
          rfl
    · simp only [Bool.false_eq_true, if_false, if_true]
      exact family_switch h convert toName fromName string length hne hfam
  · simp only [if_true]
    exact body_identity h convert toName fromName string length heq
theorem transliteratedCodePoint_inside (c : U32) (hlo : 0x410 ≤ c.val) (hhi : c.val ≤ 0x450) :
    transliteratedCodePoint c
      = U32.ofNat (g_cyrillicTransliterationTable.getD (c.val - 0x400) ' ').toNat := by
  unfold transliteratedCodePoint
  rw [if_pos ⟨hlo, hhi⟩]

/-- Claim C22, as amended: applied to `n` code points in host byte order followed by a
zero element, with length `4n`, `transliterateUTF32` returns the `n` code points and the
terminator with every code point of 0x410..0x450 replaced by
`g_cyrillicTransliterationTable[c - 0x400]` (0x410 by 'A', 0x430 by 'a') and every other
one unchanged. An invocation of the dispatcher whose source name has the prefix "utf" and
whose destination name neither has it nor equals "iso-8859-5" applies it to the input
itself for a source name with the prefix "utf-32", and otherwise to the result of the
conversion of the input to "UTF-32", provided that conversion returned a result; if it
returned none the invocation returns no result. An invocation with any other pair of names
does not call it: whatever the nested invocations `convert` do, its result is that of the
copy, the endianness swap, the Cyrillic pre-pass or the plain conversion. Every invocation
is the body with the nested invocations as `convert`, so a nested invocation with a source
name "utf-32" applies it in its turn. -/
theorem utf32_transliteration_prepass (h : Host)
    (convert : String → String → List Byte → Nat → Result) (toName fromName : String)
    (string : List Byte) (length : Nat) :
    (h.allocationSucceeds → ∀ (cps : List U32) (tail : List Byte),
      transliterateUTF32 h (utf32Bytes h.bigEndian (cps ++ [0]) ++ tail) (4 * cps.length)
        = .ok (some (utf32Bytes h.bigEndian (cps.map transliteratedCodePoint ++ [0]))) ∧
      (cps.map transliteratedCodePoint).length = cps.length) ∧
    (∀ c : U32, 0x410 ≤ c.val → c.val ≤ 0x450 →
      transliteratedCodePoint c
        = U32.ofNat (g_cyrillicTransliterationTable.getD (c.val - 0x400) ' ').toNat) ∧
    (∀ c : U32, ¬ (0x410 ≤ c.val ∧ c.val ≤ 0x450) → transliteratedCodePoint c = c) ∧
    transliteratedCodePoint 0x410 = U32.ofNat 'A'.toNat ∧
    transliteratedCodePoint 0x430 = U32.ofNat 'a'.toNat ∧
    ((hasPrefixIgnoreCase fromName "utf" && !hasPrefixIgnoreCase toName "utf" &&
        !equalsIgnoreCase toName "iso-8859-5") = true →
      hasPrefixIgnoreCase fromName "utf-32" = true →
      convertWithTransliterationBody h convert toName fromName string length
        = (transliterateUTF32 h string length).bind (fun r =>
            match r with
            | none => .ok none
            | some s => conversion h convert toName fromName s length)) ∧
    ((hasPrefixIgnoreCase fromName "utf" && !hasPrefixIgnoreCase toName "utf" &&
        !equalsIgnoreCase toName "iso-8859-5") = true →
      hasPrefixIgnoreCase fromName "utf-32" = false →
      convertWithTransliterationBody h convert toName fromName string length
        = (conversion h convert "UTF-32" fromName string length).bind (fun r =>
            match r with
            | none => .ok none
            | some tmpString =>
              (utf32Terminator h tmpString 0 (tmpString.length / 4 + 1)).bind (fun i =>
                (transliterateUTF32 h tmpString (i * 4)).bind (fun r =>
                  match r with
                  | none => .ok none
                  | some s => conversion h convert toName "UTF-32" s (i * 4))))) ∧
    ((hasPrefixIgnoreCase fromName "utf" && !hasPrefixIgnoreCase toName "utf" &&
        !equalsIgnoreCase toName "iso-8859-5") = false →
      convertWithTransliterationBody h convert toName fromName string length
        = if equalsIgnoreCase fromName toName then copyString h string length
          else if (hasPrefixIgnoreCase toName "utf-16" && hasPrefixIgnoreCase fromName "utf-16"
              || hasPrefixIgnoreCase toName "utf-32" && hasPrefixIgnoreCase fromName "utf-32")
          then
            if resolvesBigEndian h fromName = resolvesBigEndian h toName
            then copyString h string length
            else if hasPrefixIgnoreCase toName "utf-16" then switchEndian h string length 16
            else switchEndian h string length 32
          else if equalsIgnoreCase fromName "iso-8859-5" && !hasPrefixIgnoreCase toName "utf"
          then
            (transliterateCyrillic h string).bind (fun r =>
              match r with
              | none => .ok none
              | some s => conversion h convert toName "ASCII" s length)
          else conversion h convert toName fromName string length) ∧
    (∀ fuel : Nat, convertWithTransliteration h (fuel + 1)
      = convertWithTransliterationBody h (convertWithTransliteration h fuel)) := by
  refine ⟨?_, transliteratedCodePoint_inside, transliteratedCodePoint_outside, rfl, rfl,
    ?_, ?_, ?_, fun _ => rfl⟩
  · intro ha cps tail
    refine ⟨?_, List.length_map _ _⟩
    rw [transliterateUTF32_eq h ha cps 0 tail, utf32Bytes_append]
    rfl
  · intro hguard h32
    simp only [Bool.and_eq_true, Bool.not_eq_true'] at hguard
    obtain ⟨⟨hutf, hto⟩, htoiso⟩ := hguard
    obtain ⟨hne, _, hiso⟩ := utf_source_other_target toName fromName hutf hto
    obtain ⟨h16, h32'⟩ := not_utf_not_family toName hto
    exact body_utf32_source h _ toName fromName string length hne hto h16 h32' htoiso hiso
      hutf h32
  · intro hguard h32
    simp only [Bool.and_eq_true, Bool.not_eq_true'] at hguard
    obtain ⟨⟨hutf, hto⟩, htoiso⟩ := hguard
    exact body_utf_source h _ toName fromName string length hutf hto htoiso h32
  · intro hguard
    exact body_without_utf_prepass h _ toName fromName string length hguard

set_option maxRecDepth 100000 in
theorem utf32_transliteration_prepass_witness :
    transliterateUTF32 exampleHost (utf32Bytes false [0x410, 0x42, 0x430, 0]) 12
      = .ok (some (utf32Bytes false [0x41, 0x42, 0x61, 0])) ∧
    convertWithTransliteration exampleHost 3 "cp850" "UTF-32"
        (utf32Bytes false [0x410, 0x42, 0]) 8
      = (transliterateUTF32 exampleHost (utf32Bytes false [0x410, 0x42, 0]) 8).bind (fun r =>
          match r with
          | none => .ok none
          | some s => conversion exampleHost (convertWithTransliteration exampleHost 2) "cp850"
              "UTF-32" s 8) ∧
    convertWithTransliteration exampleHost 3 "cp850" "UTF-32"
        (utf32Bytes false [0x410, 0x42, 0]) 8 = .ok (some [0x41, 0x42, 0]) ∧
    (hasPrefixIgnoreCase "cp437" "utf" && !hasPrefixIgnoreCase "cp850" "utf" &&
      !equalsIgnoreCase "cp850" "iso-8859-5") = false ∧
    convertWithTransliteration overlappingHost 3 "cp850" "cp437" [0x81] 1
      = conversion overlappingHost (convertWithTransliteration overlappingHost 2) "cp850"
          "cp437" [0x81] 1 ∧
    convertWithTransliteration overlappingHost 3 "cp850" "cp437" [0x81] 1
      = .ok (some [0x41, 0]) := by
  refine ⟨?_, ?_, rfl, rfl, ?_, rfl⟩
  · have hw := ((utf32_transliteration_prepass exampleHost (convert exampleHost 0) "" "" []
      0).1 exampleHost_facts.1 [0x410, 0x42, 0x430] []).1
    exact hw
  · exact (utf32_transliteration_prepass exampleHost (convertWithTransliteration exampleHost 2)
      "cp850" "UTF-32" (utf32Bytes false [0x410, 0x42, 0]) 8).2.2.2.2.2.1 rfl rfl
  · exact (utf32_transliteration_prepass overlappingHost
      (convertWithTransliteration overlappingHost 2) "cp850" "cp437" [0x81]
      1).2.2.2.2.2.2.2.1 rfl

/-- Claim C22 fails as stated: the source name "UTF-8" has the prefix "utf" and the
destination name "cp850" neither has it nor equals "iso-8859-5", but on a host without
external converters the conversion of the input to "UTF-32" returns nothing and the
dispatcher returns no result; `transliterateUTF32` is not applied, and the Cyrillic
letter U+0410 of the input is not transliterated. With the source name "UTF-32" the same
letter is transliterated to 'A'. -/
theorem utf8_source_counterexample :
    (hasPrefixIgnoreCase "UTF-8" "utf" && !hasPrefixIgnoreCase "cp850" "utf" &&
      !equalsIgnoreCase "cp850" "iso-8859-5") = true ∧
    conversion exampleHost (convertWithTransliteration exampleHost 1) "UTF-32" "UTF-8"
      [0xD0, 0x90, 0] 2 = .ok none ∧
    convertWithTransliteration exampleHost 2 "cp850" "UTF-8" [0xD0, 0x90, 0] 2 = .ok none ∧
    convertWithTransliteration exampleHost 3 "cp850" "UTF-32" (utf32Bytes false [0x410, 0]) 4
      = .ok (some [0x41, 0]) :=
  ⟨rfl, rfl, rfl, rfl⟩
/-- Claim C23, as amended: when the source name equals "iso-8859-5" ignoring case and the
destination name neither has the prefix "utf" nor equals the source name, the dispatcher
replaces the input by `transliterateCyrillic(input)` and goes on with the source name
"ASCII" and the length it was given. For an input of `n` non-zero bytes followed by a zero
byte (the allocation of `n + 1` bytes succeeding) `transliterateCyrillic` returns `n`
bytes and the terminator, every byte `b` of 160..255 replaced by
`g_cyrillicTransliterationTable[b - 160]` and every byte below 160 unchanged. -/
theorem cyrillic_prepass_replaces_input (h : Host) (fuel : Nat) (toName fromName : String)
    (data rest : List Byte) (length : Nat)
    (hiso : equalsIgnoreCase fromName "iso-8859-5" = true)
    (hto : hasPrefixIgnoreCase toName "utf" = false)
    (hne : equalsIgnoreCase fromName toName = false)
    (hnz : ∀ b ∈ data, b.val ≠ 0)
    (ha : h.allocates (data.length + 1) = true) :
    transliterateCyrillic h (data ++ 0 :: rest)
      = .ok (some (data.map transliteratedByte ++ [0])) ∧
    (data.map transliteratedByte).length = data.length ∧
    (∀ b : Byte, 160 ≤ b.val →
      transliteratedByte b
        = Byte.ofNat (g_cyrillicTransliterationTable.getD (b.val - 160) ' ').toNat) ∧
    (∀ b : Byte, b.val < 160 → transliteratedByte b = b) ∧
    convertWithTransliteration h (fuel + 1) toName fromName (data ++ 0 :: rest) length
      = conversion h (convertWithTransliteration h fuel) toName "ASCII"
          (data.map transliteratedByte ++ [0]) length := by
  have htr := transliterateCyrillic_eq h data rest hnz ha
  refine ⟨htr, List.length_map _ _, ?_, ?_, ?_⟩
  · intro b hb
    unfold transliteratedByte
    rw [if_pos hb]
  · intro b hb
    unfold transliteratedByte
    rw [if_neg (by omega)]
  · show convertWithTransliterationBody h _ toName fromName (data ++ 0 :: rest) length = _
    rw [body_iso_source h _ toName fromName _ length hne hiso hto, htr]
    rfl

theorem sample_bytes_nonzero : ∀ b ∈ ([0xB0, 0x41, 0xD0] : List Byte), b.val ≠ 0 := by
  intro b hb
  simp only [List.mem_cons, List.mem_singleton, List.not_mem_nil, or_false] at hb
  rcases hb with rfl | rfl | rfl <;> decide

theorem cyrillic_prepass_replaces_input_witness :
    transliterateCyrillic copyingIconvHost [0xB0, 0x41, 0xD0, 0]
      = .ok (some [0x41, 0x41, 0x61, 0]) ∧
    convertWithTransliteration copyingIconvHost 1 "ASCII" "ISO-8859-5" [0xB0, 0x41, 0xD0, 0] 3
      = conversion copyingIconvHost (convertWithTransliteration copyingIconvHost 0) "ASCII"
          "ASCII" [0x41, 0x41, 0x61, 0] 3 ∧
    convertWithTransliteration copyingIconvHost 1 "ASCII" "ISO-8859-5" [0xB0, 0x41, 0xD0, 0] 3
      = .ok (some [0x41, 0x41, 0x61, 0, 0, 0, 0]) :=
  ⟨(cyrillic_prepass_replaces_input copyingIconvHost 0 "ASCII" "ISO-8859-5" [0xB0, 0x41, 0xD0]
      [] 3 rfl rfl rfl sample_bytes_nonzero rfl).1,
    (cyrillic_prepass_replaces_input copyingIconvHost 0 "ASCII" "ISO-8859-5" [0xB0, 0x41, 0xD0]
      [] 3 rfl rfl rfl sample_bytes_nonzero rfl).2.2.2.2,
    rfl⟩

/-- Claim C23 fails as stated: the destination name "ISO-8859-5" has no prefix "utf" and
the source name "iso-8859-5" equals "iso-8859-5" ignoring case, but the two names are
equal ignoring case, so the dispatcher returns a copy of the input: the byte 0xB0 is not
transliterated and no conversion from "ASCII" takes place, whereas the conversion of the
transliterated input from "ASCII" gives the byte 0x41. -/
theorem same_name_cyrillic_counterexample :
    equalsIgnoreCase "iso-8859-5" "iso-8859-5" = true ∧
    hasPrefixIgnoreCase "ISO-8859-5" "utf" = false ∧
    convertWithTransliteration copyingIconvHost 1 "ISO-8859-5" "iso-8859-5" [0xB0, 0] 1
      = .ok (some [0xB0, 0, 0, 0, 0]) ∧
    transliterateCyrillic copyingIconvHost [0xB0, 0] = .ok (some [0x41, 0]) ∧
    conversion copyingIconvHost (convertWithTransliteration copyingIconvHost 0) "ISO-8859-5"
      "ASCII" [0x41, 0] 1 = .ok (some [0x41, 0, 0, 0, 0]) :=
  ⟨rfl, rfl, rfl, rfl, rfl⟩
theorem low_byte_or (key i : Nat) (hi : i < 256) :
    ((key &&& 0xFF00) ||| i) &&& 0xFF = i ∧
    ((key &&& 0xFF00) ||| i) &&& 0xFF00 = key &&& 0xFF00 := by
  have hmask : i &&& 0xFF = i := by
    have := Nat.and_pow_two_sub_one_eq_mod i 8
    have h255 : (2 ^ 8 - 1 : Nat) = 0xFF := by decide
    rw [h255] at this
    rw [this]
    exact Nat.mod_eq_of_lt hi
  have hz1 : (0xFF00 : Nat) &&& 0xFF = 0 := by decide
  have hz2 : (0xFF : Nat) &&& 0xFF00 = 0 := by decide
  have hs : (0xFF00 : Nat) &&& 0xFF00 = 0xFF00 := by decide
  have hhigh : i &&& 0xFF00 = 0 := by
    rw [← hmask, Nat.and_assoc, hz2, Nat.and_zero]
  constructor
  · rw [Nat.and_distrib_right, Nat.and_assoc, hz1, Nat.and_zero, hmask, Nat.zero_or]
  · rw [Nat.and_distrib_right, Nat.and_assoc, hs, hhigh, Nat.or_zero]

theorem replaceLowByte_present (t : Table) (ascii key : Nat)
    (hex : ∃ j : Byte, t j = U32.ofNat ascii) :
    replaceLowByte (some t) ascii key
      = (key &&& 0xFF00) ||| (encodedByte t (U32.ofNat ascii)).val := by
  unfold replaceLowByte
  simp only [encodeOneByteScan_present t _ hex]

theorem replaceLowByte_absent (t : Table) (ascii key : Nat)
    (hmiss : ∀ j : Byte, t j ≠ U32.ofNat ascii) :
    replaceLowByte (some t) ascii key = key &&& 0xFF00 := by
  unfold replaceLowByte
  simp only [encodeOneByteScan_absent t _ hmiss]

theorem remapsCharacter_eq (k : KeyboardConstants) (state : KeyState) (page : CodePage)
    (hascii : state.ascii ≠ 0)
    (hctrl : state.flags &&& k.KBD_CTRL = 0)
    (halt : ¬ (state.keycode = state.ascii ∧ state.flags &&& k.KBD_ALT ≠ 0))
    (hprint : k.isPrint state.keycode = true ∨ state.keycode = k.KEYCODE_INVALID) :
    remapsCharacter k state page = true ↔
      ¬ (0xFF < state.ascii ∧ (page = CodePage.kCodePage437 ∨ page = CodePage.kCodePage850 ∨
        page = CodePage.kWindows1252)) := by
  unfold remapsCharacter
  have h1 : decide (state.ascii ≠ 0) = true := decide_eq_true hascii
  have h2 : decide (state.flags &&& k.KBD_CTRL = 0) = true := decide_eq_true hctrl
  have h3 : (!(decide (state.keycode = state.ascii) &&
      decide (state.flags &&& k.KBD_ALT ≠ 0))) = true := by
    rw [Bool.not_eq_true', Bool.and_eq_false_iff]
    by_cases hk : state.keycode = state.ascii
    · right
      exact decide_eq_false (fun hne => halt ⟨hk, hne⟩)
    · left
      exact decide_eq_false hk
  have h4 : (k.isPrint state.keycode || decide (state.keycode = k.KEYCODE_INVALID)) = true := by
    rcases hprint with hp | hp
    · rw [hp, Bool.true_or]
    · rw [decide_eq_true hp, Bool.or_true]
  rw [h1, h2, h3, h4]
  simp only [Bool.and_self, Bool.true_and, Bool.or_eq_true, decide_eq_true_eq,
    Bool.not_eq_true', Bool.or_eq_false_iff, decide_eq_false_iff_not]
  constructor
  · rintro (hle | ⟨⟨n1, n2⟩, n3⟩)
    · intro hc
      omega
    · rintro ⟨_, hp | hp | hp⟩
      · exact n1 hp
      · exact n2 hp
      · exact n3 hp
  · intro hn
    by_cases hle : state.ascii ≤ 0xFF
    · exact Or.inl hle
    · right
      refine ⟨⟨fun hp => hn ⟨by omega, Or.inl hp⟩, fun hp => hn ⟨by omega, Or.inr (Or.inl hp)⟩⟩,
        fun hp => hn ⟨by omega, Or.inr (Or.inr hp)⟩⟩

theorem mapKeyState_eq (k : KeyboardConstants) (h : Host) (state : KeyState)
    (mapPtr : List INT16hKeyMap) (page : CodePage) (key : Nat)
    (hkey : selectKey k (effectiveFlags k state) state.keycode mapPtr = .ok key) :
    mapKeyStateToINT16hKey k h state mapPtr page
      = .ok (if remapsCharacter k state page
          then replaceLowByte (h.getCodePageConversionTable page) state.ascii key else key) := by
  unfold mapKeyStateToINT16hKey
  rw [hkey]
  cases remapsCharacter k state page <;> rfl
/-- Claim C25, as amended: for a key state with non-zero `ascii`, no `KBD_CTRL` flag, not
(`keycode == ascii` with `KBD_ALT`) and a printable or `KEYCODE_INVALID` key code, whose
map lookup gives the key `key`: if `ascii > 0xFF` and the page is `kCodePage437`,
`kCodePage850` or `kWindows1252`, the result is `key` unchanged. Otherwise the result
keeps the high byte of `key`, and its low byte is the first index at which the conversion
table of the page holds `ascii`; it is 0 when the page has no conversion table or the
table does not hold `ascii`. -/
theorem mapKeyState_replaces_low_byte (k : KeyboardConstants) (h : Host) (state : KeyState)
    (mapPtr : List INT16hKeyMap) (page : CodePage) (key : Nat)
    (hascii : state.ascii ≠ 0)
    (hctrl : state.flags &&& k.KBD_CTRL = 0)
    (halt : ¬ (state.keycode = state.ascii ∧ state.flags &&& k.KBD_ALT ≠ 0))
    (hprint : k.isPrint state.keycode = true ∨ state.keycode = k.KEYCODE_INVALID)
    (hkey : selectKey k (effectiveFlags k state) state.keycode mapPtr = .ok key) :
    (0xFF < state.ascii ∧ (page = CodePage.kCodePage437 ∨ page = CodePage.kCodePage850 ∨
        page = CodePage.kWindows1252) →
      mapKeyStateToINT16hKey k h state mapPtr page = .ok key) ∧
    (¬ (0xFF < state.ascii ∧ (page = CodePage.kCodePage437 ∨ page = CodePage.kCodePage850 ∨
        page = CodePage.kWindows1252)) →
      (∀ t : Table, h.getCodePageConversionTable page = some t →
        (∃ j : Byte, t j = U32.ofNat state.ascii) →
        ∃ i : Byte, t i = U32.ofNat state.ascii ∧
          (∀ j : Byte, j < i → t j ≠ U32.ofNat state.ascii) ∧
          mapKeyStateToINT16hKey k h state mapPtr page = .ok ((key &&& 0xFF00) ||| i.val) ∧
          ((key &&& 0xFF00) ||| i.val) &&& 0xFF = i.val ∧
          ((key &&& 0xFF00) ||| i.val) &&& 0xFF00 = key &&& 0xFF00) ∧
      (∀ t : Table, h.getCodePageConversionTable page = some t →
        (∀ j : Byte, t j ≠ U32.ofNat state.ascii) →
        mapKeyStateToINT16hKey k h state mapPtr page = .ok (key &&& 0xFF00)) ∧
      (h.getCodePageConversionTable page = none →
        mapKeyStateToINT16hKey k h state mapPtr page = .ok (key &&& 0xFF00))) := by
  have hcond := remapsCharacter_eq k state page hascii hctrl halt hprint
  have hres := mapKeyState_eq k h state mapPtr page key hkey
  constructor
  · intro hus
    have hfalse : remapsCharacter k state page = false := by
      cases hr : remapsCharacter k state page
      · rfl
      · exact absurd hus (hcond.mp hr)
    rw [hres, hfalse]
    rfl
  · intro hother
    have htrue : remapsCharacter k state page = true := hcond.mpr hother
    rw [hres, htrue]
    simp only [if_true]
    refine ⟨?_, ?_, ?_⟩
    · intro t ht hex
      obtain ⟨hval, hleast⟩ := encodedByte_present t (U32.ofNat state.ascii) hex
      refine ⟨encodedByte t (U32.ofNat state.ascii), hval, hleast, ?_,
        (low_byte_or key _ (encodedByte t (U32.ofNat state.ascii)).isLt).1,
        (low_byte_or key _ (encodedByte t (U32.ofNat state.ascii)).isLt).2⟩
      rw [ht, replaceLowByte_present t _ _ hex]
    · intro t ht hmiss
      rw [ht, replaceLowByte_absent t _ _ hmiss]
    · intro hnone
      rw [hnone]
      rfl

set_option maxRecDepth 100000 in
theorem mapKeyState_replaces_low_byte_witness :
    selectKey exampleKeyboard (effectiveFlags exampleKeyboard
      { keycode := 101, ascii := 0xE9, flags := 0 }) 101 exampleKeyMap = .ok 0x1265 ∧
    mapKeyStateToINT16hKey exampleKeyboard exampleHost
      { keycode := 101, ascii := 0xE9, flags := 0 } exampleKeyMap CodePage.kCodePage437
      = .ok 0x12E9 ∧
    mapKeyStateToINT16hKey exampleKeyboard exampleHost
      { keycode := 101, ascii := 0x20AC, flags := 0 } exampleKeyMap CodePage.kCodePage437
      = .ok 0x1265 ∧
    mapKeyStateToINT16hKey exampleKeyboard exampleHost
      { keycode := 101, ascii := 0x20AC, flags := 0 } exampleKeyMap CodePage.kCodePage866
      = .ok (0x1265 &&& 0xFF00) :=
  ⟨rfl, rfl,
    (mapKeyState_replaces_low_byte exampleKeyboard exampleHost
      { keycode := 101, ascii := 0x20AC, flags := 0 } exampleKeyMap CodePage.kCodePage437
      0x1265 (by decide) (by decide) (by decide) (Or.inl rfl) rfl).1 ⟨by decide, Or.inl rfl⟩,
    ((mapKeyState_replaces_low_byte exampleKeyboard exampleHost
      { keycode := 101, ascii := 0x20AC, flags := 0 } exampleKeyMap CodePage.kCodePage866
      0x1265 (by decide) (by decide) (by decide) (Or.inl rfl) rfl).2 (by decide)).2.2 rfl⟩

set_option maxRecDepth 100000 in
/-- Claim C25 fails as stated: for the key `e` with the character 0x80 and the page
`kCodePage437`, whose table on this host holds 0x80 at no index, the low byte of the
result is 0, which is not an index at which the table holds the character; so it is for
the character 0x20AC and the page `kCodePage866`, which has no table on this host. -/
theorem unmapped_character_counterexample :
    (∀ j : Byte, (fun b : Byte => if b.val = 0x80 then (0x41 : U32)
      else if b.val = 0x81 then 0x410 else U32.ofNat b.val) j ≠ 0x80) ∧
    overlappingHost.getCodePageConversionTable CodePage.kCodePage437
      = some (fun b => if b.val = 0x80 then 0x41 else if b.val = 0x81 then 0x410
          else U32.ofNat b.val) ∧
    mapKeyStateToINT16hKey exampleKeyboard overlappingHost
      { keycode := 101, ascii := 0x80, flags := 0 } exampleKeyMap CodePage.kCodePage437
      = .ok 0x1200 ∧
    exampleHost.getCodePageConversionTable CodePage.kCodePage866 = none ∧
    mapKeyStateToINT16hKey exampleKeyboard exampleHost
      { keycode := 101, ascii := 0x20AC, flags := 0 } exampleKeyMap CodePage.kCodePage866
      = .ok 0x1200 := by
  refine ⟨?_, rfl, rfl, rfl, rfl⟩
  intro j hj
  have hv := congrArg Fin.val hj
  by_cases h80 : j.val = 0x80
  · simp only [h80, if_true] at hv
    exact absurd hv (by decide)
  · by_cases h81 : j.val = 0x81
    · simp only [h81, if_true] at hv
      exact absurd hv (by decide)
    · simp only [h80, h81, if_false, u32_ofNat_val] at hv
      have hlt := j.isLt
      have h128 : ((128 : U32) : Nat) = 128 := rfl
      omega

end Common
